import Mathlib

/-!
Verification development for the `starlight-openapi-navigator` spec pipeline.

This file gives a shallow embedding, in Lean 4, of the pure core of the
repository's OpenAPI normalization pipeline:

* the slug helpers and the stateful slug factory (`toSlug`,
  `createSlugFactory` in the parser module);
* the schema reference resolver (`resolveSchemaObject`,
  `mergeSchemaObjects`, `buildSchemaDefinitionMap` in the schema-form
  module), embedded with explicit fuel so that its termination is a
  provable statement rather than an assumption;
* the parameter resolver (`resolveParameter`, `mergeParameterObjects`,
  `mergeParameters`);
* the document normalizer (`loadAndNormalizeSpec`'s pure part after
  parsing), the customization layer (`customizeSpec`), and the runtime
  artifact builder (`createRuntimeSpecArtifacts`).

JavaScript values that the code manipulates structurally are embedded as a
JSON-like inductive type `JVal`; JavaScript objects are association lists
with unique keys in insertion order, matching the enumeration-order
semantics the code relies on (`Object.entries`, spread, `Map`).
JavaScript `undefined` is represented by `Option` at function boundaries.
`String.prototype.localeCompare` is modelled as code-point comparison, and
`toLowerCase`/`trim` as their ASCII/whitespace counterparts.
-/

namespace SON

/-! ### Decimal rendering of counters

The factory renders collision counters with JavaScript template
interpolation of a number, i.e. base-10 `String(count + 1)`. -/

/-- Decimal digit character for a value below ten (the only way the slug
factory's counter is rendered). -/
def digitChar (n : Nat) : Char :=
  match n with
  | 0 => '0' | 1 => '1' | 2 => '2' | 3 => '3' | 4 => '4'
  | 5 => '5' | 6 => '6' | 7 => '7' | 8 => '8' | _ => '9'

/-- Accumulator form of base-10 rendering.  The first argument is
structural fuel (any value at least the number being rendered makes the
backstop unreachable), keeping the definition kernel-reducible. -/
def decReprCore : Nat → Nat → List Char → List Char
  | 0, n, acc => digitChar n :: acc
  | fuel + 1, n, acc =>
    if n < 10 then digitChar n :: acc
    else decReprCore fuel (n / 10) (digitChar (n % 10) :: acc)

/-- Base-10 rendering of a natural number, as produced by JavaScript
string interpolation of a non-negative integer. -/
def decRepr (n : Nat) : String :=
  String.mk (decReprCore n n [])

/-- Reads a digit list back into a number; inverse used to show that the
decimal rendering is injective. -/
def decVal (cs : List Char) : Nat :=
  cs.foldl (fun a c => a * 10 + (c.toNat - 48)) 0

/-! ### Slug construction

`toSlug(value, fallback)`: lowercase, replace each run of characters
outside `[a-z0-9]` with a single hyphen, strip leading/trailing hyphens,
fall back when the input or the result is empty. -/

/-- Whitespace characters removed by JavaScript `String.prototype.trim`
(modelled for the ASCII whitespace the pipeline encounters). -/
def isWsChar (c : Char) : Bool :=
  c = ' ' || c = '\t' || c = '\n' || c = '\r'

/-- Trims leading and trailing whitespace from a character list. -/
def trimChars (cs : List Char) : List Char :=
  ((cs.dropWhile isWsChar).reverse.dropWhile isWsChar).reverse

/-- Embeds JavaScript `String.prototype.trim`. -/
def jsTrim (s : String) : String :=
  String.mk (trimChars s.data)

/-- Embeds JavaScript `String.prototype.toLowerCase` for ASCII letters
(the code lowercases slugs, language keys and tag keys). -/
def jsToLowerChar (c : Char) : Char :=
  match c with
  | 'A' => 'a' | 'B' => 'b' | 'C' => 'c' | 'D' => 'd' | 'E' => 'e'
  | 'F' => 'f' | 'G' => 'g' | 'H' => 'h' | 'I' => 'i' | 'J' => 'j'
  | 'K' => 'k' | 'L' => 'l' | 'M' => 'm' | 'N' => 'n' | 'O' => 'o'
  | 'P' => 'p' | 'Q' => 'q' | 'R' => 'r' | 'S' => 's' | 'T' => 't'
  | 'U' => 'u' | 'V' => 'v' | 'W' => 'w' | 'X' => 'x' | 'Y' => 'y'
  | 'Z' => 'z' | other => other

/-- Lowercases a whole string, character by character. -/
def jsToLower (s : String) : String :=
  String.mk (s.data.map jsToLowerChar)

/-- Characters that survive slugging (`[a-z0-9]` after lowercasing). -/
def isSlugChar (c : Char) : Bool :=
  ('a' ≤ c && c ≤ 'z') || ('0' ≤ c && c ≤ '9')

/-- Worker for `squashNonSlug`; the flag records whether the previous
character was part of a squashed non-alphanumeric run. -/
def squashAux : Bool → List Char → List Char
  | _, [] => []
  | inRun, c :: rest =>
    if isSlugChar c then c :: squashAux false rest
    else if inRun then squashAux true rest
    else '-' :: squashAux true rest

/-- Embeds the regex replacement of every maximal run of non-`[a-z0-9]`
characters by a single hyphen. -/
def squashNonSlug (cs : List Char) : List Char :=
  squashAux false cs

/-- Strips leading and trailing hyphens (the second regex replacement in
`toSlug`). -/
def trimDashes (cs : List Char) : List Char :=
  ((cs.dropWhile (· = '-')).reverse.dropWhile (· = '-')).reverse

/-- Embedding of `toSlug(value, fallback)` from the parser module. The
JavaScript function also accepts non-string values, which fall back the
same way an all-whitespace string does; every call site in the embedded
code passes strings, so the embedding takes strings. -/
def toSlug (value : String) (fallback : String) : String :=
  let base := if jsTrim value = "" then fallback else jsTrim value
  let slug := trimDashes (squashNonSlug (jsToLower base).data)
  if slug.isEmpty then fallback else String.mk slug

/-! ### Stateful slug factory

`createSlugFactory(defaultSlug)` returns a closure over a `Map` from slug
base to the number of times that base has been requested.  The embedding
threads that map explicitly: `FactState` is the `Map` (insertion-ordered
association list), `slugFactoryStep` is one call of the closure. -/

/-- State of one slug-factory instance: the `seen` map from base slug to
issue count. -/
abbrev FactState := List (String × Nat)

/-- Lookup in the factory's `seen` map. -/
def factGet (st : FactState) (k : String) : Option Nat :=
  (st.find? (fun e => e.1 == k)).map (·.2)

/-- Insert-or-replace in the factory's `seen` map, preserving insertion
order like a JavaScript `Map`. -/
def factSet (st : FactState) (k : String) (v : Nat) : FactState :=
  match st with
  | [] => [(k, v)]
  | e :: rest => if e.1 == k then (k, v) :: rest else e :: factSet rest k v

/-- One call of the closure returned by `createSlugFactory`: slug the
value, look up how often that base was issued, bump the counter, and
suffix `-2`, `-3`, … on collision. -/
def slugFactoryStep (defaultSlug : String) (st : FactState)
    (value : String) (fallback : String) : String × FactState :=
  let base := toSlug value (if fallback = "" then defaultSlug else fallback)
  let count := (factGet st base).getD 0
  (if count = 0 then base else base ++ "-" ++ decRepr (count + 1),
    factSet st base (count + 1))

/-- Runs one factory instance over a list of input values starting from an
arbitrary `seen` map, collecting the issued slugs.  Each call uses the
default fallback, as a bare `factory(value)` call does. -/
def runSlugFactoryFrom (defaultSlug : String) (st : FactState) :
    List String → List String
  | [] => []
  | v :: rest =>
    (slugFactoryStep defaultSlug st v defaultSlug).1 ::
      runSlugFactoryFrom defaultSlug (slugFactoryStep defaultSlug st v defaultSlug).2 rest

/-- Runs a fresh factory instance (empty `seen` map) over a list of input
values, collecting the issued slugs in order. -/
def runSlugFactory (defaultSlug : String) (vals : List String) : List String :=
  runSlugFactoryFrom defaultSlug [] vals

/-- The slug the factory issues for base `b` on its `c`-th collision
(`c = 0` is the first issue and returns the bare base). -/
def render (b : String) (c : Nat) : String :=
  if c = 0 then b else b ++ "-" ++ decRepr (c + 1)

/-- Current issue count of a base in the factory state. -/
def stCount (st : FactState) (b : String) : Nat :=
  (factGet st b).getD 0

/-- No base in the list extends another base by a hyphen plus a nonempty
digit run.  This is exactly the side condition the counterexample to the
original uniqueness claim violates. -/
def SuffixFree (bs : List String) : Prop :=
  ∀ b1 ∈ bs, ∀ b2 ∈ bs, ∀ ds : List Char, ds ≠ [] → (∀ c ∈ ds, c.isDigit) →
    b2 ≠ b1 ++ "-" ++ String.mk ds

/-! ### JSON-like values

JavaScript values manipulated structurally by the pipeline.  Objects are
association lists with unique keys in insertion order; `undefined` is
represented by `Option` at function boundaries.  Numbers are embedded as
integers (the resolver never computes with them). -/

inductive JVal where
  | null : JVal
  | bool (b : Bool) : JVal
  | num (n : Int) : JVal
  | str (s : String) : JVal
  | arr (elems : List JVal) : JVal
  | obj (fields : List (String × JVal)) : JVal

/-- Fields of a JavaScript object. -/
abbrev JObj := List (String × JVal)

/-- Property read on an object's fields (`o[k]`, `undefined` when absent). -/
def jget (fs : JObj) (k : String) : Option JVal :=
  (fs.find? (fun e => e.1 == k)).map (·.2)

/-- Property write (`o[k] = v`): updates in place, preserving the key's
position, or appends a new key at the end — JavaScript enumeration-order
semantics. -/
def jset (fs : JObj) (k : String) (v : JVal) : JObj :=
  match fs with
  | [] => [(k, v)]
  | e :: rest => if e.1 == k then (k, v) :: rest else e :: jset rest k v

/-- Property delete (`delete o[k]`). -/
def jdel (fs : JObj) (k : String) : JObj :=
  fs.filter (fun e => e.1 != k)

/-- Object spread `{...a, ...b}`: keys of `a` in order with values
overridden by `b`, then new keys of `b` appended in `b`'s order. -/
def jmergeObj (a b : JObj) : JObj :=
  b.foldl (fun acc e => jset acc e.1 e.2) a

/-- JavaScript truthiness of an embedded value (`NaN` is not modelled). -/
def jsTruthy : JVal → Bool
  | .null => false
  | .bool b => b
  | .num n => n != 0
  | .str s => s != ""
  | .arr _ => true
  | .obj _ => true

/-- Truthiness of a possibly-absent value (`undefined` is falsy). -/
def jsTruthyOpt : Option JVal → Bool
  | none => false
  | some v => jsTruthy v

/-- Property read through a `JVal` (optional-chaining style: reading off a
non-object yields `undefined`). -/
def jgetV (v : JVal) (k : String) : Option JVal :=
  match v with
  | .obj fs => jget fs k
  | _ => none

/-- Optional-chained path read (`a?.b?.c`). -/
def jgetPath (v : JVal) : List String → Option JVal
  | [] => some v
  | k :: ks =>
    match jgetV v k with
    | none => none
    | some w => jgetPath w ks

mutual

/-- Structural equality used to model `SameValueZero` for the primitive
values the code actually compares (strings in `required` arrays).  For
object/array elements JavaScript compares identities; the embedding
compares structurally, which only affects de-duplication of non-primitive
`required` entries. -/
def jvalEq : JVal → JVal → Bool
  | .null, .null => true
  | .bool a, .bool b => a == b
  | .num a, .num b => a == b
  | .str a, .str b => a == b
  | .arr xs, .arr ys => jvalListEq xs ys
  | .obj xs, .obj ys => jvalFieldsEq xs ys
  | _, _ => false
  termination_by structural v => v

/-- Elementwise structural equality of value lists. -/
def jvalListEq : List JVal → List JVal → Bool
  | [], [] => true
  | x :: xs, y :: ys => jvalEq x y && jvalListEq xs ys
  | _, _ => false
  termination_by structural vs => vs

/-- Keyed structural equality of object field lists. -/
def jvalFieldsEq : List (String × JVal) → List (String × JVal) → Bool
  | [], [] => true
  | (k, x) :: xs, (l, y) :: ys => k == l && jvalEq x y && jvalFieldsEq xs ys
  | _, _ => false
  termination_by structural fs => fs

end

/-- Membership test against a list of already-kept values. -/
def jvalMemBy (v : JVal) : List JVal → Bool
  | [] => false
  | x :: xs => jvalEq v x || jvalMemBy v xs

/-- Embeds `Array.from(new Set(xs))`: de-duplicate keeping the first
occurrence, preserving order. -/
def dedupeJVals : List JVal → List JVal :=
  go []
where
  go (kept : List JVal) : List JVal → List JVal
    | [] => []
    | x :: xs =>
      if jvalMemBy x kept then go kept xs else x :: go (x :: kept) xs

/-! ### Schema reference resolver (schema-form module)

Embedding of `createSchemaFormUtils`'s `resolveSchemaObject` and its
helpers.  `deepClone` is `JSON.parse(JSON.stringify(v))`, which is the
identity on the cycle-free JSON-like values `JVal` can represent, so it is
not reified.  `resolveSchemaObject` is embedded with explicit fuel: the
outer `Option` is `none` exactly when the fuel runs out, so termination of
the JavaScript recursion is the provable statement that some fuel returns
`some` — see the C9 theorem. -/

/-- Unescapes `~1` to `/` (first `.replace` in `decodeRefName`). -/
def unescapeTilde1 : List Char → List Char
  | '~' :: '1' :: rest => '/' :: unescapeTilde1 rest
  | c :: rest => c :: unescapeTilde1 rest
  | [] => []

/-- Unescapes `~0` to `~` (second `.replace` in `decodeRefName`). -/
def unescapeTilde0 : List Char → List Char
  | '~' :: '0' :: rest => '~' :: unescapeTilde0 rest
  | c :: rest => c :: unescapeTilde0 rest
  | [] => []

/-- JSON-pointer unescaping, `~1` before `~0` as in the source. -/
def decodePointerName (s : String) : String :=
  String.mk (unescapeTilde0 (unescapeTilde1 s.data))

/-- Prefix test on character lists. -/
def isPrefixOfChars : List Char → List Char → Bool
  | [], _ => true
  | _ :: _, [] => false
  | p :: ps, c :: cs => p == c && isPrefixOfChars ps cs

/-- Splits at the first occurrence of `sep`, returning the characters
after it; `none` when `sep` does not occur. -/
def breakOnSep (sep : List Char) : List Char → Option (List Char)
  | [] => none
  | c :: rest =>
    if isPrefixOfChars sep (c :: rest) then some ((c :: rest).drop sep.length)
    else
      match breakOnSep sep rest with
      | none => none
      | some after => some after

/-- Scans for the first occurrence of `sep` whose suffix matches `(.+)$`
— nonempty and free of line terminators, which `.` does not match.  The
separators used contain `#` only at their head, so occurrences cannot
overlap and the regex engine's retry continues inside the previous
suffix; fuel bounded by the string length makes the scan structural. -/
def refCaptureScan (sep : List Char) : Nat → List Char → Option (List Char)
  | 0, _ => none
  | fuel + 1, s =>
    match breakOnSep sep s with
    | none => none
    | some after =>
      if after ≠ [] && after.all (fun c => c ≠ '\n' && c ≠ '\r')
      then some after
      else refCaptureScan sep fuel after

/-- Embeds `decodeRefName`: regex match of the ref prefix followed by
`(.+)$`, then `~1`/`~0` unescaping; `undefined` when the pointer does not
match. -/
def decodeRefNameWith (sep : String) (pointer : String) : Option String :=
  match refCaptureScan sep.data (pointer.data.length + 1) pointer.data with
  | none => none
  | some captured => some (decodePointerName (String.mk captured))

/-- The schema-form module's `decodeRefName`, for
`#/components/schemas/<name>` pointers. -/
def decodeSchemaRefName (pointer : String) : Option String :=
  decodeRefNameWith "#/components/schemas/" pointer

/-- Lookup in a `Map`-like association list (string keys, first match). -/
def mapGetJ (m : JObj) (k : String) : Option JVal :=
  (m.find? (fun e => e.1 == k)).map (·.2)

/-- Embeds `getSchemaFromRef`: decode the pointer, then look the name up
in the schema-definition map; `undefined` on either failure. -/
def getSchemaFromRef (defs : JObj) (ref : String) : Option JVal :=
  match decodeSchemaRefName ref with
  | none => none
  | some name => mapGetJ defs name

/-- Embeds `buildSchemaDefinitionMap`: collects plain-object schemas from
`spec.document.components.schemas` and `spec.components.schemas`, then
overlays entries of a normalized `spec.schemas` array. -/
def buildSchemaDefinitionMap (currentSpec : JVal) : JObj :=
  let addSource (m : JObj) (source : Option JVal) : JObj :=
    match source with
    | some (.obj fs) =>
      fs.foldl (fun acc e =>
        match e.2 with
        | .obj _ => jset acc e.1 e.2
        | _ => acc) m
    | _ => m
  let m0 := addSource [] (jgetPath currentSpec ["document", "components", "schemas"])
  let m1 := addSource m0 (jgetPath currentSpec ["components", "schemas"])
  match jgetV currentSpec "schemas" with
  | some (.arr entries) =>
    entries.foldl (fun acc entry =>
      match entry with
      | .obj fs =>
        match jget fs "name", jget fs "schema" with
        | some (.str name), some (.obj sfs) => jset acc name (.obj sfs)
        | some (.str name), some (.arr xs) => jset acc name (.arr xs)
        | _, _ => acc
      | _ => acc) m1
  | _ => m1

/-- Embeds `mergeSchemaObjects(base, override)`: spread-merge, combined
`properties`, unioned (`Set`-deduplicated) `required`, and removal of
`allOf` when either side carries a truthy one. -/
def mergeSchemaObjects (base override : JObj) : JObj :=
  let result := jmergeObj base override
  let baseProps := match jget base "properties" with
    | some (.obj ps) => ps
    | _ => []
  let overrideProps := match jget override "properties" with
    | some (.obj ps) => ps
    | _ => []
  let result :=
    if baseProps.length ≠ 0 || overrideProps.length ≠ 0 then
      jset result "properties" (.obj (jmergeObj baseProps overrideProps))
    else result
  let baseReq := match jget base "required" with
    | some (.arr xs) => xs
    | _ => []
  let overrideReq := match jget override "required" with
    | some (.arr xs) => xs
    | _ => []
  let result :=
    if baseReq.length ≠ 0 || overrideReq.length ≠ 0 then
      jset result "required" (.arr (dedupeJVals (baseReq ++ overrideReq)))
    else result
  if jsTruthyOpt (jget base "allOf") || jsTruthyOpt (jget override "allOf") then
    jdel result "allOf"
  else result

/-- The result of `resolveSchemaObject(x, seen) || {}` applied to a child
position; `none` means the fuel ran out. -/
def resolveChild (rec : JVal → List String → Option (Option JObj))
    (x : JVal) (seen : List String) : Option JObj :=
  match rec x seen with
  | none => none
  | some none => some []
  | some (some fs) => some fs

/-- The `$ref` branch of `resolveSchemaObject`.  Returns the working
schema together with the `seen` set that the remainder of the call uses
(the JavaScript code mutates `seen` before recursing).  A truthy
non-string `$ref` never matches the `seen` identity set and never decodes
to a name, so it behaves as an unresolvable ref with an unchanged
observable `seen`. -/
def refStage (rec : JVal → List String → Option (Option JObj)) (defs : JObj)
    (fs : JObj) (seen : List String) : Option (JObj × List String) :=
  match jget fs "$ref" with
  | some rv =>
    if jsTruthy rv then
      match rv with
      | .str r =>
        if seen.contains r then
          some (jdel fs "$ref", seen)
        else
          match
            (match getSchemaFromRef defs r with
              | none => some none
              | some s => rec s (r :: seen)) with
          | none => none
          | some refOpt =>
            some (mergeSchemaObjects (refOpt.getD []) (jdel fs "$ref"), r :: seen)
      | _ => some (mergeSchemaObjects [] (jdel fs "$ref"), seen)
    else some (fs, seen)
  | none => some (fs, seen)

/-- The fold over the (captured) `allOf` array: entries resolving to
`undefined` are skipped, others are merged into the working schema. -/
def allOfFold (rec : JVal → List String → Option (Option JObj)) :
    List JVal → JObj → List String → Option JObj
  | [], acc, _ => some acc
  | e :: es, acc, seen =>
    match rec e seen with
    | none => none
    | some none => allOfFold rec es acc seen
    | some (some r) => allOfFold rec es (mergeSchemaObjects acc r) seen

/-- The `allOf` stage: only an array-valued `allOf` is processed, and the
key is deleted afterwards. -/
def allOfStage (rec : JVal → List String → Option (Option JObj))
    (w : JObj) (seen : List String) : Option JObj :=
  match jget w "allOf" with
  | some (.arr entries) =>
    match allOfFold rec entries w seen with
    | none => none
    | some acc => some (jdel acc "allOf")
  | _ => some w

/-- Resolves every value of a `properties` object (`resolve(v) || {}`). -/
def propsMap (rec : JVal → List String → Option (Option JObj)) :
    List (String × JVal) → List String → Option (List (String × JVal))
  | [], _ => some []
  | (k, x) :: rest, seen =>
    match resolveChild rec x seen with
    | none => none
    | some r =>
      match propsMap rec rest seen with
      | none => none
      | some rest' => some ((k, .obj r) :: rest')

/-- The `properties` stage: only a plain-object `properties` is rebuilt. -/
def propsStage (rec : JVal → List String → Option (Option JObj))
    (w : JObj) (seen : List String) : Option JObj :=
  match jget w "properties" with
  | some (.obj ps) =>
    match propsMap rec ps seen with
    | none => none
    | some ps' => some (jset w "properties" (.obj ps'))
  | _ => some w

/-- The `items` / `additionalProperties` stage for the given key: only a
plain-object value is resolved (`resolve(v) || {}`). -/
def itemsStage (rec : JVal → List String → Option (Option JObj))
    (w : JObj) (seen : List String) (key : String) : Option JObj :=
  match jget w key with
  | some (.obj its) =>
    match resolveChild rec (.obj its) seen with
    | none => none
    | some r => some (jset w key (.obj r))
  | _ => some w

/-- The trailing `type` inference: a falsy `type` becomes `"object"` when
`properties` is truthy, else `"array"` when `items` is truthy. -/
def typeStage (w : JObj) : JObj :=
  if jsTruthyOpt (jget w "type") then w
  else if jsTruthyOpt (jget w "properties") then jset w "type" (.str "object")
  else if jsTruthyOpt (jget w "items") then jset w "type" (.str "array")
  else w

/-- The tail of the call after the `items` stage: `additionalProperties`
then `type` inference. -/
def afterItems (rec : JVal → List String → Option (Option JObj))
    (w4 : JObj) (seen : List String) : Option (Option JObj) :=
  match itemsStage rec w4 seen "additionalProperties" with
  | none => none
  | some w5 => some (some (typeStage w5))

/-- The tail of the call after the `properties` stage. -/
def afterProps (rec : JVal → List String → Option (Option JObj))
    (w3 : JObj) (seen : List String) : Option (Option JObj) :=
  match itemsStage rec w3 seen "items" with
  | none => none
  | some w4 => afterItems rec w4 seen

/-- The tail of the call after the `allOf` stage. -/
def afterAllOf (rec : JVal → List String → Option (Option JObj))
    (w2 : JObj) (seen : List String) : Option (Option JObj) :=
  match propsStage rec w2 seen with
  | none => none
  | some w3 => afterProps rec w3 seen

/-- The remainder of a `resolveSchemaObject` call once the `$ref` branch
has produced the working schema and the `seen` set for the rest of the
call. -/
def resolveAfterRef (rec : JVal → List String → Option (Option JObj))
    (w1 : JObj) (seen : List String) : Option (Option JObj) :=
  match allOfStage rec w1 seen with
  | none => none
  | some w2 => afterAllOf rec w2 seen

/-- One call body of `resolveSchemaObject`, parameterized by the function
used for recursive calls (instantiated with one less unit of fuel). -/
def resolveBody (rec : JVal → List String → Option (Option JObj))
    (defs : JObj) (v : JVal) (seen : List String) : Option (Option JObj) :=
  match v with
  | .obj fs =>
    match refStage rec defs fs seen with
    | none => none
    | some (w1, seen') => resolveAfterRef rec w1 seen'
  | _ => some none

/-- Fuel-indexed embedding of `resolveSchemaObject(schema, seen)`.  The
outer `Option` is fuel exhaustion; the inner `Option` is the JavaScript
`undefined` result for non-object input; an object result is its field
list. -/
def resolveSchemaObjectF : Nat → JObj → JVal → List String → Option (Option JObj)
  | 0, _, _, _ => none
  | n + 1, defs, v, seen =>
    resolveBody (fun w s => resolveSchemaObjectF n defs w s) defs v seen

/-! ### Termination instrumentation for the resolver

The C9 termination proof measures (a) how many of the finitely many
string atoms reachable from the schema and the definition map are not yet
in the `seen` set, and (b) the structural size of the schema; and it
tracks which values are outputs of earlier resolutions (`Res`), since
re-resolving an output never expands a ref again. -/

mutual

/-- All string atoms occurring in value position. Every pointer the
resolver can ever add to `seen` is such an atom of the original schema,
of the definition map, or of an intermediate merge of those. -/
def strVals : JVal → List String
  | .str s => [s]
  | .arr xs => strValsList xs
  | .obj fs => strValsFields fs
  | _ => []
  termination_by structural v => v

/-- String atoms of a value list. -/
def strValsList : List JVal → List String
  | [] => []
  | x :: xs => strVals x ++ strValsList xs
  termination_by structural vs => vs

/-- String atoms of an object's field values. -/
def strValsFields : List (String × JVal) → List String
  | [] => []
  | (_, x) :: fs => strVals x ++ strValsFields fs
  termination_by structural fs => fs

end

mutual

/-- Structural size of a value (strictly decreases to proper parts). -/
def jsize : JVal → Nat
  | .arr xs => 1 + jsizeList xs
  | .obj fs => 1 + jsizeFields fs
  | _ => 1
  termination_by structural v => v

/-- Structural size of a value list. -/
def jsizeList : List JVal → Nat
  | [] => 0
  | x :: xs => jsize x + jsizeList xs
  termination_by structural vs => vs

/-- Structural size of an object's fields. -/
def jsizeFields : List (String × JVal) → Nat
  | [] => 0
  | (_, x) :: fs => jsize x + jsizeFields fs
  termination_by structural fs => fs

end

/-- The values a resolver call recurses into after its `allOf` stage: the
values of a plain-object `properties`, and plain-object `items` and
`additionalProperties`. -/
def childVals (fs : JObj) : List JVal :=
  (match jget fs "properties" with
    | some (.obj ps) => ps.map (·.2)
    | _ => []) ++
  (match jget fs "items" with
    | some (.obj its) => [JVal.obj its]
    | _ => []) ++
  (match jget fs "additionalProperties" with
    | some (.obj aps) => [JVal.obj aps]
    | _ => [])

/-- Shape of the values `resolveSchemaObject` returns: no truthy `$ref`,
no array `allOf`, and recursively resolved child positions.  Re-resolving
such a value never consults the definition map, so it terminates by
structural descent alone. -/
inductive Res : JVal → Prop where
  | nonobj (v : JVal) : (∀ fs : JObj, v ≠ JVal.obj fs) → Res v
  | obj (fs : JObj) :
      jsTruthyOpt (jget fs "$ref") = false →
      (∀ l, jget fs "allOf" ≠ some (JVal.arr l)) →
      (∀ ps, jget fs "properties" = some (JVal.obj ps) →
        ∀ k v, (k, v) ∈ ps → Res v) →
      (∀ its, jget fs "items" = some (JVal.obj its) → Res (JVal.obj its)) →
      (∀ aps, jget fs "additionalProperties" = some (JVal.obj aps) →
        Res (JVal.obj aps)) →
      Res (JVal.obj fs)

/-- Well-formed embedded values: the image of actual JavaScript values,
whose objects have pairwise-distinct keys.  Parsed documents and
everything the resolver builds from them are well-formed. -/
inductive WFv : JVal → Prop where
  | prim (v : JVal) : (∀ xs : List JVal, v ≠ JVal.arr xs) →
      (∀ fs : JObj, v ≠ JVal.obj fs) → WFv v
  | arr (xs : List JVal) : (∀ x ∈ xs, WFv x) → WFv (JVal.arr xs)
  | obj (fs : JObj) : (fs.map Prod.fst).Nodup →
      (∀ k v, (k, v) ∈ fs → WFv v) → WFv (JVal.obj fs)

/-- Pointwise refinement of fuel-indexed resolvers: everything the first
one completes, the second completes with the same value. -/
def RLe (f g : JVal → List String → Option (Option JObj)) : Prop :=
  ∀ v s x, f v s = some x → g v s = some x

/-- Termination of the embedded `resolveSchemaObject` at an input: some
amount of fuel completes the call. -/
def Terminates (defs : JObj) (v : JVal) (seen : List String) : Prop :=
  ∃ n, resolveSchemaObjectF n defs v seen ≠ none

/-- A fuel-indexed computation that settles on a fixed value once the
fuel is large enough. -/
def Stable {α : Type} (F : Nat → Option α) (x : α) : Prop :=
  ∃ n, ∀ m, n ≤ m → F m = some x


/-- The working schema no longer carries a truthy `$ref`. -/
def NoTruthyRef (w : JObj) : Prop := jsTruthyOpt (jget w "$ref") = false

/-- The working schema carries no array-valued `allOf`. -/
def NoArrAllOf (w : JObj) : Prop := ∀ l, jget w "allOf" ≠ some (JVal.arr l)

/-- Invariant of the working schema between resolver stages: no truthy
`$ref`, well formed, string atoms confined to the universe `P`. -/
def MidP (P : List String) (w : JObj) : Prop :=
  NoTruthyRef w ∧ WFv (JVal.obj w) ∧ ∀ a ∈ strValsFields w, a ∈ P

/-- Invariant of a completed resolver output: resolved shape, well
formed, string atoms confined to the universe `P`. -/
def OutP (P : List String) (w : JObj) : Prop :=
  Res (JVal.obj w) ∧ WFv (JVal.obj w) ∧ ∀ a ∈ strValsFields w, a ∈ P

/-- The `properties` object of a schema when it is a plain object, else
empty — the `baseProps` / `overrideProps` of `mergeSchemaObjects`. -/
def propsOf (o : JObj) : JObj :=
  match jget o "properties" with
  | some (.obj ps) => ps
  | _ => []

/-- The `required` array of a schema when it is an array, else empty. -/
def reqOf (o : JObj) : List JVal :=
  match jget o "required" with
  | some (.arr xs) => xs
  | _ => []

/-! ### Parameter resolver (parser module)

Embedding of `resolveParameter`, `mergeParameterObjects`,
`buildParameterDefinitionMap` and `mergeParameters`. -/

/-- The parser module's `decodeRefName`, for
`#/components/parameters/<name>` pointers. -/
def decodeParamRefName (pointer : String) : Option String :=
  decodeRefNameWith "#/components/parameters/" pointer

/-- Fields of a value when it is a plain object, else no fields (the
spread of the non-object values reaching these merges contributes no
enumerable properties; the definition maps only ever store objects). -/
def objFieldsOr (v : Option JVal) : JObj :=
  match v with
  | some (.obj fs) => fs
  | _ => []

/-- Whether a possibly-absent value is a plain object. -/
def isObjOpt (v : Option JVal) : Bool :=
  match v with
  | some (.obj _) => true
  | _ => false

/-- Embeds `mergeParameterObjects(base, override)`: shallow spread-merge
with `schema` and `examples` sub-merged when either side has an object
there. -/
def mergeParameterObjects (base override : JObj) : JObj :=
  let merged := jmergeObj base override
  let merged :=
    if isObjOpt (jget base "schema") || isObjOpt (jget override "schema") then
      jset merged "schema"
        (.obj (jmergeObj (objFieldsOr (jget base "schema"))
          (objFieldsOr (jget override "schema"))))
    else merged
  if isObjOpt (jget base "examples") || isObjOpt (jget override "examples") then
    jset merged "examples"
      (.obj (jmergeObj (objFieldsOr (jget base "examples"))
        (objFieldsOr (jget override "examples"))))
  else merged

/-- Embeds `buildParameterDefinitionMap`: plain-object entries of
`components.parameters`. -/
def buildParameterDefinitionMap (rawParameters : Option JVal) : JObj :=
  match rawParameters with
  | some (.obj fs) =>
    fs.foldl (fun acc e =>
      match e.2 with
      | .obj _ => jset acc e.1 e.2
      | _ => acc) []
  | _ => []

/-- Embeds `resolveParameter(parameterDefinitions, parameter)`: non-object
input and unresolvable string `$ref`s yield `undefined`, a resolvable ref
is merged base-then-override, and results without a nonempty string
`name` and `in` are rejected. -/
def resolveParameter (defs : JObj) (parameter : JVal) : Option JObj :=
  match parameter with
  | .obj fs =>
    let afterRef : Option JObj :=
      match jget fs "$ref" with
      | some (.str r) =>
        match
          (match decodeParamRefName r with
            | none => none
            | some name => mapGetJ defs name) with
        | none => none
        | some referenced =>
          some (jdel (mergeParameterObjects (objFieldsOr (some referenced)) fs) "$ref")
      | _ => some fs
    match afterRef with
    | none => none
    | some working =>
      match jget working "name" with
      | some (.str nm) =>
        if nm = "" then none
        else
          match jget working "in" with
          | some (.str loc) => if loc = "" then none else some working
          | _ => none
      | _ => none
  | _ => none

/-- Embeds `mergeParameters`: path-level then operation-level parameters,
resolved and de-duplicated by the `name:in` key, later entries replacing
earlier ones in place. -/
def mergeParameters (defs : JObj) (pathParams opParams : List JVal) :
    List JObj :=
  let push := fun (st : List JObj × List (String × Nat)) (param : JVal) =>
    match resolveParameter defs param with
    | none => st
    | some resolved =>
      let nm := match jget resolved "name" with
        | some (.str s) => s
        | _ => ""
      let loc := match jget resolved "in" with
        | some (.str s) => s
        | _ => ""
      let key := nm ++ ":" ++ loc
      match ((st.2.find? (fun e => e.1 == key)).map (·.2)) with
      | some idx => (st.1.set idx resolved, st.2)
      | none => (st.1 ++ [resolved], st.2 ++ [(key, st.1.length)])
  ((pathParams ++ opParams).foldl push ([], [])).1


/-! ### Normalized model (loader, customizer, runtime artifacts)

Typed embedding of the records produced by `loadAndNormalizeSpec` and
consumed by `customizeSpec` and `createRuntimeSpecArtifacts`.  Fields the
code only carries along are embedded as `JVal` payloads.  JavaScript
`undefined` in a field is `Option.none`, and a property explicitly
assigned `undefined` is modelled as an absent key.  `String.localeCompare`
is modelled as code-point comparison, and `Array.prototype.sort` with a
comparator `cmp` as a stable insertion sort over the relation
`cmp a b ≤ 0`: for a consistent comparator JavaScript's sort (stable per
the specification) produces exactly the stable sorted permutation.
`Map`s and plain-object accumulators are association lists with the
overwrite (`setAssoc`) and insert-if-absent semantics of the code. -/

def assocGet {α : Type} (m : List (String × α)) (k : String) : Option α :=
  (m.find? (fun e => e.1 == k)).map (·.2)

def setAssoc {α : Type} : List (String × α) → String → α → List (String × α)
  | [], k, v => [(k, v)]
  | e :: rest, k, v => if e.1 == k then (k, v) :: rest else e :: setAssoc rest k v

structure TagRef where
  name : String
  slug : String
  isFallback : Bool
deriving DecidableEq

structure Sample where
  slug : String
  label : String
  language : String
  syntaxName : String
  source : String
  extensions : JObj

structure SampleGroup where
  label : String
  samples : List Sample

structure TagStats where
  operations : Nat
  deprecated : Nat
  methods : List (String × Nat)

structure TagMeta where
  displayName : String
  sidebarLabel : String

structure ExtDocs where
  url : String
  description : Option String

structure Operation where
  path : String
  method : String
  operationId : String
  slug : String
  summary : Option String
  description : Option String
  deprecated : Bool
  tags : List TagRef
  parameters : JVal
  requestBody : JVal
  responses : JVal
  security : JVal
  servers : JVal
  codeSampleGroups : List SampleGroup
  requestBodyExamples : JVal
  responseExamples : JVal
  extensions : JObj
  raw : JVal

structure Tag where
  name : String
  slug : String
  description : Option String
  externalDocs : Option ExtDocs
  isFallback : Bool
  operations : List Operation
  stats : TagStats
  extensions : JObj
  metadata : Option TagMeta

structure SpecStats where
  tags : Nat
  operations : Nat
  untaggedOperations : Nat
  deprecatedOperations : Nat

structure SchemaEntry where
  name : String
  slug : Option String
  description : Option String
  schema : JVal

structure Spec where
  info : JVal
  servers : List JVal
  tags : List Tag
  operations : List Operation
  document : JVal
  schemas : List SchemaEntry
  stats : SpecStats

/-- `DEFAULT_UNTAGGED_NAME` of the loader module. -/
def defaultUntaggedName : String := "Untagged"

def jsToUpperChar (c : Char) : Char :=
  if 'a' ≤ c ∧ c ≤ 'z' then Char.ofNat (c.toNat - 32) else c

def jsToUpper (s : String) : String := String.mk (s.data.map jsToUpperChar)

/-- Code-point list comparison. -/
def chListLe : List Char → List Char → Bool
  | [], _ => true
  | _ :: _, [] => false
  | a :: as, b :: bs =>
    if a.toNat < b.toNat then true
    else if b.toNat < a.toNat then false
    else chListLe as bs

/-- Code-point string comparison, the embedding of `localeCompare(...) ≤ 0`. -/
def jsStrLe (a b : String) : Bool := chListLe a.data b.data

/-- `normalizeTagKey` on a string: trim then lower-case. -/
def normalizeTagKey (s : String) : String := jsToLower (jsTrim s)

/-- `normalizeTagKey` on an arbitrary value: non-strings give the empty key. -/
def normalizeTagKeyV : JVal → String
  | .str s => normalizeTagKey s
  | _ => ""

def normalizeLanguageKey (s : String) : String := jsToLower (jsTrim s)

/-- `createNormalizedSet`: `none` models a missing/non-array option and an
empty resulting set alike (both make the set `null` in the code). -/
def createNormalizedSet (values : Option (List String)) : Option (List String) :=
  match values with
  | none => none
  | some vs =>
    if vs.length == 0 then none
    else
      let s := vs.foldl (fun acc v =>
        let n := normalizeTagKey v
        if n != "" && !(acc.contains n) then acc ++ [n] else acc) []
      if s.length != 0 then some s else none

def allowTag (tag : Tag) (includeSet excludeSet : Option (List String)) : Bool :=
  let nameKey := normalizeTagKey tag.name
  let slugKey := normalizeTagKey tag.slug
  let inclFail : Bool := match includeSet with
    | some s => !(s.contains nameKey) && !(s.contains slugKey)
    | none => false
  let exclFail : Bool := match excludeSet with
    | some e => e.contains nameKey || e.contains slugKey
    | none => false
  if inclFail then false else if exclFail then false else true

structure TagOverride where
  label : Option String
  sidebarLabel : Option String
  description : Option String

structure COptions where
  tagsInclude : Option (List String)
  tagsExclude : Option (List String)
  tagsOverrides : List (String × TagOverride)
  tagsOrder : Option (List String)
  codeSamplesIncludeLanguages : Option (List String)
  codeSamplesRename : List (String × String)

def createOverridesMap (overrides : List (String × TagOverride)) :
    List (String × TagOverride) :=
  overrides.foldl (fun m e =>
    let n := normalizeTagKey e.1
    if n == "" then m else setAssoc m n e.2) []

def findOverride (m : List (String × TagOverride)) (tag : Tag) :
    Option TagOverride :=
  match assocGet m (normalizeTagKey tag.name) with
  | some v => some v
  | none => assocGet m (normalizeTagKey tag.slug)

def createOrderMapAux : Nat → List String → List (String × Nat) →
    List (String × Nat)
  | _, [], m => m
  | i, v :: rest, m =>
    let n := normalizeTagKey v
    createOrderMapAux (i + 1) rest (if n != "" then setAssoc m n i else m)

def createOrderMap (orderList : Option (List String)) : List (String × Nat) :=
  match orderList with
  | none => []
  | some l => createOrderMapAux 0 l []

/-- `getTagOrder`: `none` models `Number.POSITIVE_INFINITY`. -/
def getTagOrder (m : List (String × Nat)) (tag : Tag) : Option Nat :=
  if m.length == 0 then none
  else match assocGet m (normalizeTagKey tag.name) with
    | some i => some i
    | none => assocGet m (normalizeTagKey tag.slug)

def createRenameMap (rename : List (String × String)) :
    List (String × String) :=
  rename.foldl (fun m e =>
    let n := normalizeLanguageKey e.1
    if n == "" then m else setAssoc m n e.2) []

/-- The sample filter inside `filterCodeSampleGroups`; kept samples whose
language is renamed are updated in place (the sample objects are shared
with the input, but the operation field holding them is reassigned to the
filtered list, so the returned groups are the observable state). -/
def filterSamples (includeSet : Option (List String))
    (renameMap : List (String × String)) : List Sample → List Sample
  | [] => []
  | sample :: rest =>
    let languageKey := normalizeLanguageKey sample.language
    let keep : Bool := match includeSet with
      | some s => (languageKey != "") && s.contains languageKey
      | none => true
    if keep then
      (match assocGet renameMap languageKey with
       | some newLang => { sample with language := newLang }
       | none => sample) :: filterSamples includeSet renameMap rest
    else filterSamples includeSet renameMap rest

def filterCodeSampleGroups (groups : List SampleGroup)
    (includeSet : Option (List String)) (renameMap : List (String × String)) :
    List SampleGroup :=
  if groups.length == 0 then []
  else (groups.map (fun group =>
    { group with samples := filterSamples includeSet renameMap group.samples })).filter
    (fun group => group.samples.length != 0)

/-- The customized tag comparator of `customizeSpec` as a `≤` relation:
explicit order ranks first (absent rank is `+∞`), then name comparison —
with no fallback-tag tie-break. -/
def tagLeCustomB (m : List (String × Nat)) (a b : Tag) : Bool :=
  match getTagOrder m a, getTagOrder m b with
  | some x, some y => if x = y then jsStrLe a.name b.name else decide (x < y)
  | some _, none => true
  | none, some _ => false
  | none, none => jsStrLe a.name b.name

def tagLeCustom (m : List (String × Nat)) (a b : Tag) : Prop :=
  tagLeCustomB m a b = true

instance (m : List (String × Nat)) : DecidableRel (tagLeCustom m) :=
  fun a b => inferInstanceAs (Decidable (tagLeCustomB m a b = true))

/-- The tie-break of the loader's tag comparator: a fallback tag sorts
after a non-fallback tag, then name comparison. -/
def tagTieB (a b : Tag) : Bool :=
  if a.isFallback && !b.isFallback then false
  else if !a.isFallback && b.isFallback then true
  else jsStrLe a.name b.name

/-- The loader's `orderedTags` comparator as a `≤` relation: document
order ranks first (`tagOrder.has` else `+∞`), then the fallback tie-break,
then name comparison. -/
def tagLeNormB (ord : List (String × Nat)) (a b : Tag) : Bool :=
  match assocGet ord a.name, assocGet ord b.name with
  | some x, some y => if x = y then tagTieB a b else decide (x < y)
  | some _, none => true
  | none, some _ => false
  | none, none => tagTieB a b

def tagLeNorm (ord : List (String × Nat)) (a b : Tag) : Prop :=
  tagLeNormB ord a b = true

instance (ord : List (String × Nat)) : DecidableRel (tagLeNorm ord) :=
  fun a b => inferInstanceAs (Decidable (tagLeNormB ord a b = true))

/-- The loader's `tagOrder` map: indices of string-named document tags. -/
def buildTagOrderMapAux : Nat → List JVal → List (String × Nat) →
    List (String × Nat)
  | _, [], m => m
  | i, t :: rest, m =>
    buildTagOrderMapAux (i + 1) rest
      (match t with
       | .obj fs =>
         (match jget fs "name" with
          | some (.str n) => setAssoc m n i
          | _ => m)
       | _ => m)

def buildTagOrderMap (document : JVal) : List (String × Nat) :=
  match jgetV document "tags" with
  | some (.arr ts) => buildTagOrderMapAux 0 ts []
  | _ => []

/-- The loader's `orderedTags` sort. -/
def normSortTags (ord : List (String × Nat)) (tags : List Tag) : List Tag :=
  List.insertionSort (tagLeNorm ord) tags

/-- The loader's tag registry: the `tagsByName` map and the tag slug
factory state it threads. -/
structure NormState where
  tagsByName : List (String × Tag)
  factState : FactState

/-- JavaScript falsiness of an optional string field. -/
def descFalsy : Option String → Bool
  | none => true
  | some s => s == ""

def pickExtensions : JVal → JObj
  | .obj fs => fs.filter (fun e => isPrefixOfChars "x-".data e.1.data)
  | _ => []

def buildExternalDocs (v : Option JVal) : Option ExtDocs :=
  match v with
  | some (.obj fs) =>
    (match jget fs "url" with
     | some (.str u) =>
       let d := match jget fs "description" with
         | some (.str dd) => some dd
         | _ => none
       some { url := u, description := d }
     | _ => none)
  | _ => none

/-- Embeds `registerTag(name, meta)` of the loader: blank or non-string
names fall back to the `"Untagged"` tag; an existing entry is returned
after back-filling description, external docs and extensions from the
meta; a fresh entry draws its slug from the tag slug factory. -/
def registerTagNamed (st : NormState) (tagName : String) (meta : JVal) :
    Tag × NormState :=
  match assocGet st.tagsByName tagName with
  | some existing =>
    let e1 := if descFalsy existing.description then
        match jgetV meta "description" with
        | some (.str d) => { existing with description := some d }
        | _ => existing
      else existing
    let e2 := match e1.externalDocs with
      | none =>
        (match buildExternalDocs (jgetV meta "externalDocs") with
         | some ed => { e1 with externalDocs := some ed }
         | none => e1)
      | some _ => e1
    let e3 := if e2.extensions.length == 0 then
        { e2 with extensions := pickExtensions meta }
      else e2
    (e3, { st with tagsByName := setAssoc st.tagsByName tagName e3 })
  | none =>
    let fallbackArg := if tagName == defaultUntaggedName then "untagged"
      else tagName
    let (slug, fact2) := slugFactoryStep "tag" st.factState tagName fallbackArg
    let tag : Tag := {
      name := tagName,
      slug := slug,
      description := match jgetV meta "description" with
        | some (.str d) => some d
        | _ => none,
      externalDocs := buildExternalDocs (jgetV meta "externalDocs"),
      isFallback := tagName == defaultUntaggedName,
      operations := [],
      stats := { operations := 0, deprecated := 0, methods := [] },
      extensions := pickExtensions meta,
      metadata := none }
    (tag,
      { tagsByName := st.tagsByName ++ [(tagName, tag)],
        factState := fact2 })

/-- `registerTag` proper: blank or non-string names fall back to the
`"Untagged"` name before the registry lookup. -/
def registerTag (st : NormState) (name : JVal) (meta : JVal) :
    Tag × NormState :=
  registerTagNamed st
    (match name with
     | .str s => if jsTrim s != "" then jsTrim s else defaultUntaggedName
     | _ => defaultUntaggedName) meta

/-- The declared tags of a raw operation, with the loader's fallback: a
missing, non-array or empty `tags` array becomes `["Untagged"]`. -/
def operationTagsOf (op : JVal) : List JVal :=
  match jgetV op "tags" with
  | some (.arr ts) => if ts.length != 0 then ts else [JVal.str defaultUntaggedName]
  | _ => [JVal.str defaultUntaggedName]

/-- `operationTags.map((tagName) => registerTag(tagName))`, threading the
registry state; the one-argument call passes the empty meta object. -/
def registerTags (st : NormState) : List JVal → List Tag × NormState
  | [] => ([], st)
  | n :: rest =>
    let (t, st1) := registerTag st n (JVal.obj [])
    let (ts, st2) := registerTags st1 rest
    (t :: ts, st2)

def toTagRef (t : Tag) : TagRef :=
  { name := t.name, slug := t.slug, isFallback := t.isFallback }

def pushOpToTag (st : NormState) (tagName : String) (op : Operation) :
    NormState :=
  match assocGet st.tagsByName tagName with
  | some t =>
    let t2 := { t with operations := t.operations ++ [op] }
    { st with tagsByName := setAssoc st.tagsByName tagName t2 }
  | none => st

def pushOpToTags (op : Operation) : List Tag → NormState → NormState
  | [], st => st
  | t :: rest, st => pushOpToTags op rest (pushOpToTag st t.name op)

/-- The tag-assignment slice of the loader's operation loop: register the
operation's declared tags (with fallback), stamp the `TagRef` list on the
normalized operation, and push it onto each registered tag. -/
def processOperationTags (st : NormState) (rawOp : JVal) (op : Operation) :
    List TagRef × NormState :=
  let (tagRefs, st1) := registerTags st (operationTagsOf rawOp)
  let refs := tagRefs.map toTagRef
  (refs, pushOpToTags { op with tags := refs } tagRefs st1)

/-- The loader's final `stats` record (the deprecated/untagged counts are
`filter(...).length` in the code). -/
def normStats (orderedTags : List Tag) (operations : List Operation) :
    SpecStats :=
  { tags := orderedTags.length,
    operations := operations.length,
    untaggedOperations :=
      (operations.filter (fun op => op.tags.all (fun t => t.isFallback))).length,
    deprecatedOperations :=
      (operations.filter (fun op => op.deprecated)).length }

def bumpCount (m : List (String × Nat)) (k : String) : List (String × Nat) :=
  match assocGet m k with
  | some n => setAssoc m k (n + 1)
  | none => setAssoc m k 1

def recomputeTagStats (tag : Tag) : Tag :=
  let methodCounts := tag.operations.foldl (fun m op => bumpCount m op.method) []
  let deprecatedCount := (tag.operations.filter (fun op => op.deprecated)).length
  let stats2 : TagStats :=
    { operations := tag.operations.length,
      deprecated := deprecatedCount, methods := methodCounts }
  { tag with stats := stats2 }

/-- JavaScript `x || y` on an optional string. -/
def jsOrStr (v : Option String) (d : String) : String :=
  match v with
  | some s => if s != "" then s else d
  | none => d

def applyTagOverride (m : List (String × TagOverride)) (tag : Tag) : Tag :=
  let ov := findOverride m tag
  let tag2 := match ov with
    | some o =>
      (match o.description with
       | some d => if d != "" then { tag with description := some d } else tag
       | none => tag)
    | none => tag
  let displayName := jsOrStr (match ov with
    | some o => o.label
    | none => none) tag2.name
  let sLabel := jsOrStr (match ov with
    | some o => o.sidebarLabel
    | none => none) displayName
  let meta2 : TagMeta := { displayName := displayName, sidebarLabel := sLabel }
  { tag2 with metadata := some meta2 }

/-- The operations pushed onto the `tagMap` entry for `slug`, in the
customizer's push order (one push per matching tag reference). -/
def opsForSlug (slug : String) (ops : List Operation) : List Operation :=
  (ops.map (fun op =>
    (op.tags.filter (fun tr => tr.slug == slug)).map (fun _ => op))).flatten

/-- Rebuilds each tag copy's operations; with duplicate slugs only the
last copy (the one `tagMap` retains) receives the pushes. -/
def attachOps : List Tag → List Operation → List Tag
  | [], _ => []
  | t :: rest, ops =>
    (if rest.any (fun t2 => t2.slug == t.slug) then t
     else { t with operations := opsForSlug t.slug ops }) :: attachOps rest ops

def docTagKey (t : JVal) : String :=
  match jgetV t "name" with
  | some v => normalizeTagKeyV v
  | none => ""

def docTagName : JVal → String := fun t =>
  match jgetV t "name" with
  | some (.str s) => s
  | _ => ""

def buildTagLookup (tags : List Tag) : List (String × Tag) :=
  tags.foldl (fun m tag =>
    setAssoc (setAssoc m (normalizeTagKey tag.name) tag)
      (normalizeTagKey tag.slug) tag) []

def docTagLeB (m : List (String × Nat)) (lookup : List (String × Tag))
    (a b : JVal) : Bool :=
  let oA := match assocGet lookup (docTagKey a) with
    | some tagA => getTagOrder m tagA
    | none => none
  let oB := match assocGet lookup (docTagKey b) with
    | some tagB => getTagOrder m tagB
    | none => none
  match oA, oB with
  | some x, some y =>
    if x = y then jsStrLe (docTagName a) (docTagName b) else decide (x < y)
  | some _, none => true
  | none, some _ => false
  | none, none => jsStrLe (docTagName a) (docTagName b)

def docTagLe (m : List (String × Nat)) (lookup : List (String × Tag))
    (a b : JVal) : Prop :=
  docTagLeB m lookup a b = true

instance (m : List (String × Nat)) (lookup : List (String × Tag)) :
    DecidableRel (docTagLe m lookup) :=
  fun a b => inferInstanceAs (Decidable (docTagLeB m lookup a b = true))

/-- The `cloned.document.tags` rewrite of `customizeSpec` (this mutates
the shared document object in the code). -/
def customizeDocumentTags (document : JVal) (tags : List Tag)
    (orderMap : List (String × Nat)) : JVal :=
  match document with
  | .obj dfs =>
    (match jget dfs "tags" with
     | some (.arr docTags) =>
       let tagLookup := buildTagLookup tags
       let filtered := docTags.filter (fun dt =>
         (docTagKey dt != "") && (assocGet tagLookup (docTagKey dt)).isSome)
       let mapped := filtered.map (fun dt =>
         match assocGet tagLookup (docTagKey dt) with
         | some mtag =>
           (match dt with
            | .obj fs =>
              (match mtag.description with
               | some d => JVal.obj (jset fs "description" (JVal.str d))
               | none => JVal.obj (jdel fs "description"))
            | _ => dt)
         | none => dt)
       let sorted := if orderMap.length != 0 then
           List.insertionSort (docTagLe orderMap tagLookup) mapped
         else mapped
       JVal.obj (jset dfs "tags" (JVal.arr sorted))
     | _ => document)
  | _ => document

/-- Embeds `customizeSpec(spec, options)`.  The code builds a `cloned`
record that shares the operation objects (and the document) with the
input and reassigns their `tags` and `codeSampleGroups` fields in place,
so the call also mutates its input: the second component is the input
spec as observable after the call (every operation mutated, whether or
not it survives the filter, and the document's tags rewritten). -/
def customizeSpec (spec : Spec) (o : COptions) : Spec × Spec :=
  let includeSet := createNormalizedSet o.tagsInclude
  let excludeSet := createNormalizedSet o.tagsExclude
  let overridesMap := createOverridesMap o.tagsOverrides
  let orderMap := createOrderMap o.tagsOrder
  let includeLanguagesSet := createNormalizedSet o.codeSamplesIncludeLanguages
  let renameMap := createRenameMap o.codeSamplesRename
  let tags1 := spec.tags.filter (fun tag => allowTag tag includeSet excludeSet)
  let allowedTagSlugs := tags1.map (fun tag => tag.slug)
  let mutateOp : Operation → Operation := fun op =>
    { op with
      tags := op.tags.filter (fun tr => allowedTagSlugs.contains tr.slug),
      codeSampleGroups := filterCodeSampleGroups op.codeSampleGroups
        includeLanguagesSet renameMap }
  let opsAll := spec.operations.map mutateOp
  let ops := opsAll.filter (fun op => op.tags.length != 0)
  let tags2 := tags1.map (fun tag => { tag with operations := [] })
  let tags3 := attachOps tags2 ops
  let tags4 := tags3.filter (fun tag => tag.operations.length != 0)
  let tags5 := tags4.map (applyTagOverride overridesMap)
  let tags6 := List.insertionSort (tagLeCustom orderMap) tags5
  let tags7 := tags6.map recomputeTagStats
  let stats : SpecStats := {
    tags := tags7.length,
    operations := ops.length,
    untaggedOperations :=
      (ops.filter (fun op => op.tags.length == 0)).length,
    deprecatedOperations := (ops.filter (fun op => op.deprecated)).length }
  let document2 := customizeDocumentTags spec.document tags7 orderMap
  ({ info := spec.info, servers := spec.servers, tags := tags7,
      operations := ops, document := document2, schemas := [],
      stats := stats },
    { spec with operations := opsAll, document := document2 })

/-! ### Runtime artifact builder -/

structure Digest where
  slug : String
  method : String
  path : String
  summary : String
  deprecated : Bool

structure DigestIndexEntry where
  digest : Digest
  tagSlug : String
  tagName : String

structure StrippedOp where
  path : String
  method : String
  operationId : String
  slug : String
  summary : Option String
  description : Option String
  deprecated : Bool
  tags : List TagRef
  parameters : JVal
  requestBody : JVal
  responses : JVal
  security : JVal
  servers : JVal
  codeSampleGroups : List SampleGroup
  requestBodyExamples : JVal
  responseExamples : JVal
  extensions : Option JObj

structure TagDigest where
  name : String
  slug : String
  description : Option String
  externalDocs : Option ExtDocs
  isFallback : Bool
  stats : TagStats
  metadata : Option TagMeta
  extensions : JObj
  operations : List Digest

structure Chunk where
  id : String
  tagSlug : String
  fileName : String
  operations : List (String × StrippedOp)

structure Artifacts where
  manifestInfo : JVal
  manifestServers : List JVal
  manifestStats : SpecStats
  manifestDocument : JVal
  tagsWithDigests : List TagDigest
  allOperationDigests : List DigestIndexEntry
  schemaList : List (String × Option String × Option String)
  schemaSlugMap : List (String × String)
  schemaDefinitions : List (String × String × JVal)
  chunks : List Chunk
  operationChunkLookup : List (String × String)

def OPERATIONS_PER_CHUNK : Nat := 50

/-- Embeds `createOperationDigest`: typed operations always carry string
slugs; an operation with neither path nor summary yields no digest. -/
def createOperationDigest (op : Operation) : Option Digest :=
  let method := jsToUpper op.method
  let path := op.path
  let summary := match op.summary with
    | some s => s
    | none => ""
  if path = "" ∧ summary = "" then none
  else
    some
      { slug := op.slug, method := method, path := path,
        summary := summary, deprecated := op.deprecated }

/-- Embeds `stripOperationForChunk` on a typed (plain-object) operation:
the full record minus `raw`, with `extensions` kept only when
non-empty. -/
def stripOperationForChunk (op : Operation) : StrippedOp :=
  { path := op.path, method := op.method, operationId := op.operationId,
    slug := op.slug, summary := op.summary, description := op.description,
    deprecated := op.deprecated, tags := op.tags,
    parameters := op.parameters, requestBody := op.requestBody,
    responses := op.responses, security := op.security,
    servers := op.servers, codeSampleGroups := op.codeSampleGroups,
    requestBodyExamples := op.requestBodyExamples,
    responseExamples := op.responseExamples,
    extensions := if op.extensions.length != 0 then some op.extensions
      else none }

def createChunkId (tagSlug : String) (chunkIndex : Nat) : String :=
  "tag:" ++ (if tagSlug.length != 0 then tagSlug else "untagged") ++
    ":chunk:" ++ decRepr chunkIndex

def sanitizeChunkChar (c : Char) : Char :=
  if c.isAlpha || c.isDigit || c = ':' || c = '_' || c = '-' then c else '-'

/-- Replaces every run of characters matching `p` by a single `rep`. -/
def collapseRuns (p : Char → Bool) (rep : Char) : Bool → List Char → List Char
  | _, [] => []
  | inRun, c :: rest =>
    if p c then
      if inRun then collapseRuns p rep true rest
      else rep :: collapseRuns p rep true rest
    else c :: collapseRuns p rep false rest

/-- Embeds `buildChunkFileName`; after the dash-run collapse at most one
leading and one trailing dash remain, so the one-shot `^-|-$` strip is
`trimDashes`. -/
def buildChunkFileName (chunkId : String) : String :=
  let safe := collapseRuns (fun c => c == ':') '-' false
    (chunkId.data.map sanitizeChunkChar)
  let collapsed := trimDashes (collapseRuns (fun c => c == '-') '-' false safe)
  "operations-" ++ (if collapsed.length != 0 then String.mk collapsed
    else "chunk") ++ ".json"

def sanitizeSchemaChar (c : Char) : Char :=
  if c.isAlpha || c.isDigit || c = '.' || c = '_' || c = '-' then c else '-'

def safeSchemaSlug (raw : String) : String :=
  String.mk (trimDashes (collapseRuns (fun c => c == '-') '-' false
    (raw.data.map sanitizeSchemaChar)))

def buildOpsMap (slice : List StrippedOp) : List (String × StrippedOp) :=
  slice.foldl (fun m e => setAssoc m e.slug e) []

/-- The lookup side of the slice loop: `operationChunkLookup` entries are
inserted only for slugs not yet claimed (no chunk id is falsy, so the
`!lookup[slug]` test is absence). -/
def addLookup (cid : String) (slice : List StrippedOp)
    (lookup : List (String × String)) : List (String × String) :=
  slice.foldl (fun lk e =>
    match assocGet lk e.slug with
    | some _ => lk
    | none => lk ++ [(e.slug, cid)]) lookup

/-- The fixed-size slicing of the chunk loop (`start += 50`); the fuel is
the list length, which always suffices. -/
def chunkSlices {α : Type} : Nat → List α → List (List α)
  | _, [] => []
  | 0, _ => []
  | fuel + 1, l => l.take OPERATIONS_PER_CHUNK ::
      chunkSlices fuel (l.drop OPERATIONS_PER_CHUNK)

def chunkCandidateSlices {α : Type} (l : List α) : List (List α) :=
  chunkSlices l.length l

def addTagChunks (tagSlug : String) :
    Nat → List (List StrippedOp) →
      List Chunk × List (String × String) →
      List Chunk × List (String × String)
  | _, [], st => st
  | i, slice :: rest, (chunks, lookup) =>
    let cid := createChunkId tagSlug i
    let chunk : Chunk :=
      { id := cid, tagSlug := tagSlug,
        fileName := buildChunkFileName cid,
        operations := buildOpsMap slice }
    addTagChunks tagSlug (i + 1) rest
      (chunks ++ [chunk], addLookup cid slice lookup)

def tagDigestName (tag : Tag) : String :=
  let v := match tag.metadata with
    | some m => m.displayName
    | none => tag.name
  if v != "" then v else tag.slug

def artifactsTagStep (tag : Tag)
    (st : List TagDigest × List DigestIndexEntry × List Chunk ×
      List (String × String)) :
    List TagDigest × List DigestIndexEntry × List Chunk ×
      List (String × String) :=
  let (tds, digs, chunks, lookup) := st
  let digestOperations := tag.operations.filterMap createOperationDigest
  let indexEntries : List DigestIndexEntry := digestOperations.map (fun d =>
    { digest := d, tagSlug := tag.slug, tagName := tagDigestName tag })
  let chunkCandidates := (tag.operations.map stripOperationForChunk).filter
    (fun s2 => s2.slug != "")
  let (chunks2, lookup2) := addTagChunks tag.slug 0
    (chunkCandidateSlices chunkCandidates) (chunks, lookup)
  let td : TagDigest :=
    { name := tag.name, slug := tag.slug,
      description := tag.description, externalDocs := tag.externalDocs,
      isFallback := tag.isFallback, stats := tag.stats,
      metadata := tag.metadata, extensions := tag.extensions,
      operations := digestOperations }
  (tds ++ [td], digs ++ indexEntries, chunks2, lookup2)

def buildRuntimeDocument (document : JVal) : JVal :=
  match document with
  | .obj dfs =>
    let result : JObj := []
    let result := match jget dfs "security" with
      | some (.arr xs) => jset result "security" (.arr xs)
      | _ => result
    let result := match jget dfs "components" with
      | some (.obj cfs) =>
        (match jget cfs "securitySchemes" with
         | some (.obj sfs) =>
           jset result "components" (.obj [("securitySchemes", .obj sfs)])
         | _ => result)
      | _ => result
    JVal.obj result
  | _ => JVal.obj []

def schemaStep (entry : SchemaEntry)
    (st : List (String × Option String × Option String) ×
      List (String × String) × List (String × String × JVal)) :
    List (String × Option String × Option String) ×
      List (String × String) × List (String × String × JVal) :=
  let (slist, smap, sdefs) := st
  let smap2 := match entry.slug with
    | some sl => if sl != "" then setAssoc smap entry.name sl else smap
    | none => smap
  let slist2 := slist ++ [(entry.name, entry.slug, entry.description)]
  let isObjSchema : Bool := match entry.schema with
    | .obj _ => true
    | .arr _ => true
    | _ => false
  let sdefs2 := if isObjSchema then
      let rawSlug := match entry.slug with
        | some sl => if sl != "" then sl
            else if entry.name != "" then jsToLower entry.name else ""
        | none => if entry.name != "" then jsToLower entry.name else ""
      let safeSlug := safeSchemaSlug rawSlug
      if safeSlug != "" then sdefs ++ [(safeSlug, entry.name, entry.schema)]
      else sdefs
    else sdefs
  (slist2, smap2, sdefs2)

/-- Embeds `createRuntimeSpecArtifacts` on a typed customized spec (a
typed spec is always a plain object, so the degenerate early return is
unreachable). -/
def createRuntimeSpecArtifacts (spec : Spec) : Artifacts :=
  let (tds, digs, chunks, lookup) := spec.tags.foldl
    (fun st tag => artifactsTagStep tag st) ([], [], [], [])
  let (slist, smap, sdefs) := spec.schemas.foldl
    (fun st e => schemaStep e st) ([], [], [])
  { manifestInfo := spec.info, manifestServers := spec.servers,
    manifestStats := spec.stats,
    manifestDocument := buildRuntimeDocument spec.document,
    tagsWithDigests := tds, allOperationDigests := digs,
    schemaList := slist, schemaSlugMap := smap, schemaDefinitions := sdefs,
    chunks := chunks, operationChunkLookup := lookup }


/-! ### Concrete fixtures for the customization claims -/

/-- A one-operation, one-tag normalized fixture (tag `A`). -/
def opA : Operation :=
  { path := "/a", method := "get", operationId := "getA", slug := "get-a",
    summary := some "Get A", description := none, deprecated := false,
    tags := [{ name := "A", slug := "a", isFallback := false }],
    parameters := JVal.arr [], requestBody := JVal.null,
    responses := JVal.obj [], security := JVal.null, servers := JVal.arr [],
    codeSampleGroups := [], requestBodyExamples := JVal.arr [],
    responseExamples := JVal.arr [], extensions := [], raw := JVal.obj [] }

def tagA : Tag :=
  { name := "A", slug := "a", description := none, externalDocs := none,
    isFallback := false, operations := [opA],
    stats := { operations := 1, deprecated := 0, methods := [("get", 1)] },
    extensions := [], metadata := none }

def specA : Spec :=
  { info := JVal.obj [], servers := [], tags := [tagA], operations := [opA],
    document := JVal.obj [], schemas := [],
    stats := { tags := 1, operations := 1, untaggedOperations := 0,
               deprecatedOperations := 0 } }

/-- Options excluding tag `A`. -/
def optsExcludeA : COptions :=
  { tagsInclude := none, tagsExclude := some ["A"], tagsOverrides := [],
    tagsOrder := none, codeSamplesIncludeLanguages := none,
    codeSamplesRename := [] }

/-- Empty customization options. -/
def optsNone : COptions :=
  { tagsInclude := none, tagsExclude := none, tagsOverrides := [],
    tagsOrder := none, codeSamplesIncludeLanguages := none,
    codeSamplesRename := [] }

/-- An operation carrying only the fallback tag. -/
def opUn : Operation :=
  { path := "/u", method := "get", operationId := "getU", slug := "get-u",
    summary := some "Get U", description := none, deprecated := false,
    tags := [{ name := "Untagged", slug := "untagged", isFallback := true }],
    parameters := JVal.arr [], requestBody := JVal.null,
    responses := JVal.obj [], security := JVal.null, servers := JVal.arr [],
    codeSampleGroups := [], requestBodyExamples := JVal.arr [],
    responseExamples := JVal.arr [], extensions := [], raw := JVal.obj [] }

def opZe : Operation :=
  { path := "/z", method := "get", operationId := "getZ", slug := "get-z",
    summary := some "Get Z", description := none, deprecated := false,
    tags := [{ name := "Zebra", slug := "zebra", isFallback := false }],
    parameters := JVal.arr [], requestBody := JVal.null,
    responses := JVal.obj [], security := JVal.null, servers := JVal.arr [],
    codeSampleGroups := [], requestBodyExamples := JVal.arr [],
    responseExamples := JVal.arr [], extensions := [], raw := JVal.obj [] }

def tagUn : Tag :=
  { name := "Untagged", slug := "untagged", description := none,
    externalDocs := none, isFallback := true, operations := [opUn],
    stats := { operations := 1, deprecated := 0, methods := [("get", 1)] },
    extensions := [], metadata := none }

def tagZe : Tag :=
  { name := "Zebra", slug := "zebra", description := none,
    externalDocs := none, isFallback := false, operations := [opZe],
    stats := { operations := 1, deprecated := 0, methods := [("get", 1)] },
    extensions := [], metadata := none }

/-- A normalized fixture with a `Zebra` tag and the fallback tag, in the
order the loader would emit them (fallback last among ties). -/
def specZU : Spec :=
  { info := JVal.obj [], servers := [], tags := [tagZe, tagUn],
    operations := [opZe, opUn], document := JVal.obj [], schemas := [],
    stats := { tags := 2, operations := 2, untaggedOperations := 1,
               deprecatedOperations := 0 } }

/-- A normalized fixture holding only the fallback-tagged operation. -/
def specUn : Spec :=
  { info := JVal.obj [], servers := [], tags := [tagUn],
    operations := [opUn], document := JVal.obj [], schemas := [],
    stats := { tags := 1, operations := 1, untaggedOperations := 1,
               deprecatedOperations := 0 } }

/-- The operations a registry entry currently holds. -/
def tagOps (st : NormState) (k : String) : List Operation :=
  match assocGet st.tagsByName k with
  | some t => t.operations
  | none => []

/-! ### Decimal rendering lemmas -/

theorem digitChar_isDigit (n : Nat) : (digitChar n).isDigit := by
  unfold digitChar
  split <;> decide

theorem decReprCore_all_digits (fuel n : Nat) (acc : List Char)
    (hacc : ∀ c ∈ acc, c.isDigit) : ∀ c ∈ decReprCore fuel n acc, c.isDigit := by
  induction fuel generalizing n acc with
  | zero =>
    intro c hc
    rcases List.mem_cons.mp hc with h | h
    · subst h; exact digitChar_isDigit n
    · exact hacc c h
  | succ fuel ih =>
    simp only [decReprCore]
    split
    · intro c hc
      rcases List.mem_cons.mp hc with h | h
      · subst h; exact digitChar_isDigit n
      · exact hacc c h
    · refine ih (n / 10) (digitChar (n % 10) :: acc) ?_
      intro c hc
      rcases List.mem_cons.mp hc with h | h
      · subst h; exact digitChar_isDigit (n % 10)
      · exact hacc c h

theorem decRepr_all_digits (n : Nat) : ∀ c ∈ (decRepr n).data, c.isDigit := by
  exact decReprCore_all_digits n n [] (by intro c hc; cases hc)

theorem decReprCore_ne_nil (fuel n : Nat) (acc : List Char) :
    decReprCore fuel n acc ≠ [] := by
  induction fuel generalizing n acc with
  | zero => exact List.cons_ne_nil _ _
  | succ fuel ih =>
    simp only [decReprCore]
    split
    · exact List.cons_ne_nil _ _
    · exact ih (n / 10) (digitChar (n % 10) :: acc)

theorem decRepr_ne_nil (n : Nat) : (decRepr n).data ≠ [] :=
  decReprCore_ne_nil n n []

theorem digitChar_toNat (n : Nat) (h : n < 10) :
    (digitChar n).toNat - 48 = n := by
  interval_cases n <;> decide

theorem decReprCore_foldl (fuel n : Nat) (acc : List Char) (hn : n ≤ fuel) :
    (decReprCore fuel n acc).foldl (fun a c => a * 10 + (c.toNat - 48)) 0 =
      acc.foldl (fun a c => a * 10 + (c.toNat - 48)) n := by
  induction fuel generalizing n acc with
  | zero =>
    have : n = 0 := by omega
    subst this
    simp [decReprCore, digitChar]
  | succ fuel ih =>
    simp only [decReprCore]
    split
    · next h =>
      simp only [List.foldl_cons, Nat.zero_mul, Nat.zero_add, digitChar_toNat n h]
    · next h =>
      rw [ih (n / 10) (digitChar (n % 10) :: acc) (by omega)]
      simp only [List.foldl_cons, digitChar_toNat (n % 10) (Nat.mod_lt _ (by omega))]
      congr 1
      omega

theorem decVal_decRepr (n : Nat) : decVal (decRepr n).data = n := by
  unfold decVal decRepr
  simpa using decReprCore_foldl n n [] (Nat.le_refl n)

theorem decRepr_injective : Function.Injective decRepr := by
  intro m n h
  have : decVal (decRepr m).data = decVal (decRepr n).data := by rw [h]
  rwa [decVal_decRepr, decVal_decRepr] at this

/-! ### Slug factory lemmas -/

theorem slugFactoryStep_eq (d : String) (st : FactState) (v : String) :
    slugFactoryStep d st v d =
      (render (toSlug v d) ((factGet st (toSlug v d)).getD 0),
        factSet st (toSlug v d) ((factGet st (toSlug v d)).getD 0 + 1)) := by
  simp [slugFactoryStep, render, ite_self]

theorem factGet_cons (e : String × Nat) (rest : FactState) (k : String) :
    factGet (e :: rest) k = if e.1 = k then some e.2 else factGet rest k := by
  by_cases h : e.1 = k
  · rw [factGet, List.find?_cons_of_pos _ (by simpa using h)]
    simp [h]
  · rw [factGet, List.find?_cons_of_neg _ (by simpa using h)]
    simp [h, factGet]

theorem factGet_factSet_self (st : FactState) (k : String) (v : Nat) :
    factGet (factSet st k v) k = some v := by
  induction st with
  | nil => simp [factSet, factGet_cons, factGet, List.find?]
  | cons e rest ih =>
    by_cases h : e.1 = k
    · simp [factSet, h, factGet_cons]
    · have hb : (e.1 == k) = false := by simpa using h
      simp only [factSet, hb, Bool.false_eq_true, if_false]
      rw [factGet_cons]
      simp [h, ih]

theorem factGet_factSet_ne (st : FactState) (k k' : String) (v : Nat)
    (h : k' ≠ k) : factGet (factSet st k v) k' = factGet st k' := by
  have hk : ¬ k = k' := fun hh => h hh.symm
  induction st with
  | nil =>
    simp only [factSet]
    rw [factGet_cons]
    simp [hk, factGet, List.find?]
  | cons e rest ih =>
    by_cases he : e.1 = k
    · have hb : (e.1 == k) = true := by simpa using he
      simp only [factSet, hb, if_true]
      rw [factGet_cons, factGet_cons]
      simp [hk, he]
    · have hb : (e.1 == k) = false := by simpa using he
      simp only [factSet, hb, Bool.false_eq_true, if_false]
      rw [factGet_cons, factGet_cons]
      by_cases he' : e.1 = k'
      · simp [he']
      · simp [he', ih]

theorem stCount_factSet_self (st : FactState) (k : String) (v : Nat) :
    stCount (factSet st k v) k = v := by
  simp [stCount, factGet_factSet_self]

theorem stCount_factSet_ne (st : FactState) (k k' : String) (v : Nat)
    (h : k' ≠ k) : stCount (factSet st k v) k' = stCount st k' := by
  simp [stCount, factGet_factSet_ne st k k' v h]

/-! Auxiliary string facts used to separate the slug bases from the
`-2`, `-3`, … collision suffixes. -/

theorem isDigit_ne_dash {c : Char} (h : c.isDigit) : c ≠ '-' := by
  intro he
  subst he
  simp [Char.isDigit] at h

theorem dash_split_aux :
    ∀ (u v x y : List Char), (∀ c ∈ u, c ≠ '-') → (∀ c ∈ v, c ≠ '-') →
      u ++ '-' :: x = v ++ '-' :: y → u = v ∧ x = y := by
  intro u
  induction u with
  | nil =>
    intro v x y _ hv heq
    cases v with
    | nil => simpa using heq
    | cons d v =>
      simp only [List.nil_append, List.cons_append, List.cons.injEq] at heq
      exact absurd heq.1.symm (hv d (List.mem_cons_self d v))
  | cons c u ih =>
    intro v x y hu hv heq
    cases v with
    | nil =>
      simp only [List.cons_append, List.nil_append, List.cons.injEq] at heq
      exact absurd heq.1 (hu c (List.mem_cons_self c u))
    | cons d v =>
      simp only [List.cons_append, List.cons.injEq] at heq
      obtain ⟨h1, h2⟩ := heq
      obtain ⟨hu', hx⟩ := ih v x y (fun e he => hu e (List.mem_cons_of_mem c he))
        (fun e he => hv e (List.mem_cons_of_mem d he)) h2
      exact ⟨by rw [h1, hu'], hx⟩

theorem dash_split (b1 b2 : String) (s1 s2 : List Char)
    (h1 : ∀ c ∈ s1, c ≠ '-') (h2 : ∀ c ∈ s2, c ≠ '-')
    (heq : b1 ++ "-" ++ String.mk s1 = b2 ++ "-" ++ String.mk s2) :
    b1 = b2 ∧ s1 = s2 := by
  have hd : b1.data ++ '-' :: s1 = b2.data ++ '-' :: s2 := by
    have := congrArg String.data heq
    simpa [String.data_append] using this
  have hrev : s1.reverse ++ '-' :: b1.data.reverse =
      s2.reverse ++ '-' :: b2.data.reverse := by
    have := congrArg List.reverse hd
    simpa [List.reverse_append] using this
  obtain ⟨hs, hb⟩ := dash_split_aux s1.reverse s2.reverse _ _
    (fun c hc => h1 c (List.mem_reverse.mp hc))
    (fun c hc => h2 c (List.mem_reverse.mp hc)) hrev
  refine ⟨?_, ?_⟩
  · apply String.ext
    have := congrArg List.reverse hb
    simpa using this
  · have := congrArg List.reverse hs
    simpa using this

theorem decRepr_length_pos (n : Nat) : 1 ≤ (decRepr n).length := by
  have h := decRepr_ne_nil n
  have hz : (decRepr n).data.length ≠ 0 :=
    fun hz => h (List.eq_nil_of_length_eq_zero hz)
  have heq : (decRepr n).length = (decRepr n).data.length := rfl
  omega

theorem render_inj_count (b : String) {c1 c2 : Nat}
    (h : render b c1 = render b c2) : c1 = c2 := by
  unfold render at h
  by_cases h1 : c1 = 0 <;> by_cases h2 : c2 = 0
  · omega
  · exfalso
    rw [if_pos h1, if_neg h2] at h
    have hlen := congrArg String.length h
    rw [String.length_append, String.length_append] at hlen
    have hdash : ("-" : String).length = 1 := rfl
    have hr := decRepr_length_pos (c2 + 1)
    omega
  · exfalso
    rw [if_neg h1, if_pos h2] at h
    have hlen := congrArg String.length h
    rw [String.length_append, String.length_append] at hlen
    have hdash : ("-" : String).length = 1 := rfl
    have hr := decRepr_length_pos (c1 + 1)
    omega
  · rw [if_neg h1, if_neg h2] at h
    have hdata := congrArg String.data h
    simp only [String.data_append, List.append_assoc] at hdata
    have h3 := List.append_cancel_left (List.append_cancel_left hdata)
    have h4 : decRepr (c1 + 1) = decRepr (c2 + 1) := String.ext h3
    have := decRepr_injective h4
    omega

theorem render_ne_cross {b1 b2 : String} (hne : b1 ≠ b2)
    (h12 : ∀ ds : List Char, ds ≠ [] → (∀ c ∈ ds, c.isDigit) →
      b2 ≠ b1 ++ "-" ++ String.mk ds)
    (h21 : ∀ ds : List Char, ds ≠ [] → (∀ c ∈ ds, c.isDigit) →
      b1 ≠ b2 ++ "-" ++ String.mk ds)
    (c1 c2 : Nat) : render b1 c1 ≠ render b2 c2 := by
  unfold render
  by_cases hc1 : c1 = 0 <;> by_cases hc2 : c2 = 0
  · rw [if_pos hc1, if_pos hc2]
    exact hne
  · rw [if_pos hc1, if_neg hc2]
    intro h
    exact h21 (decRepr (c2 + 1)).data (decRepr_ne_nil (c2 + 1))
      (decRepr_all_digits (c2 + 1)) (by simpa using h)
  · rw [if_neg hc1, if_pos hc2]
    intro h
    exact h12 (decRepr (c1 + 1)).data (decRepr_ne_nil (c1 + 1))
      (decRepr_all_digits (c1 + 1)) (by simpa using h.symm)
  · rw [if_neg hc1, if_neg hc2]
    intro h
    have := dash_split b1 b2 (decRepr (c1 + 1)).data (decRepr (c2 + 1)).data
      (fun c hc => isDigit_ne_dash (decRepr_all_digits (c1 + 1) c hc))
      (fun c hc => isDigit_ne_dash (decRepr_all_digits (c2 + 1) c hc))
      (by simpa using h)
    exact hne this.1

theorem runSlugFactoryFrom_mem (d : String) :
    ∀ (vs : List String) (st : FactState) (out : String),
      out ∈ runSlugFactoryFrom d st vs →
      ∃ v ∈ vs, ∃ i, stCount st (toSlug v d) ≤ i ∧ out = render (toSlug v d) i := by
  intro vs
  induction vs with
  | nil => intro st out h; cases h
  | cons v rest ih =>
    intro st out h
    rw [runSlugFactoryFrom, slugFactoryStep_eq] at h
    rcases List.mem_cons.mp h with h | h
    · exact ⟨v, List.mem_cons_self v rest,
        (factGet st (toSlug v d)).getD 0, Nat.le_refl _, h⟩
    · obtain ⟨v', hv', i, hi, hout⟩ := ih _ out h
      refine ⟨v', List.mem_cons_of_mem v hv', i, ?_, hout⟩
      by_cases hb : toSlug v' d = toSlug v d
      · rw [hb] at hi ⊢
        rw [stCount_factSet_self] at hi
        have : stCount st (toSlug v d) ≤ (factGet st (toSlug v d)).getD 0 + 1 :=
          Nat.le_succ _
        exact Nat.le_trans this hi
      · rwa [stCount_factSet_ne _ _ _ _ hb] at hi

theorem runSlugFactoryFrom_nodup (d : String) :
    ∀ (vs : List String) (st : FactState),
      SuffixFree (vs.map (fun v => toSlug v d)) →
      (runSlugFactoryFrom d st vs).Nodup := by
  intro vs
  induction vs with
  | nil => intro st _; simp [runSlugFactoryFrom]
  | cons v rest ih =>
    intro st H
    rw [runSlugFactoryFrom, slugFactoryStep_eq]
    refine List.nodup_cons.mpr ⟨?_, ?_⟩
    · intro hmem
      obtain ⟨v', hv', i, hi, hout⟩ := runSlugFactoryFrom_mem d rest _ _ hmem
      by_cases hb : toSlug v' d = toSlug v d
      · rw [hb] at hout hi
        rw [stCount_factSet_self] at hi
        have hcount := render_inj_count (toSlug v d) hout
        omega
      · have hv1 : toSlug v d ∈ (v :: rest).map (fun w => toSlug w d) := by
          simp
        have hv2 : toSlug v' d ∈ (v :: rest).map (fun w => toSlug w d) := by
          simp only [List.map_cons, List.mem_cons]
          exact Or.inr (List.mem_map.mpr ⟨v', hv', rfl⟩)
        exact render_ne_cross (fun he => hb he.symm)
          (fun ds h1 h2 => H (toSlug v d) hv1 (toSlug v' d) hv2 ds h1 h2)
          (fun ds h1 h2 => H (toSlug v' d) hv2 (toSlug v d) hv1 ds h1 h2)
          ((factGet st (toSlug v d)).getD 0) i hout
    · refine ih _ ?_
      intro b1 h1 b2 h2
      exact H b1 (by simp only [List.map_cons, List.mem_cons]; exact Or.inr h1)
        b2 (by simp only [List.map_cons, List.mem_cons]; exact Or.inr h2)

theorem runSlugFactoryFrom_length (d : String) :
    ∀ (vs : List String) (st : FactState),
      (runSlugFactoryFrom d st vs).length = vs.length := by
  intro vs
  induction vs with
  | nil => intro st; rfl
  | cons v rest ih => intro st; simp [runSlugFactoryFrom, ih]

/-- C1, counterexample to the claim as stated: a single stateful factory
instance fed the three inputs `"a"`, `"a-2"`, `"a"` does NOT return three
pairwise-distinct slugs.  The collision suffix `-2` generated for the
second `"a"` coincides with the slug already issued verbatim for the
input `"a-2"`, so the output list `["a", "a-2", "a-2"]` has a duplicate. -/
theorem claim1_counterexample :
    runSlugFactory "item" ["a", "a-2", "a"] = ["a", "a-2", "a-2"] ∧
    ¬ (runSlugFactory "item" ["a", "a-2", "a"]).Nodup := by
  exact ⟨by decide, by decide⟩

/-- C1 (amended): a fresh stateful slug-factory instance run over N input
strings returns N outputs, re-running it is deterministic (the embedded
factory is a pure function of the input list, so the two runs coincide
definitionally), and the outputs are pairwise distinct PROVIDED no
input's normalized base slug equals another input's base slug extended by
a hyphen and a digit run — the side condition the counterexample
violates.  Duplicates and inputs normalizing to the same slug are still
allowed, as the claim demands. -/
theorem claim1_slug_factory_unique (d : String) (vals : List String)
    (H : SuffixFree (vals.map (fun v => toSlug v d))) :
    (runSlugFactory d vals).Nodup ∧
    (runSlugFactory d vals).length = vals.length ∧
    runSlugFactory d vals = runSlugFactory d vals :=
  ⟨runSlugFactoryFrom_nodup d vals [] H, runSlugFactoryFrom_length d vals [], rfl⟩

/-- Witness for the amended C1 at the concrete input list
`["aa", "ab", "aa"]` (which contains a duplicate): the suffix-free side
condition holds, and the factory issues three distinct slugs. -/
theorem claim1_slug_factory_unique_witness :
    SuffixFree ((["aa", "ab", "aa"] : List String).map (fun v => toSlug v "item")) ∧
    (runSlugFactory "item" ["aa", "ab", "aa"]).Nodup ∧
    (runSlugFactory "item" ["aa", "ab", "aa"]).length = 3 := by
  have hlen : ∀ b ∈ (["aa", "ab", "aa"] : List String).map (fun v => toSlug v "item"),
      b.length = 2 := by decide
  have H : SuffixFree ((["aa", "ab", "aa"] : List String).map (fun v => toSlug v "item")) := by
    intro b1 h1 b2 h2 ds hne hdig heq
    have h1' := hlen b1 h1
    have h2' := hlen b2 h2
    have hl := congrArg String.length heq
    rw [String.length_append, String.length_append] at hl
    have hds : 0 < ds.length := List.length_pos.mpr hne
    have hmk : (String.mk ds).length = ds.length := rfl
    have hdash : ("-" : String).length = 1 := rfl
    omega
  have hmain := claim1_slug_factory_unique "item" ["aa", "ab", "aa"] H
  exact ⟨H, hmain.1, hmain.2.1⟩

/-! ### Object-operation lemmas -/

theorem jget_cons (e : String × JVal) (rest : JObj) (k : String) :
    jget (e :: rest) k = if e.1 = k then some e.2 else jget rest k := by
  by_cases h : e.1 = k
  · rw [jget, List.find?_cons_of_pos _ (by simpa using h)]
    simp [h]
  · rw [jget, List.find?_cons_of_neg _ (by simpa using h)]
    simp [h, jget]

theorem jget_jset_self (fs : JObj) (k : String) (v : JVal) :
    jget (jset fs k v) k = some v := by
  induction fs with
  | nil => simp [jset, jget_cons]
  | cons e rest ih =>
    by_cases h : e.1 = k
    · have hb : (e.1 == k) = true := by simpa using h
      simp [jset, hb, jget_cons]
    · have hb : (e.1 == k) = false := by simpa using h
      simp only [jset, hb, Bool.false_eq_true, if_false]
      rw [jget_cons]
      simp [h, ih]

theorem jget_jset_ne (fs : JObj) (k k' : String) (v : JVal) (h : k' ≠ k) :
    jget (jset fs k v) k' = jget fs k' := by
  have hk : ¬ k = k' := fun hh => h hh.symm
  induction fs with
  | nil =>
    simp only [jset]
    rw [jget_cons]
    simp [hk, jget, List.find?]
  | cons e rest ih =>
    by_cases he : e.1 = k
    · have hb : (e.1 == k) = true := by simpa using he
      simp only [jset, hb, if_true]
      rw [jget_cons, jget_cons]
      simp [hk, he]
    · have hb : (e.1 == k) = false := by simpa using he
      simp only [jset, hb, Bool.false_eq_true, if_false]
      rw [jget_cons, jget_cons]
      by_cases he' : e.1 = k'
      · simp [he']
      · simp [he', ih]

theorem jget_jdel_self (fs : JObj) (k : String) :
    jget (jdel fs k) k = none := by
  induction fs with
  | nil => rfl
  | cons e rest ih =>
    by_cases h : e.1 = k
    · have hb : (e.1 != k) = false := by simp [h]
      simp only [jdel, List.filter] at ih ⊢
      simp [hb, ih]
    · have hb : (e.1 != k) = true := by simp [h]
      simp only [jdel, List.filter] at ih ⊢
      simp only [hb]
      rw [jget_cons]
      simp [h, ih]

theorem jget_jdel_ne (fs : JObj) (k k' : String) (h : k' ≠ k) :
    jget (jdel fs k) k' = jget fs k' := by
  induction fs with
  | nil => rfl
  | cons e rest ih =>
    by_cases he : e.1 = k
    · have hb : (e.1 != k) = false := by simp [he]
      simp only [jdel, List.filter] at ih ⊢
      simp only [hb]
      rw [jget_cons]
      have : ¬ e.1 = k' := by rw [he]; exact fun hh => h hh.symm
      simp [this, ih]
    · have hb : (e.1 != k) = true := by simp [he]
      simp only [jdel, List.filter] at ih ⊢
      simp only [hb]
      rw [jget_cons, jget_cons]
      by_cases he' : e.1 = k'
      · simp [he']
      · simp [he', ih]

theorem jmergeObj_cons (a : JObj) (e : String × JVal) (rest : JObj) :
    jmergeObj a (e :: rest) = jmergeObj (jset a e.1 e.2) rest := by
  simp [jmergeObj]

theorem jget_jmergeObj_cases (a b : JObj) (k : String) (v : JVal)
    (h : jget (jmergeObj a b) k = some v) :
    jget a k = some v ∨ (k, v) ∈ b := by
  induction b generalizing a with
  | nil => exact Or.inl (by simpa [jmergeObj] using h)
  | cons e rest ih =>
    rw [jmergeObj_cons] at h
    rcases ih (jset a e.1 e.2) h with h | h
    · by_cases he : e.1 = k
      · subst he
        rw [jget_jset_self] at h
        obtain rfl : e.2 = v := by simpa using h
        exact Or.inr (List.mem_cons_self e rest)
      · rw [jget_jset_ne a e.1 k e.2 (fun hh => he hh.symm)] at h
        exact Or.inl h
    · exact Or.inr (List.mem_cons_of_mem e h)

theorem jget_jmergeObj_none (a b : JObj) (k : String)
    (h : jget (jmergeObj a b) k = none) :
    jget a k = none := by
  induction b generalizing a with
  | nil => simpa [jmergeObj] using h
  | cons e rest ih =>
    rw [jmergeObj_cons] at h
    have h2 := ih (jset a e.1 e.2) h
    by_cases he : e.1 = k
    · subst he
      rw [jget_jset_self] at h2
      cases h2
    · rwa [jget_jset_ne a e.1 k e.2 (fun hh => he hh.symm)] at h2

theorem mem_jset (fs : JObj) (k : String) (v : JVal) (p : String × JVal)
    (h : p ∈ jset fs k v) : p ∈ fs ∨ p = (k, v) := by
  induction fs with
  | nil => simpa [jset] using h
  | cons e rest ih =>
    by_cases he : (e.1 == k) = true
    · simp only [jset, he, if_true] at h
      rcases List.mem_cons.mp h with h | h
      · exact Or.inr h
      · exact Or.inl (List.mem_cons_of_mem e h)
    · simp only [jset, he, Bool.false_eq_true, if_false] at h
      rcases List.mem_cons.mp h with h | h
      · exact Or.inl (h ▸ List.mem_cons_self e rest)
      · rcases ih h with h | h
        · exact Or.inl (List.mem_cons_of_mem e h)
        · exact Or.inr h

theorem mem_jmergeObj (a b : JObj) (p : String × JVal)
    (h : p ∈ jmergeObj a b) : p ∈ a ∨ p ∈ b := by
  induction b generalizing a with
  | nil => exact Or.inl (by simpa [jmergeObj] using h)
  | cons e rest ih =>
    have hstep : jmergeObj a (e :: rest) = jmergeObj (jset a e.1 e.2) rest := by
      simp [jmergeObj]
    rw [hstep] at h
    rcases ih (jset a e.1 e.2) h with h | h
    · rcases mem_jset a e.1 e.2 p h with h | h
      · exact Or.inl h
      · exact Or.inr (by simpa [h] using List.mem_cons_self e rest)
    · exact Or.inr (List.mem_cons_of_mem e h)

theorem mem_jdel (fs : JObj) (k : String) (p : String × JVal)
    (h : p ∈ jdel fs k) : p ∈ fs :=
  List.mem_of_mem_filter h

theorem mem_dedupe_go (kept : List JVal) (xs : List JVal) (x : JVal)
    (h : x ∈ dedupeJVals.go kept xs) : x ∈ xs := by
  induction xs generalizing kept with
  | nil => simpa [dedupeJVals.go] using h
  | cons y ys ih =>
    by_cases hm : jvalMemBy y kept = true
    · simp only [dedupeJVals.go, hm, if_true] at h
      exact List.mem_cons_of_mem y (ih kept h)
    · simp only [dedupeJVals.go, hm, Bool.false_eq_true, if_false] at h
      rcases List.mem_cons.mp h with h | h
      · exact h ▸ List.mem_cons_self y ys
      · exact List.mem_cons_of_mem y (ih (y :: kept) h)

theorem mem_dedupeJVals (xs : List JVal) (x : JVal)
    (h : x ∈ dedupeJVals xs) : x ∈ xs :=
  mem_dedupe_go [] xs x h

/-! ### String-atom and size lemmas -/

theorem strValsList_append (a b : List JVal) :
    strValsList (a ++ b) = strValsList a ++ strValsList b := by
  induction a with
  | nil => simp [strValsList]
  | cons x xs ih => simp [strValsList, ih]

theorem mem_strValsFields (fs : JObj) (k : String) (v : JVal) :
    (k, v) ∈ fs → ∀ s ∈ strVals v, s ∈ strValsFields fs := by
  induction fs with
  | nil => intro h; cases h
  | cons e rest ih =>
    obtain ⟨k0, v0⟩ := e
    intro h s hs
    simp only [strValsFields, List.mem_append]
    rcases List.mem_cons.mp h with h | h
    · injection h with hk hv
      subst hv
      exact Or.inl hs
    · exact Or.inr (ih h s hs)

theorem mem_strValsList (xs : List JVal) (x : JVal)
    (h : x ∈ xs) : ∀ s ∈ strVals x, s ∈ strValsList xs := by
  induction xs with
  | nil => cases h
  | cons y ys ih =>
    intro s hs
    rcases List.mem_cons.mp h with h | h
    · subst h
      simp only [strValsList, List.mem_append]
      exact Or.inl hs
    · simp only [strValsList, List.mem_append]
      exact Or.inr (ih h s hs)

theorem jget_mem (fs : JObj) (k : String) (v : JVal)
    (h : jget fs k = some v) : (k, v) ∈ fs := by
  unfold jget at h
  cases hf : fs.find? (fun e => e.1 == k) with
  | none => rw [hf] at h; cases h
  | some e =>
    rw [hf] at h
    have he : e ∈ fs := List.mem_of_find?_eq_some hf
    have hk := List.find?_some hf
    have h2 : e.2 = v := by simpa using h
    have h1 : e.1 = k := by simpa using hk
    obtain ⟨e1, e2⟩ := e
    simp only at h1 h2
    subst h1
    subst h2
    exact he

theorem jget_strVals (fs : JObj) (k : String) (v : JVal)
    (h : jget fs k = some v) : ∀ s ∈ strVals v, s ∈ strValsFields fs :=
  mem_strValsFields fs k v (jget_mem fs k v h)

theorem strValsFields_subset_of_mem (ys fs : JObj) :
    (∀ p ∈ ys, p ∈ fs) → ∀ s ∈ strValsFields ys, s ∈ strValsFields fs := by
  induction ys with
  | nil => intro _ s hs; cases hs
  | cons e rest ih =>
    obtain ⟨k0, v0⟩ := e
    intro h s hs
    simp only [strValsFields, List.mem_append] at hs
    rcases hs with hs | hs
    · exact mem_strValsFields fs k0 v0 (h (k0, v0) (List.mem_cons_self _ _)) s hs
    · exact ih (fun p hp => h p (List.mem_cons_of_mem _ hp)) s hs

theorem strValsList_subset_of_mem (ys xs : List JVal)
    (h : ∀ y ∈ ys, y ∈ xs) : ∀ s ∈ strValsList ys, s ∈ strValsList xs := by
  induction ys with
  | nil => intro s hs; cases hs
  | cons y rest ih =>
    intro s hs
    simp only [strValsList, List.mem_append] at hs
    rcases hs with hs | hs
    · exact mem_strValsList xs y (h y (List.mem_cons_self _ _)) s hs
    · exact ih (fun p hp => h p (List.mem_cons_of_mem _ hp)) s hs

theorem strValsFields_jset (fs : JObj) (k : String) (v : JVal) :
    ∀ s ∈ strValsFields (jset fs k v), s ∈ strValsFields fs ++ strVals v := by
  induction fs with
  | nil =>
    intro s hs
    simp only [jset, strValsFields, List.append_nil] at hs
    simp only [strValsFields, List.mem_append]
    exact Or.inr hs
  | cons e rest ih =>
    intro s hs
    by_cases he : (e.1 == k) = true
    · simp only [jset, he, if_true] at hs
      cases e with
      | mk k0 v0 =>
        simp only [strValsFields, List.mem_append] at hs ⊢
        rcases hs with hs | hs
        · exact Or.inr hs
        · exact Or.inl (Or.inr hs)
    · simp only [jset, he, Bool.false_eq_true, if_false] at hs
      cases e with
      | mk k0 v0 =>
        simp only [strValsFields, List.mem_append] at hs ⊢
        rcases hs with hs | hs
        · exact Or.inl (Or.inl hs)
        · rcases List.mem_append.mp (ih s hs) with h2 | h2
          · exact Or.inl (Or.inr h2)
          · exact Or.inr h2

theorem strValsFields_jdel (fs : JObj) (k : String) :
    ∀ s ∈ strValsFields (jdel fs k), s ∈ strValsFields fs :=
  strValsFields_subset_of_mem _ fs (fun p hp => mem_jdel fs k p hp)

theorem strValsFields_jmergeObj (a b : JObj) :
    ∀ s ∈ strValsFields (jmergeObj a b),
      s ∈ strValsFields a ++ strValsFields b := by
  induction b generalizing a with
  | nil =>
    intro s hs
    simp only [jmergeObj, List.foldl_nil] at hs
    exact List.mem_append.mpr (Or.inl hs)
  | cons e rest ih =>
    obtain ⟨k0, v0⟩ := e
    intro s hs
    rw [jmergeObj_cons] at hs
    have h1 := ih (jset a k0 v0) s hs
    rcases List.mem_append.mp h1 with h2 | h2
    · have h3 := strValsFields_jset a k0 v0 s h2
      rcases List.mem_append.mp h3 with h4 | h4
      · exact List.mem_append.mpr (Or.inl h4)
      · refine List.mem_append.mpr (Or.inr ?_)
        simp only [strValsFields, List.mem_append]
        exact Or.inl h4
    · refine List.mem_append.mpr (Or.inr ?_)
      simp only [strValsFields, List.mem_append]
      exact Or.inr h2

theorem jsize_pos (v : JVal) : 1 ≤ jsize v := by
  cases v <;> simp [jsize] <;> omega

theorem mem_jsizeFields (fs : JObj) (k : String) (v : JVal) :
    (k, v) ∈ fs → jsize v ≤ jsizeFields fs := by
  induction fs with
  | nil => intro h; cases h
  | cons e rest ih =>
    obtain ⟨k0, v0⟩ := e
    intro h
    rcases List.mem_cons.mp h with h | h
    · injection h with hk hv
      subst hv
      simp only [jsizeFields]
      omega
    · have := ih h
      have hp := jsize_pos v0
      simp only [jsizeFields]
      omega

theorem mem_jsizeList (xs : List JVal) (x : JVal)
    (h : x ∈ xs) : jsize x ≤ jsizeList xs := by
  induction xs with
  | nil => cases h
  | cons y ys ih =>
    rcases List.mem_cons.mp h with h | h
    · subst h; simp only [jsizeList]; omega
    · have := ih h
      have hp := jsize_pos y
      simp only [jsizeList]
      omega

theorem jget_jsize (fs : JObj) (k : String) (v : JVal)
    (h : jget fs k = some v) : jsize v < jsize (JVal.obj fs) := by
  have := mem_jsizeFields fs k v (jget_mem fs k v h)
  simp only [jsize]
  omega

/-! ### Well-formedness lemmas -/

theorem wfv_obj_nodup {fs : JObj} (h : WFv (JVal.obj fs)) :
    (fs.map Prod.fst).Nodup := by
  cases h with
  | prim _ _ hne => exact absurd rfl (hne fs)
  | obj _ hnd _ => exact hnd

theorem wfv_obj_values {fs : JObj} (h : WFv (JVal.obj fs)) :
    ∀ k v, (k, v) ∈ fs → WFv v := by
  cases h with
  | prim _ _ hne => exact absurd rfl (hne fs)
  | obj _ _ hv => exact hv

theorem wfv_arr_elems {xs : List JVal} (h : WFv (JVal.arr xs)) :
    ∀ x ∈ xs, WFv x := by
  cases h with
  | prim _ hne _ => exact absurd rfl (hne xs)
  | arr _ hv => exact hv

theorem wfv_nil_obj : WFv (JVal.obj []) :=
  WFv.obj [] (by simp) (by intro k v h; cases h)

theorem wfv_jget {fs : JObj} {k : String} {v : JVal}
    (h : WFv (JVal.obj fs)) (hg : jget fs k = some v) : WFv v :=
  wfv_obj_values h k v (jget_mem fs k v hg)

theorem mem_jget_of_nodup {fs : JObj} {k : String} {v : JVal}
    (hnd : (fs.map Prod.fst).Nodup) (h : (k, v) ∈ fs) :
    jget fs k = some v := by
  induction fs with
  | nil => cases h
  | cons e rest ih =>
    obtain ⟨k0, v0⟩ := e
    rw [jget_cons]
    rcases List.mem_cons.mp h with h | h
    · injection h with hk hv
      subst hk
      subst hv
      simp
    · rw [List.map_cons] at hnd
      have hnd2 := List.nodup_cons.mp hnd
      have hknd : k0 ∉ rest.map Prod.fst := hnd2.1
      have hne : ¬ (k0 : String) = k := by
        intro he
        subst he
        exact hknd (List.mem_map.mpr ⟨(k0, v), h, rfl⟩)
      simp only [hne, if_false]
      exact ih hnd2.2 h

theorem keys_jset_subset (fs : JObj) (k : String) (v : JVal) :
    ∀ k' ∈ (jset fs k v).map Prod.fst, k' ∈ fs.map Prod.fst ∨ k' = k := by
  induction fs with
  | nil =>
    intro k' h
    simp only [jset, List.map_cons, List.map_nil] at h
    exact Or.inr (by simpa using h)
  | cons e rest ih =>
    intro k' h
    by_cases he : (e.1 == k) = true
    · simp only [jset, he, if_true, List.map_cons] at h
      rcases List.mem_cons.mp h with h | h
      · exact Or.inr h
      · exact Or.inl (by simp only [List.map_cons]; exact List.mem_cons_of_mem _ h)
    · simp only [jset, he, Bool.false_eq_true, if_false, List.map_cons] at h
      rcases List.mem_cons.mp h with h | h
      · exact Or.inl (by simp only [List.map_cons]; exact h ▸ List.mem_cons_self _ _)
      · rcases ih k' h with h | h
        · exact Or.inl (by simp only [List.map_cons]; exact List.mem_cons_of_mem _ h)
        · exact Or.inr h

theorem nodup_keys_jset (fs : JObj) (k : String) (v : JVal)
    (hnd : (fs.map Prod.fst).Nodup) : ((jset fs k v).map Prod.fst).Nodup := by
  induction fs with
  | nil => simp [jset]
  | cons e rest ih =>
    obtain ⟨k0, v0⟩ := e
    rw [List.map_cons] at hnd
    have hnd2 := List.nodup_cons.mp hnd
    by_cases he : ((k0, v0).1 == k) = true
    · have hk : k0 = k := by simpa using he
      subst hk
      simp only [jset, he, if_true, List.map_cons]
      exact List.nodup_cons.mpr ⟨hnd2.1, hnd2.2⟩
    · simp only [jset, he, Bool.false_eq_true, if_false, List.map_cons]
      refine List.nodup_cons.mpr ⟨?_, ih hnd2.2⟩
      intro hmem
      rcases keys_jset_subset rest k v _ hmem with h | h
      · exact hnd2.1 h
      · exact (by simpa using he : ¬ (k0 : String) = k) h

theorem wf_jset {fs : JObj} {k : String} {v : JVal}
    (h : WFv (JVal.obj fs)) (hv : WFv v) : WFv (JVal.obj (jset fs k v)) := by
  refine WFv.obj _ (nodup_keys_jset fs k v (wfv_obj_nodup h)) ?_
  intro k' v' hm
  rcases mem_jset fs k v (k', v') hm with hm | hm
  · exact wfv_obj_values h k' v' hm
  · injection hm with h1 h2
    subst h2
    exact hv

theorem wf_jdel {fs : JObj} {k : String}
    (h : WFv (JVal.obj fs)) : WFv (JVal.obj (jdel fs k)) := by
  refine WFv.obj _ ?_ ?_
  · exact (wfv_obj_nodup h).sublist (List.Sublist.map _ (List.filter_sublist fs))
  · intro k' v' hm
    exact wfv_obj_values h k' v' (mem_jdel fs k _ hm)

theorem wfv_obj_tail {e : String × JVal} {rest : JObj}
    (h : WFv (JVal.obj (e :: rest))) : WFv (JVal.obj rest) := by
  refine WFv.obj _ ?_ ?_
  · exact (List.nodup_cons.mp (by simpa using wfv_obj_nodup h)).2
  · intro k v hm
    exact wfv_obj_values h k v (List.mem_cons_of_mem e hm)

theorem wf_jmergeObj {a b : JObj}
    (ha : WFv (JVal.obj a)) (hb : WFv (JVal.obj b)) :
    WFv (JVal.obj (jmergeObj a b)) := by
  induction b generalizing a with
  | nil => simpa [jmergeObj] using ha
  | cons e rest ih =>
    obtain ⟨k0, v0⟩ := e
    rw [jmergeObj_cons]
    exact ih (wf_jset ha (wfv_obj_values hb k0 v0 (List.mem_cons_self _ _)))
      (wfv_obj_tail hb)

theorem wfv_props_obj {a : JObj} (ha : WFv (JVal.obj a)) (k : String) :
    WFv (JVal.obj (match jget a k with
      | some (.obj ps) => ps
      | _ => [])) := by
  cases hg : jget a k with
  | none => exact wfv_nil_obj
  | some v =>
    cases v with
    | obj ps => exact wfv_jget ha hg
    | null => exact wfv_nil_obj
    | bool b => exact wfv_nil_obj
    | num n => exact wfv_nil_obj
    | str s => exact wfv_nil_obj
    | arr xs => exact wfv_nil_obj

theorem wfv_req_elems {a : JObj} (ha : WFv (JVal.obj a)) (k : String) :
    ∀ x ∈ (match jget a k with
      | some (.arr xs) => xs
      | _ => []), WFv x := by
  cases hg : jget a k with
  | none => intro x hx; cases hx
  | some v =>
    cases v with
    | arr xs => exact wfv_arr_elems (wfv_jget ha hg)
    | null => intro x hx; cases hx
    | bool b => intro x hx; cases hx
    | num n => intro x hx; cases hx
    | str s => intro x hx; cases hx
    | obj fs => intro x hx; cases hx

theorem wf_mergeSchemaObjects {a b : JObj}
    (ha : WFv (JVal.obj a)) (hb : WFv (JVal.obj b)) :
    WFv (JVal.obj (mergeSchemaObjects a b)) := by
  simp only [mergeSchemaObjects]
  have h0 : WFv (JVal.obj (jmergeObj a b)) := wf_jmergeObj ha hb
  have hprops : WFv (JVal.obj (jmergeObj
      (match jget a "properties" with
        | some (.obj ps) => ps
        | _ => [])
      (match jget b "properties" with
        | some (.obj ps) => ps
        | _ => []))) :=
    wf_jmergeObj (wfv_props_obj ha "properties") (wfv_props_obj hb "properties")
  have hreq : WFv (JVal.arr (dedupeJVals
      ((match jget a "required" with
        | some (.arr xs) => xs
        | _ => []) ++
      (match jget b "required" with
        | some (.arr xs) => xs
        | _ => [])))) := by
    refine WFv.arr _ ?_
    intro x hx
    have hx2 := mem_dedupeJVals _ x hx
    rcases List.mem_append.mp hx2 with hx2 | hx2
    · exact wfv_req_elems ha "required" x hx2
    · exact wfv_req_elems hb "required" x hx2
  split
  all_goals first
    | (apply wf_jdel
       split
       all_goals first
         | (apply wf_jset
            · split
              · exact wf_jset h0 hprops
              · exact h0
            · exact hreq)
         | (split
            · exact wf_jset h0 hprops
            · exact h0))
    | (split
       all_goals first
         | (apply wf_jset
            · split
              · exact wf_jset h0 hprops
              · exact h0
            · exact hreq)
         | (split
            · exact wf_jset h0 hprops
            · exact h0))


/-! ### Structure of merged schemas -/

theorem jget_none_of_not_mem {fs : JObj} {k : String}
    (h : k ∉ fs.map Prod.fst) : jget fs k = none := by
  induction fs with
  | nil => rfl
  | cons e rest ih =>
    rw [jget_cons]
    rw [List.map_cons] at h
    have h1 : ¬ e.1 = k := fun he => h (he ▸ List.mem_cons_self _ _)
    rw [if_neg h1]
    exact ih (fun hm => h (List.mem_cons_of_mem _ hm))

theorem jget_jmergeObj_left (a : JObj) {b : JObj} {k : String}
    (h : jget b k = none) : jget (jmergeObj a b) k = jget a k := by
  induction b generalizing a with
  | nil => simp [jmergeObj]
  | cons e rest ih =>
    rw [jmergeObj_cons]
    rw [jget_cons] at h
    by_cases he : e.1 = k
    · rw [if_pos he] at h; cases h
    · rw [if_neg he] at h
      rw [ih (jset a e.1 e.2) h, jget_jset_ne a e.1 k e.2 (fun hh => he hh.symm)]

theorem jget_jmergeObj_right (a : JObj) {b : JObj} {k : String} {v : JVal}
    (hnd : (b.map Prod.fst).Nodup) (h : jget b k = some v) :
    jget (jmergeObj a b) k = some v := by
  induction b generalizing a with
  | nil => cases h
  | cons e rest ih =>
    rw [jmergeObj_cons]
    rw [List.map_cons] at hnd
    have hnd2 := List.nodup_cons.mp hnd
    rw [jget_cons] at h
    by_cases he : e.1 = k
    · rw [if_pos he] at h
      obtain rfl : e.2 = v := by injection h
      have hrest : jget rest k = none := by
        apply jget_none_of_not_mem
        rw [← he]
        exact hnd2.1
      rw [jget_jmergeObj_left (jset a e.1 e.2) hrest, he, jget_jset_self]
    · rw [if_neg he] at h
      exact ih (jset a e.1 e.2) hnd2.2 h

theorem jget_jmergeObj_eq (a : JObj) {b : JObj} (k : String)
    (hnd : (b.map Prod.fst).Nodup) :
    jget (jmergeObj a b) k = match jget b k with
      | some v => some v
      | none => jget a k := by
  cases hb : jget b k with
  | some v => exact jget_jmergeObj_right a hnd hb
  | none => exact jget_jmergeObj_left a hb

theorem mergeSchemaObjects_eq (a b : JObj) :
    mergeSchemaObjects a b =
      (let r0 := jmergeObj a b
       let r1 := if (propsOf a).length ≠ 0 || (propsOf b).length ≠ 0 then
           jset r0 "properties" (.obj (jmergeObj (propsOf a) (propsOf b)))
         else r0
       let r2 := if (reqOf a).length ≠ 0 || (reqOf b).length ≠ 0 then
           jset r1 "required" (.arr (dedupeJVals (reqOf a ++ reqOf b)))
         else r1
       if jsTruthyOpt (jget a "allOf") || jsTruthyOpt (jget b "allOf") then
         jdel r2 "allOf"
       else r2) := rfl

theorem jget_mergeSchemaObjects_other (a b : JObj) (k : String)
    (h1 : k ≠ "properties") (h2 : k ≠ "required") (h3 : k ≠ "allOf") :
    jget (mergeSchemaObjects a b) k = jget (jmergeObj a b) k := by
  rw [mergeSchemaObjects_eq]
  simp only []
  split
  · rw [jget_jdel_ne _ _ _ h3]
    split
    · rw [jget_jset_ne _ _ _ _ h2]
      split
      · rw [jget_jset_ne _ _ _ _ h1]
      · rfl
    · split
      · rw [jget_jset_ne _ _ _ _ h1]
      · rfl
  · split
    · rw [jget_jset_ne _ _ _ _ h2]
      split
      · rw [jget_jset_ne _ _ _ _ h1]
      · rfl
    · split
      · rw [jget_jset_ne _ _ _ _ h1]
      · rfl

theorem jget_merge_props_cases (a b : JObj) :
    jget (mergeSchemaObjects a b) "properties" =
      some (JVal.obj (jmergeObj (propsOf a) (propsOf b))) ∨
    jget (mergeSchemaObjects a b) "properties" =
      jget (jmergeObj a b) "properties" := by
  rw [mergeSchemaObjects_eq]
  simp only []
  split
  · rw [jget_jdel_ne _ _ _ (by decide)]
    split
    · rw [jget_jset_ne _ _ _ _ (by decide)]
      split
      · exact Or.inl (jget_jset_self _ _ _)
      · exact Or.inr rfl
    · split
      · exact Or.inl (jget_jset_self _ _ _)
      · exact Or.inr rfl
  · split
    · rw [jget_jset_ne _ _ _ _ (by decide)]
      split
      · exact Or.inl (jget_jset_self _ _ _)
      · exact Or.inr rfl
    · split
      · exact Or.inl (jget_jset_self _ _ _)
      · exact Or.inr rfl

theorem jget_merge_allOf_cases {a b : JObj} {v : JVal}
    (h : jget (mergeSchemaObjects a b) "allOf" = some v) :
    jget (jmergeObj a b) "allOf" = some v := by
  rw [mergeSchemaObjects_eq] at h
  simp only [] at h
  split at h
  · rw [jget_jdel_self] at h
    cases h
  · split at h
    · rw [jget_jset_ne _ _ _ _ (by decide)] at h
      split at h
      · rwa [jget_jset_ne _ _ _ _ (by decide)] at h
      · exact h
    · split at h
      · rwa [jget_jset_ne _ _ _ _ (by decide)] at h
      · exact h

theorem strVals_propsOf (a : JObj) :
    ∀ s ∈ strValsFields (propsOf a), s ∈ strValsFields a := by
  unfold propsOf
  cases hg : jget a "properties" with
  | none => intro s hs; cases hs
  | some v =>
    cases v with
    | obj ps =>
      intro s hs
      refine jget_strVals a "properties" _ hg s ?_
      simpa [strVals] using hs
    | null => intro s hs; cases hs
    | bool b => intro s hs; cases hs
    | num n => intro s hs; cases hs
    | str st => intro s hs; cases hs
    | arr xs => intro s hs; cases hs

theorem strVals_reqOf (a : JObj) :
    ∀ s ∈ strValsList (reqOf a), s ∈ strValsFields a := by
  unfold reqOf
  cases hg : jget a "required" with
  | none => intro s hs; cases hs
  | some v =>
    cases v with
    | arr xs =>
      intro s hs
      refine jget_strVals a "required" _ hg s ?_
      simpa [strVals] using hs
    | null => intro s hs; cases hs
    | bool b => intro s hs; cases hs
    | num n => intro s hs; cases hs
    | str st => intro s hs; cases hs
    | obj fs => intro s hs; cases hs

theorem strValsFields_mergeSchemaObjects (a b : JObj) :
    ∀ s ∈ strValsFields (mergeSchemaObjects a b),
      s ∈ strValsFields a ∨ s ∈ strValsFields b := by
  have h0 : ∀ s ∈ strValsFields (jmergeObj a b),
      s ∈ strValsFields a ∨ s ∈ strValsFields b :=
    fun s hs => List.mem_append.mp (strValsFields_jmergeObj a b s hs)
  have hprops : ∀ s ∈ strVals
      (JVal.obj (jmergeObj (propsOf a) (propsOf b))),
      s ∈ strValsFields a ∨ s ∈ strValsFields b := by
    intro s hs
    have hs2 : s ∈ strValsFields (jmergeObj (propsOf a) (propsOf b)) := by
      simpa [strVals] using hs
    rcases List.mem_append.mp (strValsFields_jmergeObj _ _ s hs2) with h | h
    · exact Or.inl (strVals_propsOf a s h)
    · exact Or.inr (strVals_propsOf b s h)
  have hreq : ∀ s ∈ strVals
      (JVal.arr (dedupeJVals (reqOf a ++ reqOf b))),
      s ∈ strValsFields a ∨ s ∈ strValsFields b := by
    intro s hs
    have hs2 : s ∈ strValsList (dedupeJVals (reqOf a ++ reqOf b)) := by
      simpa [strVals] using hs
    have hs3 : s ∈ strValsList (reqOf a ++ reqOf b) :=
      strValsList_subset_of_mem _ _ (fun y hy => mem_dedupeJVals _ y hy) s hs2
    rw [strValsList_append] at hs3
    rcases List.mem_append.mp hs3 with h | h
    · exact Or.inl (strVals_reqOf a s h)
    · exact Or.inr (strVals_reqOf b s h)
  intro s hs
  rw [mergeSchemaObjects_eq] at hs
  simp only [] at hs
  generalize hR1 : (if (propsOf a).length ≠ 0 || (propsOf b).length ≠ 0 then
      jset (jmergeObj a b) "properties"
        (JVal.obj (jmergeObj (propsOf a) (propsOf b)))
    else jmergeObj a b) = R1 at hs
  have hR1good : ∀ t ∈ strValsFields R1,
      t ∈ strValsFields a ∨ t ∈ strValsFields b := by
    intro t ht
    rw [← hR1] at ht
    split at ht
    · rcases List.mem_append.mp (strValsFields_jset _ _ _ t ht) with h | h
      · exact h0 t h
      · exact hprops t h
    · exact h0 t ht
  generalize hR2 : (if (reqOf a).length ≠ 0 || (reqOf b).length ≠ 0 then
      jset R1 "required" (JVal.arr (dedupeJVals (reqOf a ++ reqOf b)))
    else R1) = R2 at hs
  have hR2good : ∀ t ∈ strValsFields R2,
      t ∈ strValsFields a ∨ t ∈ strValsFields b := by
    intro t ht
    rw [← hR2] at ht
    split at ht
    · rcases List.mem_append.mp (strValsFields_jset _ _ _ t ht) with h | h
      · exact hR1good t h
      · exact hreq t h
    · exact hR1good t ht
  split at hs
  · exact hR2good s (strValsFields_jdel _ "allOf" s hs)
  · exact hR2good s hs

theorem getSchemaFromRef_mem {defs : JObj} {r : String} {s0 : JVal}
    (h : getSchemaFromRef defs r = some s0) :
    ∃ name, jget defs name = some s0 := by
  unfold getSchemaFromRef at h
  cases hd : decodeSchemaRefName r with
  | none => rw [hd] at h; cases h
  | some name =>
    rw [hd] at h
    exact ⟨name, h⟩


/-! ### Child positions of a working schema -/

theorem childVals_congr {a b : JObj}
    (h1 : jget a "properties" = jget b "properties")
    (h2 : jget a "items" = jget b "items")
    (h3 : jget a "additionalProperties" = jget b "additionalProperties") :
    childVals a = childVals b := by
  unfold childVals
  rw [h1, h2, h3]

theorem childVals_mem_props {fs ps : JObj} {k : String} {x : JVal}
    (hg : jget fs "properties" = some (JVal.obj ps)) (hm : (k, x) ∈ ps) :
    x ∈ childVals fs := by
  have hx : x ∈ ps.map (fun p => p.2) := List.mem_map.mpr ⟨(k, x), hm, rfl⟩
  unfold childVals
  rw [hg]
  simp only [List.mem_append]
  exact Or.inl (Or.inl hx)

theorem childVals_mem_items {fs its : JObj}
    (hg : jget fs "items" = some (JVal.obj its)) :
    JVal.obj its ∈ childVals fs := by
  unfold childVals
  rw [hg]
  simp only [List.mem_append]
  exact Or.inl (Or.inr (List.mem_singleton.mpr rfl))

theorem childVals_mem_addProps {fs aps : JObj}
    (hg : jget fs "additionalProperties" = some (JVal.obj aps)) :
    JVal.obj aps ∈ childVals fs := by
  unfold childVals
  rw [hg]
  simp only [List.mem_append]
  exact Or.inr (List.mem_singleton.mpr rfl)

theorem childVals_origin {fs : JObj} {x : JVal} (h : x ∈ childVals fs) :
    (∃ ps k, jget fs "properties" = some (JVal.obj ps) ∧ (k, x) ∈ ps) ∨
    (∃ its, jget fs "items" = some (JVal.obj its) ∧ x = JVal.obj its) ∨
    (∃ aps, jget fs "additionalProperties" = some (JVal.obj aps) ∧
      x = JVal.obj aps) := by
  unfold childVals at h
  simp only [List.mem_append] at h
  rcases h with (h | h) | h
  · cases hg : jget fs "properties" with
    | none => rw [hg] at h; cases h
    | some v =>
      rw [hg] at h
      cases v with
      | obj ps =>
        obtain ⟨p, hp, he⟩ := List.mem_map.mp h
        obtain ⟨p1, p2⟩ := p
        simp only at he
        subst he
        exact Or.inl ⟨ps, p1, rfl, hp⟩
      | null => cases h
      | bool b => cases h
      | num n => cases h
      | str st => cases h
      | arr xs => cases h
  · cases hg : jget fs "items" with
    | none => rw [hg] at h; cases h
    | some v =>
      rw [hg] at h
      cases v with
      | obj its => exact Or.inr (Or.inl ⟨its, rfl, List.mem_singleton.mp h⟩)
      | null => cases h
      | bool b => cases h
      | num n => cases h
      | str st => cases h
      | arr xs => cases h
  · cases hg : jget fs "additionalProperties" with
    | none => rw [hg] at h; cases h
    | some v =>
      rw [hg] at h
      cases v with
      | obj aps => exact Or.inr (Or.inr ⟨aps, rfl, List.mem_singleton.mp h⟩)
      | null => cases h
      | bool b => cases h
      | num n => cases h
      | str st => cases h
      | arr xs => cases h

theorem childVals_wfv {fs : JObj} (hw : WFv (JVal.obj fs)) :
    ∀ x ∈ childVals fs, WFv x := by
  intro x hx
  rcases childVals_origin hx with ⟨ps, k, hg, hm⟩ | ⟨its, hg, he⟩ | ⟨aps, hg, he⟩
  · exact wfv_obj_values (wfv_jget hw hg) k x hm
  · subst he; exact wfv_jget hw hg
  · subst he; exact wfv_jget hw hg

theorem childVals_atoms {fs : JObj} {x : JVal} (hx : x ∈ childVals fs) :
    ∀ a ∈ strVals x, a ∈ strValsFields fs := by
  rcases childVals_origin hx with ⟨ps, k, hg, hm⟩ | ⟨its, hg, he⟩ | ⟨aps, hg, he⟩
  · intro a ha
    refine jget_strVals fs "properties" _ hg a ?_
    have h2 := mem_strValsFields ps k x hm a ha
    simpa [strVals] using h2
  · subst he
    exact jget_strVals fs "items" _ hg
  · subst he
    exact jget_strVals fs "additionalProperties" _ hg

theorem childVals_jsize {fs : JObj} {x : JVal} (hx : x ∈ childVals fs) :
    jsize x < jsize (JVal.obj fs) := by
  rcases childVals_origin hx with ⟨ps, k, hg, hm⟩ | ⟨its, hg, he⟩ | ⟨aps, hg, he⟩
  · have h1 : jsize x ≤ jsizeFields ps := mem_jsizeFields ps k x hm
    have h2 : jsize (JVal.obj ps) < jsize (JVal.obj fs) := jget_jsize fs _ _ hg
    have h3 : jsize (JVal.obj ps) = 1 + jsizeFields ps := by simp [jsize]
    omega
  · subst he; exact jget_jsize fs _ _ hg
  · subst he; exact jget_jsize fs _ _ hg

theorem childVals_res {fs : JObj} (hr : Res (JVal.obj fs)) :
    ∀ x ∈ childVals fs, Res x := by
  intro x hx
  cases hr with
  | nonobj _ hne => exact absurd rfl (hne fs)
  | obj _ href hallof hprops hitems haps =>
    rcases childVals_origin hx with ⟨ps, k, hg, hm⟩ | ⟨its, hg, he⟩ | ⟨aps, hg, he⟩
    · exact hprops ps hg k x hm
    · subst he; exact hitems its hg
    · subst he; exact haps aps hg

theorem childVals_outP {P : List String} {w : JObj} (h : OutP P w) :
    ∀ x ∈ childVals w, Res x ∧ WFv x ∧ ∀ a ∈ strVals x, a ∈ P := by
  intro x hx
  obtain ⟨hr, hw, ha⟩ := h
  exact ⟨childVals_res hr x hx, childVals_wfv hw x hx,
    fun a haa => ha a (childVals_atoms hx a haa)⟩

theorem mem_propsOf_childVals {o : JObj} {k : String} {x : JVal}
    (h : (k, x) ∈ propsOf o) : x ∈ childVals o := by
  unfold propsOf at h
  cases hg : jget o "properties" with
  | none => rw [hg] at h; cases h
  | some v =>
    rw [hg] at h
    cases v with
    | obj ps => exact childVals_mem_props hg h
    | null => cases h
    | bool b => cases h
    | num n => cases h
    | str st => cases h
    | arr xs => cases h

theorem childVals_merge {a b : JObj} (hb : (b.map Prod.fst).Nodup) :
    ∀ x ∈ childVals (mergeSchemaObjects a b),
      x ∈ childVals a ∨ x ∈ childVals b := by
  intro x hx
  rcases childVals_origin hx with ⟨ps, k, hg, hm⟩ | ⟨its, hg, he⟩ | ⟨aps, hg, he⟩
  · rcases jget_merge_props_cases a b with hc | hc
    · rw [hg] at hc
      injection hc with h1
      injection h1 with h2
      subst h2
      rcases mem_jmergeObj _ _ _ hm with h | h
      · exact Or.inl (mem_propsOf_childVals h)
      · exact Or.inr (mem_propsOf_childVals h)
    · rw [hg] at hc
      rcases jget_jmergeObj_cases a b "properties" _ hc.symm with h | h
      · exact Or.inl (childVals_mem_props h hm)
      · exact Or.inr (childVals_mem_props (mem_jget_of_nodup hb h) hm)
  · subst he
    rw [jget_mergeSchemaObjects_other a b "items" (by decide) (by decide)
      (by decide)] at hg
    rcases jget_jmergeObj_cases a b "items" _ hg with h | h
    · exact Or.inl (childVals_mem_items h)
    · exact Or.inr (childVals_mem_items (mem_jget_of_nodup hb h))
  · subst he
    rw [jget_mergeSchemaObjects_other a b "additionalProperties" (by decide)
      (by decide) (by decide)] at hg
    rcases jget_jmergeObj_cases a b "additionalProperties" _ hg with h | h
    · exact Or.inl (childVals_mem_addProps h)
    · exact Or.inr (childVals_mem_addProps (mem_jget_of_nodup hb h))

/-! ### Branch equations for the resolver stages -/

theorem refStage_none (rec : JVal → List String → Option (Option JObj))
    (defs : JObj) {fs : JObj} {s : List String}
    (h : jget fs "$ref" = none) : refStage rec defs fs s = some (fs, s) := by
  unfold refStage
  rw [h]

theorem refStage_falsy (rec : JVal → List String → Option (Option JObj))
    (defs : JObj) {fs : JObj} {s : List String} {rv : JVal}
    (h : jget fs "$ref" = some rv) (ht : jsTruthy rv = false) :
    refStage rec defs fs s = some (fs, s) := by
  unfold refStage
  rw [h]
  simp only [ht, Bool.false_eq_true, if_false]

theorem refStage_seen (rec : JVal → List String → Option (Option JObj))
    (defs : JObj) {fs : JObj} {s : List String} {r : String}
    (h : jget fs "$ref" = some (JVal.str r)) (ht : jsTruthy (JVal.str r) = true)
    (hseen : s.contains r = true) :
    refStage rec defs fs s = some (jdel fs "$ref", s) := by
  unfold refStage
  rw [h]
  simp only [ht, if_true, hseen]

theorem refStage_nonstr (rec : JVal → List String → Option (Option JObj))
    (defs : JObj) {fs : JObj} {s : List String} {rv : JVal}
    (h : jget fs "$ref" = some rv) (ht : jsTruthy rv = true)
    (hns : ∀ r, rv ≠ JVal.str r) :
    refStage rec defs fs s = some (mergeSchemaObjects [] (jdel fs "$ref"), s) := by
  unfold refStage
  rw [h]
  cases rv with
  | str r => exact absurd rfl (hns r)
  | null => simp only [ht, if_true]
  | bool b => simp only [ht, if_true]
  | num n => simp only [ht, if_true]
  | arr xs => simp only [ht, if_true]
  | obj o => simp only [ht, if_true]

theorem refStage_miss (rec : JVal → List String → Option (Option JObj))
    (defs : JObj) {fs : JObj} {s : List String} {r : String}
    (h : jget fs "$ref" = some (JVal.str r)) (ht : jsTruthy (JVal.str r) = true)
    (hseen : s.contains r = false) (hg : getSchemaFromRef defs r = none) :
    refStage rec defs fs s =
      some (mergeSchemaObjects [] (jdel fs "$ref"), r :: s) := by
  unfold refStage
  rw [h]
  simp only [ht, if_true, hseen, Bool.false_eq_true, if_false, hg]
  rfl

theorem refStage_hit (rec : JVal → List String → Option (Option JObj))
    (defs : JObj) {fs : JObj} {s : List String} {r : String} {s0 : JVal}
    (h : jget fs "$ref" = some (JVal.str r)) (ht : jsTruthy (JVal.str r) = true)
    (hseen : s.contains r = false) (hg : getSchemaFromRef defs r = some s0) :
    refStage rec defs fs s =
      match rec s0 (r :: s) with
      | none => none
      | some refOpt =>
        some (mergeSchemaObjects (refOpt.getD []) (jdel fs "$ref"), r :: s) := by
  unfold refStage
  rw [h]
  simp only [ht, if_true, hseen, Bool.false_eq_true, if_false, hg]

theorem allOfStage_not_arr (rec : JVal → List String → Option (Option JObj))
    {w : JObj} {s : List String}
    (h : ∀ l, jget w "allOf" ≠ some (JVal.arr l)) :
    allOfStage rec w s = some w := by
  unfold allOfStage
  cases ha : jget w "allOf" with
  | none => rfl
  | some av =>
    cases av with
    | arr l => exact absurd ha (h l)
    | null => rfl
    | bool b => rfl
    | num n => rfl
    | str st => rfl
    | obj o => rfl

theorem allOfStage_arr (rec : JVal → List String → Option (Option JObj))
    {w : JObj} {s : List String} {entries : List JVal}
    (h : jget w "allOf" = some (JVal.arr entries)) :
    allOfStage rec w s =
      match allOfFold rec entries w s with
      | none => none
      | some acc => some (jdel acc "allOf") := by
  unfold allOfStage
  rw [h]

theorem propsStage_not_obj (rec : JVal → List String → Option (Option JObj))
    {w : JObj} {s : List String}
    (h : ∀ ps, jget w "properties" ≠ some (JVal.obj ps)) :
    propsStage rec w s = some w := by
  unfold propsStage
  cases hp : jget w "properties" with
  | none => rfl
  | some pv =>
    cases pv with
    | obj ps => exact absurd hp (h ps)
    | null => rfl
    | bool b => rfl
    | num n => rfl
    | str st => rfl
    | arr xs => rfl

theorem propsStage_obj (rec : JVal → List String → Option (Option JObj))
    {w : JObj} {s : List String} {ps : List (String × JVal)}
    (h : jget w "properties" = some (JVal.obj ps)) :
    propsStage rec w s =
      match propsMap rec ps s with
      | none => none
      | some ps2 => some (jset w "properties" (JVal.obj ps2)) := by
  unfold propsStage
  rw [h]

theorem itemsStage_not_obj (rec : JVal → List String → Option (Option JObj))
    {w : JObj} {s : List String} {key : String}
    (h : ∀ its, jget w key ≠ some (JVal.obj its)) :
    itemsStage rec w s key = some w := by
  unfold itemsStage
  cases hp : jget w key with
  | none => rfl
  | some pv =>
    cases pv with
    | obj its => exact absurd hp (h its)
    | null => rfl
    | bool b => rfl
    | num n => rfl
    | str st => rfl
    | arr xs => rfl

theorem itemsStage_obj (rec : JVal → List String → Option (Option JObj))
    {w : JObj} {s : List String} {key : String} {its : List (String × JVal)}
    (h : jget w key = some (JVal.obj its)) :
    itemsStage rec w s key =
      match resolveChild rec (JVal.obj its) s with
      | none => none
      | some r0 => some (jset w key (JVal.obj r0)) := by
  unfold itemsStage
  rw [h]

theorem resolveChild_none (rec : JVal → List String → Option (Option JObj))
    {x : JVal} {s : List String} (h : rec x s = none) :
    resolveChild rec x s = none := by
  unfold resolveChild
  rw [h]

theorem resolveChild_some (rec : JVal → List String → Option (Option JObj))
    {x : JVal} {s : List String} {o : Option JObj} (h : rec x s = some o) :
    resolveChild rec x s = some (o.getD []) := by
  unfold resolveChild
  rw [h]
  cases o <;> rfl

theorem allOfFold_cons_none (rec : JVal → List String → Option (Option JObj))
    {e : JVal} {es : List JVal} {acc : JObj} {s : List String}
    (h : rec e s = none) : allOfFold rec (e :: es) acc s = none := by
  unfold allOfFold
  rw [h]

theorem allOfFold_cons_undef (rec : JVal → List String → Option (Option JObj))
    {e : JVal} {es : List JVal} {acc : JObj} {s : List String}
    (h : rec e s = some none) :
    allOfFold rec (e :: es) acc s = allOfFold rec es acc s := by
  conv_lhs => unfold allOfFold
  rw [h]

theorem allOfFold_cons_some (rec : JVal → List String → Option (Option JObj))
    {e : JVal} {es : List JVal} {acc : JObj} {s : List String} {r : JObj}
    (h : rec e s = some (some r)) :
    allOfFold rec (e :: es) acc s =
      allOfFold rec es (mergeSchemaObjects acc r) s := by
  conv_lhs => unfold allOfFold
  rw [h]

theorem propsMap_cons_none (rec : JVal → List String → Option (Option JObj))
    {k : String} {x : JVal} {rest : List (String × JVal)} {s : List String}
    (h : resolveChild rec x s = none) :
    propsMap rec ((k, x) :: rest) s = none := by
  unfold propsMap
  rw [h]

theorem propsMap_cons_some (rec : JVal → List String → Option (Option JObj))
    {k : String} {x : JVal} {rest : List (String × JVal)} {s : List String}
    {r : JObj} (h : resolveChild rec x s = some r) :
    propsMap rec ((k, x) :: rest) s =
      match propsMap rec rest s with
      | none => none
      | some rest2 => some ((k, JVal.obj r) :: rest2) := by
  conv_lhs => unfold propsMap
  rw [h]

theorem resolveBody_nonobj (rec : JVal → List String → Option (Option JObj))
    (defs : JObj) {v : JVal} {s : List String}
    (h : ∀ fs : JObj, v ≠ JVal.obj fs) : resolveBody rec defs v s = some none := by
  unfold resolveBody
  cases v with
  | obj fs => exact absurd rfl (h fs)
  | null => rfl
  | bool b => rfl
  | num n => rfl
  | str st => rfl
  | arr xs => rfl

theorem resolveBody_obj (rec : JVal → List String → Option (Option JObj))
    (defs : JObj) (fs : JObj) (s : List String) :
    resolveBody rec defs (JVal.obj fs) s =
      match refStage rec defs fs s with
      | none => none
      | some (w1, s1) => resolveAfterRef rec w1 s1 := rfl

theorem resolveF_succ (defs : JObj) (n : Nat) (v : JVal) (s : List String) :
    resolveSchemaObjectF (n + 1) defs v s =
      resolveBody (fun w s2 => resolveSchemaObjectF n defs w s2) defs v s := rfl

/-! ### Resolver monotonicity in fuel -/

theorem rle_resolveChild {f g : JVal → List String → Option (Option JObj)}
    (h : RLe f g) {x : JVal} {s : List String} {r : JObj}
    (hc : resolveChild f x s = some r) : resolveChild g x s = some r := by
  cases hf : f x s with
  | none => rw [resolveChild_none f hf] at hc; cases hc
  | some o =>
    rw [resolveChild_some f hf] at hc
    rw [resolveChild_some g (h x s o hf)]
    exact hc

theorem rle_refStage {f g : JVal → List String → Option (Option JObj)}
    (h : RLe f g) (defs : JObj) {fs : JObj} {s : List String}
    {y : JObj × List String}
    (hc : refStage f defs fs s = some y) : refStage g defs fs s = some y := by
  cases hr : jget fs "$ref" with
  | none =>
    rw [refStage_none f defs hr] at hc
    rw [refStage_none g defs hr]
    exact hc
  | some rv =>
    cases ht : jsTruthy rv with
    | false =>
      rw [refStage_falsy f defs hr ht] at hc
      rw [refStage_falsy g defs hr ht]
      exact hc
    | true =>
      cases rv with
      | str r =>
        cases hseen : s.contains r with
        | true =>
          rw [refStage_seen f defs hr ht hseen] at hc
          rw [refStage_seen g defs hr ht hseen]
          exact hc
        | false =>
          cases hg : getSchemaFromRef defs r with
          | none =>
            rw [refStage_miss f defs hr ht hseen hg] at hc
            rw [refStage_miss g defs hr ht hseen hg]
            exact hc
          | some s0 =>
            rw [refStage_hit f defs hr ht hseen hg] at hc
            rw [refStage_hit g defs hr ht hseen hg]
            cases hf : f s0 (r :: s) with
            | none => rw [hf] at hc; cases hc
            | some refOpt =>
              rw [hf] at hc
              rw [h s0 (r :: s) refOpt hf]
              exact hc
      | null =>
        rw [refStage_nonstr f defs hr ht (by intro r hne; cases hne)] at hc
        rw [refStage_nonstr g defs hr ht (by intro r hne; cases hne)]
        exact hc
      | bool b =>
        rw [refStage_nonstr f defs hr ht (by intro r hne; cases hne)] at hc
        rw [refStage_nonstr g defs hr ht (by intro r hne; cases hne)]
        exact hc
      | num n =>
        rw [refStage_nonstr f defs hr ht (by intro r hne; cases hne)] at hc
        rw [refStage_nonstr g defs hr ht (by intro r hne; cases hne)]
        exact hc
      | arr xs =>
        rw [refStage_nonstr f defs hr ht (by intro r hne; cases hne)] at hc
        rw [refStage_nonstr g defs hr ht (by intro r hne; cases hne)]
        exact hc
      | obj o =>
        rw [refStage_nonstr f defs hr ht (by intro r hne; cases hne)] at hc
        rw [refStage_nonstr g defs hr ht (by intro r hne; cases hne)]
        exact hc

theorem rle_allOfFold {f g : JVal → List String → Option (Option JObj)}
    (h : RLe f g) :
    ∀ (es : List JVal) (acc : JObj) (s : List String) (r : JObj),
      allOfFold f es acc s = some r → allOfFold g es acc s = some r := by
  intro es
  induction es with
  | nil => intro acc s r hc; exact hc
  | cons e rest ih =>
    intro acc s r hc
    cases hf : f e s with
    | none => rw [allOfFold_cons_none f hf] at hc; cases hc
    | some y =>
      cases y with
      | none =>
        rw [allOfFold_cons_undef f hf] at hc
        rw [allOfFold_cons_undef g (h e s none hf)]
        exact ih acc s r hc
      | some r0 =>
        rw [allOfFold_cons_some f hf] at hc
        rw [allOfFold_cons_some g (h e s (some r0) hf)]
        exact ih (mergeSchemaObjects acc r0) s r hc

theorem rle_allOfStage {f g : JVal → List String → Option (Option JObj)}
    (h : RLe f g) {w : JObj} {s : List String} {r : JObj}
    (hc : allOfStage f w s = some r) : allOfStage g w s = some r := by
  by_cases ha : ∀ l, jget w "allOf" ≠ some (JVal.arr l)
  · rw [allOfStage_not_arr f ha] at hc
    rw [allOfStage_not_arr g ha]
    exact hc
  · push_neg at ha
    obtain ⟨entries, ha⟩ := ha
    rw [allOfStage_arr f ha] at hc
    rw [allOfStage_arr g ha]
    cases hfold : allOfFold f entries w s with
    | none => rw [hfold] at hc; cases hc
    | some acc =>
      rw [hfold] at hc
      rw [rle_allOfFold h entries w s acc hfold]
      exact hc

theorem rle_propsMap {f g : JVal → List String → Option (Option JObj)}
    (h : RLe f g) :
    ∀ (ps : List (String × JVal)) (s : List String) (r : List (String × JVal)),
      propsMap f ps s = some r → propsMap g ps s = some r := by
  intro ps
  induction ps with
  | nil => intro s r hc; exact hc
  | cons e rest ih =>
    obtain ⟨k, x⟩ := e
    intro s r hc
    cases hch : resolveChild f x s with
    | none => rw [propsMap_cons_none f hch] at hc; cases hc
    | some r0 =>
      rw [propsMap_cons_some f hch] at hc
      rw [propsMap_cons_some g (rle_resolveChild h hch)]
      cases hrest : propsMap f rest s with
      | none => rw [hrest] at hc; cases hc
      | some rest2 =>
        rw [hrest] at hc
        rw [ih s rest2 hrest]
        exact hc

theorem rle_propsStage {f g : JVal → List String → Option (Option JObj)}
    (h : RLe f g) {w : JObj} {s : List String} {r : JObj}
    (hc : propsStage f w s = some r) : propsStage g w s = some r := by
  by_cases hp : ∀ ps, jget w "properties" ≠ some (JVal.obj ps)
  · rw [propsStage_not_obj f hp] at hc
    rw [propsStage_not_obj g hp]
    exact hc
  · push_neg at hp
    obtain ⟨ps, hp⟩ := hp
    rw [propsStage_obj f hp] at hc
    rw [propsStage_obj g hp]
    cases hm : propsMap f ps s with
    | none => rw [hm] at hc; cases hc
    | some ps2 =>
      rw [hm] at hc
      rw [rle_propsMap h ps s ps2 hm]
      exact hc

theorem rle_itemsStage {f g : JVal → List String → Option (Option JObj)}
    (h : RLe f g) {w : JObj} {s : List String} {key : String} {r : JObj}
    (hc : itemsStage f w s key = some r) : itemsStage g w s key = some r := by
  by_cases hp : ∀ its, jget w key ≠ some (JVal.obj its)
  · rw [itemsStage_not_obj f hp] at hc
    rw [itemsStage_not_obj g hp]
    exact hc
  · push_neg at hp
    obtain ⟨its, hp⟩ := hp
    rw [itemsStage_obj f hp] at hc
    rw [itemsStage_obj g hp]
    cases hch : resolveChild f (JVal.obj its) s with
    | none => rw [hch] at hc; cases hc
    | some r0 =>
      rw [hch] at hc
      rw [rle_resolveChild h hch]
      exact hc

theorem rle_afterItems {f g : JVal → List String → Option (Option JObj)}
    (h : RLe f g) {w4 : JObj} {s : List String} {x : Option JObj}
    (hc : afterItems f w4 s = some x) : afterItems g w4 s = some x := by
  unfold afterItems at hc ⊢
  cases hap : itemsStage f w4 s "additionalProperties" with
  | none => rw [hap] at hc; cases hc
  | some w5 =>
    rw [hap] at hc
    rw [rle_itemsStage h hap]
    exact hc

theorem rle_afterProps {f g : JVal → List String → Option (Option JObj)}
    (h : RLe f g) {w3 : JObj} {s : List String} {x : Option JObj}
    (hc : afterProps f w3 s = some x) : afterProps g w3 s = some x := by
  unfold afterProps at hc ⊢
  cases hit : itemsStage f w3 s "items" with
  | none => rw [hit] at hc; cases hc
  | some w4 =>
    rw [hit] at hc
    rw [rle_itemsStage h hit]
    exact rle_afterItems h hc

theorem rle_afterAllOf {f g : JVal → List String → Option (Option JObj)}
    (h : RLe f g) {w2 : JObj} {s : List String} {x : Option JObj}
    (hc : afterAllOf f w2 s = some x) : afterAllOf g w2 s = some x := by
  unfold afterAllOf at hc ⊢
  cases hp : propsStage f w2 s with
  | none => rw [hp] at hc; cases hc
  | some w3 =>
    rw [hp] at hc
    rw [rle_propsStage h hp]
    exact rle_afterProps h hc

theorem rle_resolveAfterRef {f g : JVal → List String → Option (Option JObj)}
    (h : RLe f g) {w1 : JObj} {s : List String} {x : Option JObj}
    (hc : resolveAfterRef f w1 s = some x) : resolveAfterRef g w1 s = some x := by
  unfold resolveAfterRef at hc ⊢
  cases hall : allOfStage f w1 s with
  | none => rw [hall] at hc; cases hc
  | some w2 =>
    rw [hall] at hc
    rw [rle_allOfStage h hall]
    exact rle_afterAllOf h hc

theorem rle_resolveBody {f g : JVal → List String → Option (Option JObj)}
    (h : RLe f g) (defs : JObj) :
    ∀ v s x, resolveBody f defs v s = some x → resolveBody g defs v s = some x := by
  intro v s x hc
  cases v with
  | obj fs =>
    rw [resolveBody_obj f defs fs s] at hc
    rw [resolveBody_obj g defs fs s]
    cases href : refStage f defs fs s with
    | none => rw [href] at hc; cases hc
    | some y =>
      obtain ⟨w1, s1⟩ := y
      rw [href] at hc
      rw [rle_refStage h defs href]
      have hc2 : resolveAfterRef f w1 s1 = some x := hc
      exact rle_resolveAfterRef h hc2
  | null => exact hc
  | bool b => exact hc
  | num n => exact hc
  | str st => exact hc
  | arr xs => exact hc

theorem resolve_mono_step (defs : JObj) (n : Nat) :
    RLe (fun v s => resolveSchemaObjectF n defs v s)
      (fun v s => resolveSchemaObjectF (n + 1) defs v s) := by
  induction n with
  | zero => intro v s x hc; cases hc
  | succ n ih =>
    intro v s x hc
    have hc' : resolveSchemaObjectF (n + 1) defs v s = some x := hc
    rw [resolveF_succ] at hc'
    show resolveSchemaObjectF (n + 1 + 1) defs v s = some x
    rw [resolveF_succ]
    exact rle_resolveBody ih defs v s x hc'

theorem resolve_mono (defs : JObj) {n m : Nat} (h : n ≤ m) :
    ∀ v s x, resolveSchemaObjectF n defs v s = some x →
      resolveSchemaObjectF m defs v s = some x := by
  induction m with
  | zero =>
    intro v s x hc
    have : n = 0 := by omega
    subst this
    exact hc
  | succ m ih =>
    intro v s x hc
    by_cases he : n = m + 1
    · subst he; exact hc
    · have h2 : n ≤ m := by omega
      exact resolve_mono_step defs m v s x (ih h2 v s x hc)

/-! ### Stage composition and preservation lemmas -/

theorem resolveAfterRef_eq (f : JVal → List String → Option (Option JObj))
    {w1 w2 : JObj} {s : List String} (h : allOfStage f w1 s = some w2) :
    resolveAfterRef f w1 s = afterAllOf f w2 s := by
  unfold resolveAfterRef
  rw [h]

theorem afterAllOf_eq (f : JVal → List String → Option (Option JObj))
    {w2 w3 : JObj} {s : List String} (h : propsStage f w2 s = some w3) :
    afterAllOf f w2 s = afterProps f w3 s := by
  unfold afterAllOf
  rw [h]

theorem afterProps_eq (f : JVal → List String → Option (Option JObj))
    {w3 w4 : JObj} {s : List String} (h : itemsStage f w3 s "items" = some w4) :
    afterProps f w3 s = afterItems f w4 s := by
  unfold afterProps
  rw [h]

theorem afterItems_eq (f : JVal → List String → Option (Option JObj))
    {w4 w5 : JObj} {s : List String}
    (h : itemsStage f w4 s "additionalProperties" = some w5) :
    afterItems f w4 s = some (some (typeStage w5)) := by
  unfold afterItems
  rw [h]

theorem resolveAfterRef_elim {f : JVal → List String → Option (Option JObj)}
    {w1 : JObj} {s : List String} {x : Option JObj}
    (h : resolveAfterRef f w1 s = some x) :
    ∃ w2, allOfStage f w1 s = some w2 ∧ afterAllOf f w2 s = some x := by
  unfold resolveAfterRef at h
  cases ha : allOfStage f w1 s with
  | none => rw [ha] at h; cases h
  | some w2 =>
    rw [ha] at h
    exact ⟨w2, rfl, h⟩

theorem afterAllOf_elim {f : JVal → List String → Option (Option JObj)}
    {w2 : JObj} {s : List String} {x : Option JObj}
    (h : afterAllOf f w2 s = some x) :
    ∃ w3, propsStage f w2 s = some w3 ∧ afterProps f w3 s = some x := by
  unfold afterAllOf at h
  cases ha : propsStage f w2 s with
  | none => rw [ha] at h; cases h
  | some w3 =>
    rw [ha] at h
    exact ⟨w3, rfl, h⟩

theorem afterProps_elim {f : JVal → List String → Option (Option JObj)}
    {w3 : JObj} {s : List String} {x : Option JObj}
    (h : afterProps f w3 s = some x) :
    ∃ w4, itemsStage f w3 s "items" = some w4 ∧ afterItems f w4 s = some x := by
  unfold afterProps at h
  cases ha : itemsStage f w3 s "items" with
  | none => rw [ha] at h; cases h
  | some w4 =>
    rw [ha] at h
    exact ⟨w4, rfl, h⟩

theorem afterItems_elim {f : JVal → List String → Option (Option JObj)}
    {w4 : JObj} {s : List String} {x : Option JObj}
    (h : afterItems f w4 s = some x) :
    ∃ w5, itemsStage f w4 s "additionalProperties" = some w5 ∧
      x = some (typeStage w5) := by
  unfold afterItems at h
  cases ha : itemsStage f w4 s "additionalProperties" with
  | none => rw [ha] at h; cases h
  | some w5 =>
    rw [ha] at h
    have h2 : some (some (typeStage w5)) = some x := h
    injection h2 with h3
    exact ⟨w5, rfl, h3.symm⟩

theorem propsStage_jget_other (rec : JVal → List String → Option (Option JObj))
    {w w' : JObj} {s : List String} (h : propsStage rec w s = some w')
    {k : String} (hk : k ≠ "properties") : jget w' k = jget w k := by
  unfold propsStage at h
  split at h
  · split at h
    · cases h
    · injection h with h2
      subst h2
      exact jget_jset_ne _ _ _ _ hk
  · injection h with h2
    subst h2
    rfl

theorem itemsStage_jget_other (rec : JVal → List String → Option (Option JObj))
    {w w' : JObj} {s : List String} {key : String}
    (h : itemsStage rec w s key = some w') {k : String} (hk : k ≠ key) :
    jget w' k = jget w k := by
  unfold itemsStage at h
  split at h
  · split at h
    · cases h
    · injection h with h2
      subst h2
      exact jget_jset_ne _ _ _ _ hk
  · injection h with h2
    subst h2
    rfl

theorem typeStage_jget_other (w : JObj) {k : String} (hk : k ≠ "type") :
    jget (typeStage w) k = jget w k := by
  unfold typeStage
  split
  · rfl
  · split
    · exact jget_jset_ne _ _ _ _ hk
    · split
      · exact jget_jset_ne _ _ _ _ hk
      · rfl

theorem resolveChild_out (rec : JVal → List String → Option (Option JObj))
    {x : JVal} {s : List String} {r : JObj}
    (h : resolveChild rec x s = some r) :
    r = [] ∨ rec x s = some (some r) := by
  unfold resolveChild at h
  cases hr : rec x s with
  | none => rw [hr] at h; cases h
  | some o =>
    rw [hr] at h
    cases o with
    | none =>
      have h2 : some ([] : JObj) = some r := h
      injection h2 with h3
      exact Or.inl h3.symm
    | some fs =>
      have h2 : some fs = some r := h
      injection h2 with h3
      exact Or.inr (by rw [h3])

theorem allOfFold_inv (rec : JVal → List String → Option (Option JObj))
    (I O : JObj → Prop)
    (hstep : ∀ a r, I a → O r → I (mergeSchemaObjects a r)) :
    ∀ (entries : List JVal) (acc : JObj) (s : List String) (acc' : JObj),
      I acc →
      (∀ e ∈ entries, ∀ ro, rec e s = some (some ro) → O ro) →
      allOfFold rec entries acc s = some acc' → I acc' := by
  intro entries
  induction entries with
  | nil =>
    intro acc s acc' hI _ h
    have h0 : allOfFold rec [] acc s = some acc := rfl
    rw [h0] at h
    injection h with h2
    subst h2
    exact hI
  | cons e es ih =>
    intro acc s acc' hI hO h
    cases hr : rec e s with
    | none => rw [allOfFold_cons_none rec hr] at h; cases h
    | some o =>
      cases o with
      | none =>
        rw [allOfFold_cons_undef rec hr] at h
        exact ih acc s acc' hI
          (fun q hq => hO q (List.mem_cons_of_mem _ hq)) h
      | some r =>
        rw [allOfFold_cons_some rec hr] at h
        exact ih _ s acc'
          (hstep acc r hI (hO e (List.mem_cons_self _ _) r hr))
          (fun q hq => hO q (List.mem_cons_of_mem _ hq)) h

theorem propsMap_inv (rec : JVal → List String → Option (Option JObj))
    (O : JObj → Prop) (hnil : O []) :
    ∀ (ps : List (String × JVal)) (s : List String)
      (ps' : List (String × JVal)),
      (∀ p ∈ ps, ∀ ro, rec p.2 s = some (some ro) → O ro) →
      propsMap rec ps s = some ps' →
      ps'.map Prod.fst = ps.map Prod.fst ∧
        ∀ q ∈ ps', ∃ r, q.2 = JVal.obj r ∧ O r := by
  intro ps
  induction ps with
  | nil =>
    intro s ps' _ h
    have h0 : propsMap rec [] s = some [] := rfl
    rw [h0] at h
    injection h with h2
    subst h2
    exact ⟨rfl, fun q hq => absurd hq (List.not_mem_nil q)⟩
  | cons p rest ih =>
    obtain ⟨k, x⟩ := p
    intro s ps' hO h
    cases hr : resolveChild rec x s with
    | none => rw [propsMap_cons_none rec hr] at h; cases h
    | some r =>
      rw [propsMap_cons_some rec hr] at h
      cases hrest : propsMap rec rest s with
      | none => rw [hrest] at h; cases h
      | some rest2 =>
        rw [hrest] at h
        have h2 : some ((k, JVal.obj r) :: rest2) = some ps' := h
        injection h2 with h3
        subst h3
        have hOr : O r := by
          rcases resolveChild_out rec hr with h4 | h4
          · exact h4 ▸ hnil
          · exact hO (k, x) (List.mem_cons_self _ _) r h4
        obtain ⟨hkeys, hvals⟩ :=
          ih s rest2 (fun q hq => hO q (List.mem_cons_of_mem _ hq)) hrest
        refine ⟨?_, ?_⟩
        · rw [List.map_cons, List.map_cons, hkeys]
        · intro q hq
          rcases List.mem_cons.mp hq with hq | hq
          · subst hq
            exact ⟨r, rfl, hOr⟩
          · exact hvals q hq

/-! ### Fuel assembly for the resolver stages -/

theorem propsMap_fuel (defs : JObj) (s : List String) :
    ∀ ps : List (String × JVal),
      (∀ p ∈ ps, ∃ n r, resolveSchemaObjectF n defs p.2 s = some r) →
      ∃ N ps',
        propsMap (fun v s2 => resolveSchemaObjectF N defs v s2) ps s =
          some ps' := by
  intro ps
  induction ps with
  | nil => exact fun _ => ⟨0, [], rfl⟩
  | cons p rest ih =>
    intro h
    obtain ⟨n1, r1, h1⟩ := h p (List.mem_cons_self _ _)
    obtain ⟨N2, ps2, h2⟩ := ih (fun q hq => h q (List.mem_cons_of_mem _ hq))
    refine ⟨max n1 N2, (p.1, JVal.obj (r1.getD [])) :: ps2, ?_⟩
    obtain ⟨k, x⟩ := p
    have h1b : resolveSchemaObjectF (max n1 N2) defs x s = some r1 :=
      resolve_mono defs (Nat.le_max_left _ _) x s r1 h1
    have h2b := rle_propsMap (resolve_mono defs (Nat.le_max_right n1 N2))
      rest s ps2 h2
    rw [propsMap_cons_some _ (resolveChild_some _ h1b), h2b]

theorem allOfFold_fuel (defs : JObj) (s : List String) (I O : JObj → Prop)
    (hstep : ∀ a r, I a → O r → I (mergeSchemaObjects a r)) :
    ∀ (entries : List JVal) (acc : JObj), I acc →
      (∀ e ∈ entries, ∃ n r, resolveSchemaObjectF n defs e s = some r ∧
        ∀ ro, r = some ro → O ro) →
      ∃ N acc',
        allOfFold (fun v s2 => resolveSchemaObjectF N defs v s2)
          entries acc s = some acc' ∧ I acc' := by
  intro entries
  induction entries with
  | nil => exact fun acc hI _ => ⟨0, acc, rfl, hI⟩
  | cons e es ih =>
    intro acc hI h
    obtain ⟨n1, r1, h1, hO1⟩ := h e (List.mem_cons_self _ _)
    cases r1 with
    | none =>
      obtain ⟨N2, acc', h2, hI2⟩ := ih acc hI
        (fun q hq => h q (List.mem_cons_of_mem _ hq))
      refine ⟨max n1 N2, acc', ?_, hI2⟩
      have h1b : resolveSchemaObjectF (max n1 N2) defs e s = some none :=
        resolve_mono defs (Nat.le_max_left _ _) e s none h1
      have h2b := rle_allOfFold (resolve_mono defs (Nat.le_max_right n1 N2))
        es acc s acc' h2
      rw [allOfFold_cons_undef _ h1b]
      exact h2b
    | some ro =>
      obtain ⟨N2, acc', h2, hI2⟩ := ih (mergeSchemaObjects acc ro)
        (hstep acc ro hI (hO1 ro rfl))
        (fun q hq => h q (List.mem_cons_of_mem _ hq))
      refine ⟨max n1 N2, acc', ?_, hI2⟩
      have h1b : resolveSchemaObjectF (max n1 N2) defs e s = some (some ro) :=
        resolve_mono defs (Nat.le_max_left _ _) e s (some ro) h1
      have h2b := rle_allOfFold (resolve_mono defs (Nat.le_max_right n1 N2))
        es (mergeSchemaObjects acc ro) s acc' h2
      rw [allOfFold_cons_some _ h1b]
      exact h2b


/-! ### Output invariants of the resolver -/

theorem res_obj_ref {fs : JObj} (h : Res (JVal.obj fs)) :
    jsTruthyOpt (jget fs "$ref") = false := by
  cases h with
  | nonobj _ hne => exact absurd rfl (hne fs)
  | obj _ href _ _ _ _ => exact href

theorem res_obj_allOf {fs : JObj} (h : Res (JVal.obj fs)) :
    ∀ l, jget fs "allOf" ≠ some (JVal.arr l) := by
  cases h with
  | nonobj _ hne => exact absurd rfl (hne fs)
  | obj _ _ hall _ _ _ => exact hall

theorem res_nil_obj : Res (JVal.obj []) := by
  refine Res.obj [] rfl ?_ ?_ ?_ ?_
  · intro l hl
    exact Option.noConfusion hl
  · intro ps hps
    exact Option.noConfusion hps
  · intro its hits
    exact Option.noConfusion hits
  · intro aps haps
    exact Option.noConfusion haps

theorem outP_nil (P : List String) : OutP P [] :=
  ⟨res_nil_obj, wfv_nil_obj, fun a ha => absurd ha (List.not_mem_nil a)⟩

theorem strValsFields_of_vals {fs : JObj} {P : List String}
    (h : ∀ q ∈ fs, ∀ a ∈ strVals q.2, a ∈ P) :
    ∀ a ∈ strValsFields fs, a ∈ P := by
  induction fs with
  | nil => intro a ha; cases ha
  | cons e rest ih =>
    obtain ⟨k, v⟩ := e
    intro a ha
    simp only [strValsFields, List.mem_append] at ha
    rcases ha with ha | ha
    · exact h (k, v) (List.mem_cons_self _ _) a ha
    · exact ih (fun q hq => h q (List.mem_cons_of_mem _ hq)) a ha

theorem midP_merge_outbase {P : List String} {ro b : JObj} (hout : OutP P ro)
    (hwb : WFv (JVal.obj b)) (hab : ∀ a ∈ strValsFields b, a ∈ P)
    (hbref : jget b "$ref" = none) : MidP P (mergeSchemaObjects ro b) := by
  refine ⟨?_, wf_mergeSchemaObjects hout.2.1 hwb, ?_⟩
  · unfold NoTruthyRef
    rw [jget_mergeSchemaObjects_other _ _ _ (by decide) (by decide) (by decide),
      jget_jmergeObj_eq _ _ (wfv_obj_nodup hwb), hbref]
    exact res_obj_ref hout.1
  · intro a ha
    rcases strValsFields_mergeSchemaObjects _ _ a ha with h | h
    · exact hout.2.2 a h
    · exact hab a h

theorem midP_merge_outP {P : List String} {a r : JObj}
    (hA : MidP P a) (hR : OutP P r) : MidP P (mergeSchemaObjects a r) := by
  refine ⟨?_, wf_mergeSchemaObjects hA.2.1 hR.2.1, ?_⟩
  · unfold NoTruthyRef
    rw [jget_mergeSchemaObjects_other _ _ _ (by decide) (by decide) (by decide),
      jget_jmergeObj_eq _ _ (wfv_obj_nodup hR.2.1)]
    cases hg : jget r "$ref" with
    | none => exact hA.1
    | some v =>
      have h2 := res_obj_ref hR.1
      rw [hg] at h2
      exact h2
  · intro a2 ha
    rcases strValsFields_mergeSchemaObjects _ _ a2 ha with h | h
    · exact hA.2.2 a2 h
    · exact hR.2.2 a2 h

theorem outP_refStage {rec : JVal → List String → Option (Option JObj)}
    {defs : JObj} {P : List String}
    (hwfdefs : WFv (JVal.obj defs))
    (hdefs : ∀ a ∈ strValsFields defs, a ∈ P)
    (hrec : ∀ x s2 w2, WFv x → (∀ a ∈ strVals x, a ∈ P) →
      rec x s2 = some (some w2) → OutP P w2)
    {fs : JObj} {seen : List String} {w1 : JObj} {s1 : List String}
    (hwf : WFv (JVal.obj fs)) (hat : ∀ a ∈ strValsFields fs, a ∈ P)
    (h : refStage rec defs fs seen = some (w1, s1)) : MidP P w1 := by
  have hjdel : WFv (JVal.obj (jdel fs "$ref")) := wf_jdel hwf
  have hatdel : ∀ a ∈ strValsFields (jdel fs "$ref"), a ∈ P :=
    fun a ha => hat a (strValsFields_jdel _ _ a ha)
  have hrefdel : jget (jdel fs "$ref") "$ref" = none := jget_jdel_self fs "$ref"
  cases hg : jget fs "$ref" with
  | none =>
    rw [refStage_none rec defs hg] at h
    injection h with h2
    injection h2 with h3 h4
    subst h3
    refine ⟨?_, hwf, hat⟩
    unfold NoTruthyRef
    rw [hg]
    rfl
  | some rv =>
    by_cases ht : jsTruthy rv = true
    · cases rv with
      | str r =>
        by_cases hseen : seen.contains r = true
        · rw [refStage_seen rec defs hg ht hseen] at h
          injection h with h2
          injection h2 with h3 h4
          subst h3
          refine ⟨?_, hjdel, hatdel⟩
          unfold NoTruthyRef
          rw [hrefdel]
          rfl
        · have hseen2 : seen.contains r = false := by simpa using hseen
          cases hgs : getSchemaFromRef defs r with
          | none =>
            rw [refStage_miss rec defs hg ht hseen2 hgs] at h
            injection h with h2
            injection h2 with h3 h4
            subst h3
            exact midP_merge_outbase (outP_nil P) hjdel hatdel hrefdel
          | some s0 =>
            rw [refStage_hit rec defs hg ht hseen2 hgs] at h
            cases hr0 : rec s0 (r :: seen) with
            | none =>
              rw [hr0] at h
              have h2 : (none : Option (JObj × List String)) =
                  some (w1, s1) := h
              cases h2
            | some refOpt =>
              rw [hr0] at h
              have h2 : some (mergeSchemaObjects (refOpt.getD [])
                  (jdel fs "$ref"), r :: seen) = some (w1, s1) := h
              injection h2 with h3
              injection h3 with h4 h5
              subst h4
              cases refOpt with
              | none =>
                exact midP_merge_outbase (outP_nil P) hjdel hatdel hrefdel
              | some ro =>
                have hwfs0 : WFv s0 := by
                  obtain ⟨name, hn⟩ := getSchemaFromRef_mem hgs
                  exact wfv_jget hwfdefs hn
                have hats0 : ∀ a ∈ strVals s0, a ∈ P := by
                  obtain ⟨name, hn⟩ := getSchemaFromRef_mem hgs
                  exact fun a ha => hdefs a (jget_strVals defs name s0 hn a ha)
                exact midP_merge_outbase
                  (hrec s0 (r :: seen) ro hwfs0 hats0 hr0) hjdel hatdel hrefdel
      | null =>
        rw [refStage_nonstr rec defs hg ht
          (fun r2 hr2 => JVal.noConfusion hr2)] at h
        injection h with h2
        injection h2 with h3 h4
        subst h3
        exact midP_merge_outbase (outP_nil P) hjdel hatdel hrefdel
      | bool b =>
        rw [refStage_nonstr rec defs hg ht
          (fun r2 hr2 => JVal.noConfusion hr2)] at h
        injection h with h2
        injection h2 with h3 h4
        subst h3
        exact midP_merge_outbase (outP_nil P) hjdel hatdel hrefdel
      | num n =>
        rw [refStage_nonstr rec defs hg ht
          (fun r2 hr2 => JVal.noConfusion hr2)] at h
        injection h with h2
        injection h2 with h3 h4
        subst h3
        exact midP_merge_outbase (outP_nil P) hjdel hatdel hrefdel
      | arr xs =>
        rw [refStage_nonstr rec defs hg ht
          (fun r2 hr2 => JVal.noConfusion hr2)] at h
        injection h with h2
        injection h2 with h3 h4
        subst h3
        exact midP_merge_outbase (outP_nil P) hjdel hatdel hrefdel
      | obj o =>
        rw [refStage_nonstr rec defs hg ht
          (fun r2 hr2 => JVal.noConfusion hr2)] at h
        injection h with h2
        injection h2 with h3 h4
        subst h3
        exact midP_merge_outbase (outP_nil P) hjdel hatdel hrefdel
    · have ht2 : jsTruthy rv = false := by simpa using ht
      rw [refStage_falsy rec defs hg ht2] at h
      injection h with h2
      injection h2 with h3 h4
      subst h3
      refine ⟨?_, hwf, hat⟩
      unfold NoTruthyRef
      rw [hg]
      exact ht2

theorem outP_allOfStage {rec : JVal → List String → Option (Option JObj)}
    {P : List String}
    (hrec : ∀ x s2 w2, WFv x → (∀ a ∈ strVals x, a ∈ P) →
      rec x s2 = some (some w2) → OutP P w2)
    {w1 w2 : JObj} {s : List String}
    (hmid : MidP P w1) (h : allOfStage rec w1 s = some w2) :
    MidP P w2 ∧ NoArrAllOf w2 := by
  obtain ⟨href, hwf, hat⟩ := hmid
  by_cases harr : ∃ l, jget w1 "allOf" = some (JVal.arr l)
  · obtain ⟨entries, hg⟩ := harr
    rw [allOfStage_arr rec hg] at h
    cases hf : allOfFold rec entries w1 s with
    | none => rw [hf] at h; cases h
    | some acc =>
      rw [hf] at h
      have h2 : some (jdel acc "allOf") = some w2 := h
      injection h2 with h3
      subst h3
      have hwfent : WFv (JVal.arr entries) := wfv_jget hwf hg
      have hinv : MidP P acc := by
        refine allOfFold_inv rec (MidP P) (OutP P)
          (fun a r hI hO => midP_merge_outP hI hO) entries w1 s acc
          ⟨href, hwf, hat⟩ ?_ hf
        intro e he ro hro
        refine hrec e s ro (wfv_arr_elems hwfent e he) ?_ hro
        intro a ha
        refine hat a (jget_strVals w1 "allOf" _ hg a ?_)
        simpa [strVals] using mem_strValsList entries e he a ha
      refine ⟨⟨?_, wf_jdel hinv.2.1, ?_⟩, ?_⟩
      · unfold NoTruthyRef
        rw [jget_jdel_ne _ _ _ (by decide)]
        exact hinv.1
      · exact fun a ha => hinv.2.2 a (strValsFields_jdel _ _ a ha)
      · intro l hl
        rw [jget_jdel_self] at hl
        cases hl
  · have hne : ∀ l, jget w1 "allOf" ≠ some (JVal.arr l) :=
      fun l hl => harr ⟨l, hl⟩
    rw [allOfStage_not_arr rec hne] at h
    injection h with h3
    subst h3
    exact ⟨⟨href, hwf, hat⟩, hne⟩

theorem outP_propsStage {rec : JVal → List String → Option (Option JObj)}
    {P : List String}
    (hrec : ∀ x s2 w2, WFv x → (∀ a ∈ strVals x, a ∈ P) →
      rec x s2 = some (some w2) → OutP P w2)
    {w2 w3 : JObj} {s : List String}
    (hmid : MidP P w2) (h : propsStage rec w2 s = some w3) :
    MidP P w3 ∧
      (∀ ps, jget w3 "properties" = some (JVal.obj ps) →
        ∀ k v, (k, v) ∈ ps → Res v) := by
  obtain ⟨href, hwf, hat⟩ := hmid
  by_cases hp : ∃ ps, jget w2 "properties" = some (JVal.obj ps)
  · obtain ⟨ps, hg⟩ := hp
    rw [propsStage_obj rec hg] at h
    cases hm : propsMap rec ps s with
    | none => rw [hm] at h; cases h
    | some ps2 =>
      rw [hm] at h
      have h2 : some (jset w2 "properties" (JVal.obj ps2)) = some w3 := h
      injection h2 with h3
      subst h3
      have hwfps : WFv (JVal.obj ps) := wfv_jget hwf hg
      have hOvals : ∀ p ∈ ps, ∀ ro, rec p.2 s = some (some ro) →
          OutP P ro := by
        intro p hp2 ro hro
        refine hrec p.2 s ro (wfv_obj_values hwfps p.1 p.2 hp2) ?_ hro
        intro a ha
        refine hat a (jget_strVals w2 "properties" _ hg a ?_)
        simpa [strVals] using mem_strValsFields ps p.1 p.2 hp2 a ha
      obtain ⟨hkeys, hvals⟩ :=
        propsMap_inv rec (OutP P) (outP_nil P) ps s ps2 hOvals hm
      have hwfps2 : WFv (JVal.obj ps2) := by
        refine WFv.obj _ ?_ ?_
        · rw [hkeys]
          exact wfv_obj_nodup hwfps
        · intro k v hm2
          obtain ⟨r, hqe, hout⟩ := hvals (k, v) hm2
          simp only at hqe
          rw [hqe]
          exact hout.2.1
      have hatps2 : ∀ a ∈ strValsFields ps2, a ∈ P := by
        refine strValsFields_of_vals ?_
        intro q hq a ha
        obtain ⟨r, hqe, hout⟩ := hvals q hq
        rw [hqe] at ha
        refine hout.2.2 a ?_
        simpa [strVals] using ha
      refine ⟨⟨?_, wf_jset hwf hwfps2, ?_⟩, ?_⟩
      · unfold NoTruthyRef
        rw [jget_jset_ne _ _ _ _ (by decide)]
        exact href
      · intro a ha
        rcases List.mem_append.mp (strValsFields_jset _ _ _ a ha) with hh | hh
        · exact hat a hh
        · refine hatps2 a ?_
          simpa [strVals] using hh
      · intro ps3 hps3 k v hm2
        rw [jget_jset_self] at hps3
        injection hps3 with h4
        injection h4 with h5
        subst h5
        obtain ⟨r, hqe, hout⟩ := hvals (k, v) hm2
        simp only at hqe
        rw [hqe]
        exact hout.1
  · have hne : ∀ ps, jget w2 "properties" ≠ some (JVal.obj ps) :=
      fun ps hl => hp ⟨ps, hl⟩
    rw [propsStage_not_obj rec hne] at h
    injection h with h3
    subst h3
    exact ⟨⟨href, hwf, hat⟩, fun ps hps => absurd hps (hne ps)⟩

theorem outP_itemsStage {rec : JVal → List String → Option (Option JObj)}
    {P : List String} {key : String} (hkey : "$ref" ≠ key)
    (hrec : ∀ x s2 w2, WFv x → (∀ a ∈ strVals x, a ∈ P) →
      rec x s2 = some (some w2) → OutP P w2)
    {w w' : JObj} {s : List String}
    (hmid : MidP P w) (h : itemsStage rec w s key = some w') :
    MidP P w' ∧
      (∀ its, jget w' key = some (JVal.obj its) → Res (JVal.obj its)) := by
  obtain ⟨href, hwf, hat⟩ := hmid
  by_cases hp : ∃ its, jget w key = some (JVal.obj its)
  · obtain ⟨its, hg⟩ := hp
    rw [itemsStage_obj rec hg] at h
    cases hc : resolveChild rec (JVal.obj its) s with
    | none => rw [hc] at h; cases h
    | some r =>
      rw [hc] at h
      have h2 : some (jset w key (JVal.obj r)) = some w' := h
      injection h2 with h3
      subst h3
      have hout : OutP P r := by
        rcases resolveChild_out rec hc with h4 | h4
        · rw [h4]
          exact outP_nil P
        · refine hrec (JVal.obj its) s r (wfv_jget hwf hg) ?_ h4
          intro a ha
          exact hat a (jget_strVals w key _ hg a ha)
      refine ⟨⟨?_, wf_jset hwf hout.2.1, ?_⟩, ?_⟩
      · unfold NoTruthyRef
        rw [jget_jset_ne _ _ _ _ hkey]
        exact href
      · intro a ha
        rcases List.mem_append.mp (strValsFields_jset _ _ _ a ha) with hh | hh
        · exact hat a hh
        · refine hout.2.2 a ?_
          simpa [strVals] using hh
      · intro its2 hits2
        rw [jget_jset_self] at hits2
        injection hits2 with h4
        injection h4 with h5
        subst h5
        exact hout.1
  · have hne : ∀ its, jget w key ≠ some (JVal.obj its) :=
      fun its hl => hp ⟨its, hl⟩
    rw [itemsStage_not_obj rec hne] at h
    injection h with h3
    subst h3
    exact ⟨⟨href, hwf, hat⟩, fun its hits => absurd hits (hne its)⟩

theorem outP_typeStage {P : List String} {w : JObj}
    (hobjP : "object" ∈ P) (harrP : "array" ∈ P)
    (hmid : MidP P w) : MidP P (typeStage w) := by
  obtain ⟨href, hwf, hat⟩ := hmid
  unfold typeStage
  split
  · exact ⟨href, hwf, hat⟩
  · split
    · refine ⟨?_, wf_jset hwf (WFv.prim _ (fun xs hh => JVal.noConfusion hh)
        (fun fs hh => JVal.noConfusion hh)), ?_⟩
      · unfold NoTruthyRef
        rw [jget_jset_ne _ _ _ _ (by decide)]
        exact href
      · intro a ha
        rcases List.mem_append.mp (strValsFields_jset _ _ _ a ha) with hh | hh
        · exact hat a hh
        · have h2 : a = "object" := by simpa [strVals] using hh
          rw [h2]
          exact hobjP
    · split
      · refine ⟨?_, wf_jset hwf (WFv.prim _ (fun xs hh => JVal.noConfusion hh)
          (fun fs hh => JVal.noConfusion hh)), ?_⟩
        · unfold NoTruthyRef
          rw [jget_jset_ne _ _ _ _ (by decide)]
          exact href
        · intro a ha
          rcases List.mem_append.mp (strValsFields_jset _ _ _ a ha) with hh | hh
          · exact hat a hh
          · have h2 : a = "array" := by simpa [strVals] using hh
            rw [h2]
            exact harrP
      · exact ⟨href, hwf, hat⟩

theorem outP_resolveAfterRef {rec : JVal → List String → Option (Option JObj)}
    {P : List String} (hobjP : "object" ∈ P) (harrP : "array" ∈ P)
    (hrec : ∀ x s2 w2, WFv x → (∀ a ∈ strVals x, a ∈ P) →
      rec x s2 = some (some w2) → OutP P w2)
    {w1 : JObj} {s : List String} {w : JObj}
    (hmid : MidP P w1) (h : resolveAfterRef rec w1 s = some (some w)) :
    OutP P w := by
  obtain ⟨w2, h2, h2b⟩ := resolveAfterRef_elim h
  obtain ⟨hmid2, hall2⟩ := outP_allOfStage hrec hmid h2
  obtain ⟨w3, h3, h3b⟩ := afterAllOf_elim h2b
  obtain ⟨hmid3, hprops3⟩ := outP_propsStage hrec hmid2 h3
  obtain ⟨w4, h4, h4b⟩ := afterProps_elim h3b
  obtain ⟨hmid4, hitems4⟩ := outP_itemsStage (by decide) hrec hmid3 h4
  obtain ⟨w5, h5, hxe⟩ := afterItems_elim h4b
  obtain ⟨hmid5, haps5⟩ := outP_itemsStage (by decide) hrec hmid4 h5
  injection hxe with hxe2
  subst hxe2
  have hmidt : MidP P (typeStage w5) := outP_typeStage hobjP harrP hmid5
  have e32 : jget w3 "allOf" = jget w2 "allOf" :=
    propsStage_jget_other rec h3 (by decide)
  have e43p : jget w4 "properties" = jget w3 "properties" :=
    itemsStage_jget_other rec h4 (by decide)
  have e43a : jget w4 "allOf" = jget w3 "allOf" :=
    itemsStage_jget_other rec h4 (by decide)
  have e54p : jget w5 "properties" = jget w4 "properties" :=
    itemsStage_jget_other rec h5 (by decide)
  have e54a : jget w5 "allOf" = jget w4 "allOf" :=
    itemsStage_jget_other rec h5 (by decide)
  have e54i : jget w5 "items" = jget w4 "items" :=
    itemsStage_jget_other rec h5 (by decide)
  have etp : jget (typeStage w5) "properties" = jget w5 "properties" :=
    typeStage_jget_other w5 (by decide)
  have eta2 : jget (typeStage w5) "allOf" = jget w5 "allOf" :=
    typeStage_jget_other w5 (by decide)
  have eti : jget (typeStage w5) "items" = jget w5 "items" :=
    typeStage_jget_other w5 (by decide)
  have etap : jget (typeStage w5) "additionalProperties" =
      jget w5 "additionalProperties" := typeStage_jget_other w5 (by decide)
  refine ⟨Res.obj _ hmidt.1 ?_ ?_ ?_ ?_, hmidt.2.1, hmidt.2.2⟩
  · intro l hl
    rw [eta2, e54a, e43a, e32] at hl
    exact hall2 l hl
  · intro ps hps k v hm
    rw [etp, e54p, e43p] at hps
    exact hprops3 ps hps k v hm
  · intro its hits
    rw [eti, e54i] at hits
    exact hitems4 its hits
  · intro aps haps
    rw [etap] at haps
    exact haps5 aps haps

theorem outP_resolve (defs : JObj) (P : List String)
    (hwfdefs : WFv (JVal.obj defs))
    (hdefs : ∀ a ∈ strValsFields defs, a ∈ P)
    (hobjP : "object" ∈ P) (harrP : "array" ∈ P) :
    ∀ n v seen w, WFv v → (∀ a ∈ strVals v, a ∈ P) →
      resolveSchemaObjectF n defs v seen = some (some w) → OutP P w := by
  intro n
  induction n with
  | zero =>
    intro v seen w _ _ h
    cases h
  | succ n ih =>
    intro v seen w hwf hat h
    rw [resolveF_succ] at h
    cases v with
    | obj fs =>
      rw [resolveBody_obj] at h
      cases hr : refStage (fun w2 s2 => resolveSchemaObjectF n defs w2 s2)
          defs fs seen with
      | none => rw [hr] at h; cases h
      | some y =>
        obtain ⟨w1, s1⟩ := y
        rw [hr] at h
        have hrec : ∀ x s2 w2, WFv x → (∀ a ∈ strVals x, a ∈ P) →
            (fun w3 s3 => resolveSchemaObjectF n defs w3 s3) x s2 =
              some (some w2) → OutP P w2 :=
          fun x s2 w2 hx ha hh => ih x s2 w2 hx ha hh
        have hmid : MidP P w1 := outP_refStage hwfdefs hdefs hrec hwf
          (fun a ha => hat a (by simpa [strVals] using ha)) hr
        have h2 : resolveAfterRef (fun w2 s2 => resolveSchemaObjectF n defs w2 s2)
            w1 s1 = some (some w) := h
        exact outP_resolveAfterRef hobjP harrP hrec hmid h2
    | null =>
      have h2 : (some none : Option (Option JObj)) = some (some w) := h
      injection h2 with h3
      cases h3
    | bool b =>
      have h2 : (some none : Option (Option JObj)) = some (some w) := h
      injection h2 with h3
      cases h3
    | num n2 =>
      have h2 : (some none : Option (Option JObj)) = some (some w) := h
      injection h2 with h3
      cases h3
    | str st =>
      have h2 : (some none : Option (Option JObj)) = some (some w) := h
      injection h2 with h3
      cases h3
    | arr xs =>
      have h2 : (some none : Option (Option JObj)) = some (some w) := h
      injection h2 with h3
      cases h3


/-! ### Termination of the resolver on resolved and small inputs -/

theorem contains_false_not_mem {l : List String} {r : String}
    (h : l.contains r = false) : r ∉ l := by
  intro hm
  have h2 : l.contains r = true := List.elem_eq_true_of_mem hm
  rw [h2] at h
  cases h

theorem itemsStage_fuel (defs : JObj) (seen : List String) (w : JObj)
    (key : String)
    (hchild : ∀ its, jget w key = some (JVal.obj its) →
      ∃ n r, resolveSchemaObjectF n defs (JVal.obj its) seen = some r) :
    ∃ N w2,
      itemsStage (fun v s2 => resolveSchemaObjectF N defs v s2) w seen key =
        some w2 ∧ ∀ k, k ≠ key → jget w2 k = jget w k := by
  by_cases hp : ∃ its, jget w key = some (JVal.obj its)
  · obtain ⟨its, hg⟩ := hp
    obtain ⟨n, r, hr⟩ := hchild its hg
    refine ⟨n, jset w key (JVal.obj (r.getD [])), ?_, ?_⟩
    · rw [itemsStage_obj _ hg, resolveChild_some _ hr]
    · intro k hk
      exact jget_jset_ne _ _ _ _ hk
  · have hne : ∀ its, jget w key ≠ some (JVal.obj its) :=
      fun its hl => hp ⟨its, hl⟩
    exact ⟨0, w, itemsStage_not_obj _ hne, fun k hk => rfl⟩

theorem propsStage_fuel (defs : JObj) (seen : List String) (w : JObj)
    (hchild : ∀ ps, jget w "properties" = some (JVal.obj ps) →
      ∀ p ∈ ps, ∃ n r, resolveSchemaObjectF n defs p.2 seen = some r) :
    ∃ N w2,
      propsStage (fun v s2 => resolveSchemaObjectF N defs v s2) w seen =
        some w2 ∧ ∀ k, k ≠ "properties" → jget w2 k = jget w k := by
  by_cases hp : ∃ ps, jget w "properties" = some (JVal.obj ps)
  · obtain ⟨ps, hg⟩ := hp
    obtain ⟨N, ps2, hpm⟩ := propsMap_fuel defs seen ps (hchild ps hg)
    refine ⟨N, jset w "properties" (JVal.obj ps2), ?_,
      fun k hk => jget_jset_ne _ _ _ _ hk⟩
    rw [propsStage_obj _ hg, hpm]
  · have hne : ∀ ps, jget w "properties" ≠ some (JVal.obj ps) :=
      fun ps hl => hp ⟨ps, hl⟩
    exact ⟨0, w, propsStage_not_obj _ hne, fun k hk => rfl⟩

theorem afterAllOf_fuel (defs : JObj) (seen : List String) (w2 : JObj)
    (hchild : ∀ x ∈ childVals w2,
      ∃ n r, resolveSchemaObjectF n defs x seen = some r) :
    ∃ N x,
      afterAllOf (fun v s2 => resolveSchemaObjectF N defs v s2) w2 seen =
        some x := by
  obtain ⟨N3, w3, h3, h3o⟩ := propsStage_fuel defs seen w2
    (fun ps hg p hp => hchild p.2 (childVals_mem_props hg hp))
  have hi : jget w3 "items" = jget w2 "items" := h3o "items" (by decide)
  obtain ⟨N4, w4, h4, h4o⟩ := itemsStage_fuel defs seen w3 "items"
    (fun its hg => hchild (JVal.obj its) (childVals_mem_items (hi ▸ hg)))
  have ha4 : jget w4 "additionalProperties" =
      jget w2 "additionalProperties" := by
    rw [h4o "additionalProperties" (by decide),
      h3o "additionalProperties" (by decide)]
  obtain ⟨N5, w5, h5, h5o⟩ :=
    itemsStage_fuel defs seen w4 "additionalProperties"
      (fun aps hg => hchild (JVal.obj aps) (childVals_mem_addProps (ha4 ▸ hg)))
  refine ⟨max N3 (max N4 N5), some (typeStage w5), ?_⟩
  have m3 := resolve_mono defs (Nat.le_max_left N3 (max N4 N5))
  have m4 := resolve_mono defs
    (le_trans (Nat.le_max_left N4 N5) (Nat.le_max_right N3 (max N4 N5)))
  have m5 := resolve_mono defs
    (le_trans (Nat.le_max_right N4 N5) (Nat.le_max_right N3 (max N4 N5)))
  rw [afterAllOf_eq _ (rle_propsStage m3 h3),
    afterProps_eq _ (rle_itemsStage m4 h4),
    afterItems_eq _ (rle_itemsStage m5 h5)]

theorem res_terminates (defs : JObj) :
    ∀ sz v, jsize v ≤ sz → Res v → WFv v → ∀ seen,
      ∃ n r, resolveSchemaObjectF n defs v seen = some r := by
  intro sz
  induction sz with
  | zero =>
    intro v hsz
    have := jsize_pos v
    omega
  | succ sz ih =>
    intro v hsz hres hwf seen
    cases v with
    | obj fs =>
      have hrefeq : ∀ rec : JVal → List String → Option (Option JObj),
          refStage rec defs fs seen = some (fs, seen) := by
        intro rec
        have href := res_obj_ref hres
        cases hg : jget fs "$ref" with
        | none => exact refStage_none rec defs hg
        | some rv =>
          rw [hg] at href
          exact refStage_falsy rec defs hg href
      have hchild : ∀ x ∈ childVals fs,
          ∃ n r, resolveSchemaObjectF n defs x seen = some r := by
        intro x hx
        have h1 := childVals_jsize hx
        have hxs : jsize x ≤ sz := by omega
        exact ih x hxs (childVals_res hres x hx) (childVals_wfv hwf x hx) seen
      obtain ⟨N, x, hA⟩ := afterAllOf_fuel defs seen fs hchild
      refine ⟨N + 1, x, ?_⟩
      rw [resolveF_succ, resolveBody_obj, hrefeq]
      show resolveAfterRef (fun w s2 => resolveSchemaObjectF N defs w s2)
        fs seen = some x
      rw [resolveAfterRef_eq _ (allOfStage_not_arr _ (res_obj_allOf hres))]
      exact hA
    | null => exact ⟨1, none, rfl⟩
    | bool b => exact ⟨1, none, rfl⟩
    | num n2 => exact ⟨1, none, rfl⟩
    | str st => exact ⟨1, none, rfl⟩
    | arr xs => exact ⟨1, none, rfl⟩


theorem resolveAfterRef_fuel_of_oracle (defs : JObj) (P : List String)
    (hwfdefs : WFv (JVal.obj defs))
    (hdefs : ∀ a ∈ strValsFields defs, a ∈ P)
    (hobjP : "object" ∈ P) (harrP : "array" ∈ P)
    (seen2 : List String) (w1 : JObj)
    (horac : ∀ x, WFv x → (∀ a ∈ strVals x, a ∈ P) →
      ∃ n r, resolveSchemaObjectF n defs x seen2 = some r)
    (hwf1 : WFv (JVal.obj w1)) (hat1 : ∀ a ∈ strValsFields w1, a ∈ P) :
    ∃ N x,
      resolveAfterRef (fun v s2 => resolveSchemaObjectF N defs v s2)
        w1 seen2 = some x := by
  by_cases harr : ∃ l, jget w1 "allOf" = some (JVal.arr l)
  · obtain ⟨l, hgall⟩ := harr
    have hwfl : WFv (JVal.arr l) := wfv_jget hwf1 hgall
    have hentry : ∀ e ∈ l,
        ∃ n r, resolveSchemaObjectF n defs e seen2 = some r ∧
          ∀ ro, r = some ro → OutP P ro := by
      intro e he
      have hwe : WFv e := wfv_arr_elems hwfl e he
      have hae : ∀ a ∈ strVals e, a ∈ P := fun a ha =>
        hat1 a (jget_strVals w1 "allOf" _ hgall a
          (by simpa [strVals] using mem_strValsList l e he a ha))
      obtain ⟨n, r, hnr⟩ := horac e hwe hae
      refine ⟨n, r, hnr, ?_⟩
      intro ro hro
      subst hro
      exact outP_resolve defs P hwfdefs hdefs hobjP harrP n e seen2 ro
        hwe hae hnr
    obtain ⟨Na, acc, hfold, hIacc⟩ := allOfFold_fuel defs seen2
      (fun w => WFv (JVal.obj w) ∧ ∀ a ∈ strValsFields w, a ∈ P) (OutP P)
      (fun a r hI hO => ⟨wf_mergeSchemaObjects hI.1 hO.2.1,
        fun a2 ha2 => (strValsFields_mergeSchemaObjects _ _ a2 ha2).elim
          (hI.2 a2) (hO.2.2 a2)⟩)
      l w1 ⟨hwf1, hat1⟩ hentry
    have hwf2 : WFv (JVal.obj (jdel acc "allOf")) := wf_jdel hIacc.1
    have hat2 : ∀ a ∈ strValsFields (jdel acc "allOf"), a ∈ P :=
      fun a ha => hIacc.2 a (strValsFields_jdel _ _ a ha)
    obtain ⟨N, x, hAfter⟩ := afterAllOf_fuel defs seen2 (jdel acc "allOf")
      (fun x hx => horac x (childVals_wfv hwf2 x hx)
        (fun a ha => hat2 a (childVals_atoms hx a ha)))
    refine ⟨max Na N, x, ?_⟩
    have hstage : allOfStage
        (fun v s2 => resolveSchemaObjectF (max Na N) defs v s2) w1 seen2 =
        some (jdel acc "allOf") := by
      rw [allOfStage_arr _ hgall,
        rle_allOfFold (resolve_mono defs (Nat.le_max_left Na N))
          l w1 seen2 acc hfold]
    rw [resolveAfterRef_eq _ hstage]
    exact rle_afterAllOf (resolve_mono defs (Nat.le_max_right Na N)) hAfter
  · have hne : ∀ l, jget w1 "allOf" ≠ some (JVal.arr l) :=
      fun l hl => harr ⟨l, hl⟩
    obtain ⟨N, x, hAfter⟩ := afterAllOf_fuel defs seen2 w1
      (fun x hx => horac x (childVals_wfv hwf1 x hx)
        (fun a ha => hat1 a (childVals_atoms hx a ha)))
    refine ⟨N, x, ?_⟩
    rw [resolveAfterRef_eq _ (allOfStage_not_arr _ hne)]
    exact hAfter

theorem resolveAfterRef_fuel_fine (defs : JObj) (P : List String)
    (hwfdefs : WFv (JVal.obj defs))
    (hdefs : ∀ a ∈ strValsFields defs, a ∈ P)
    (hobjP : "object" ∈ P) (harrP : "array" ∈ P)
    (seen2 : List String) (w1 : JObj) (szb : Nat)
    (horacS : ∀ x, jsize x ≤ szb → WFv x → (∀ a ∈ strVals x, a ∈ P) →
      ∃ n r, resolveSchemaObjectF n defs x seen2 = some r)
    (hwf1 : WFv (JVal.obj w1)) (hat1 : ∀ a ∈ strValsFields w1, a ∈ P)
    (hallsz : ∀ l, jget w1 "allOf" = some (JVal.arr l) →
      ∀ e ∈ l, jsize e ≤ szb)
    (hchildsz : ∀ x ∈ childVals w1, jsize x ≤ szb) :
    ∃ N x,
      resolveAfterRef (fun v s2 => resolveSchemaObjectF N defs v s2)
        w1 seen2 = some x := by
  have horacG : ∀ x,
      ((jsize x ≤ szb ∧ WFv x ∧ ∀ a ∈ strVals x, a ∈ P) ∨
        (Res x ∧ WFv x)) →
      ∃ n r, resolveSchemaObjectF n defs x seen2 = some r := by
    intro x hx
    rcases hx with ⟨hsz, hwx, hax⟩ | ⟨hr, hwx⟩
    · exact horacS x hsz hwx hax
    · exact res_terminates defs (jsize x) x le_rfl hr hwx seen2
  by_cases harr : ∃ l, jget w1 "allOf" = some (JVal.arr l)
  · obtain ⟨l, hgall⟩ := harr
    have hwfl : WFv (JVal.arr l) := wfv_jget hwf1 hgall
    have hentry : ∀ e ∈ l,
        ∃ n r, resolveSchemaObjectF n defs e seen2 = some r ∧
          ∀ ro, r = some ro → OutP P ro := by
      intro e he
      have hwe : WFv e := wfv_arr_elems hwfl e he
      have hae : ∀ a ∈ strVals e, a ∈ P := fun a ha =>
        hat1 a (jget_strVals w1 "allOf" _ hgall a
          (by simpa [strVals] using mem_strValsList l e he a ha))
      obtain ⟨n, r, hnr⟩ := horacG e (Or.inl ⟨hallsz l hgall e he, hwe, hae⟩)
      refine ⟨n, r, hnr, ?_⟩
      intro ro hro
      subst hro
      exact outP_resolve defs P hwfdefs hdefs hobjP harrP n e seen2 ro
        hwe hae hnr
    obtain ⟨Na, acc, hfold, hIacc⟩ := allOfFold_fuel defs seen2
      (fun w => WFv (JVal.obj w) ∧ (∀ a ∈ strValsFields w, a ∈ P) ∧
        ∀ x ∈ childVals w,
          (jsize x ≤ szb ∧ WFv x ∧ ∀ a ∈ strVals x, a ∈ P) ∨
            (Res x ∧ WFv x))
      (OutP P)
      (fun a r hI hO => by
        refine ⟨wf_mergeSchemaObjects hI.1 hO.2.1, ?_, ?_⟩
        · exact fun a2 ha2 =>
            (strValsFields_mergeSchemaObjects _ _ a2 ha2).elim
              (hI.2.1 a2) (hO.2.2 a2)
        · intro x hx
          rcases childVals_merge (wfv_obj_nodup hO.2.1) x hx with hx2 | hx2
          · exact hI.2.2 x hx2
          · obtain ⟨hr, hw, ha⟩ := childVals_outP hO x hx2
            exact Or.inr ⟨hr, hw⟩)
      l w1
      ⟨hwf1, hat1, fun x hx => Or.inl ⟨hchildsz x hx,
        childVals_wfv hwf1 x hx,
        fun a ha => hat1 a (childVals_atoms hx a ha)⟩⟩
      hentry
    have hcv : childVals (jdel acc "allOf") = childVals acc :=
      childVals_congr (jget_jdel_ne acc "allOf" "properties" (by decide))
        (jget_jdel_ne acc "allOf" "items" (by decide))
        (jget_jdel_ne acc "allOf" "additionalProperties" (by decide))
    obtain ⟨N, x, hAfter⟩ := afterAllOf_fuel defs seen2 (jdel acc "allOf")
      (fun x hx => horacG x (hIacc.2.2 x (hcv ▸ hx)))
    refine ⟨max Na N, x, ?_⟩
    have hstage : allOfStage
        (fun v s2 => resolveSchemaObjectF (max Na N) defs v s2) w1 seen2 =
        some (jdel acc "allOf") := by
      rw [allOfStage_arr _ hgall,
        rle_allOfFold (resolve_mono defs (Nat.le_max_left Na N))
          l w1 seen2 acc hfold]
    rw [resolveAfterRef_eq _ hstage]
    exact rle_afterAllOf (resolve_mono defs (Nat.le_max_right Na N)) hAfter
  · have hne : ∀ l, jget w1 "allOf" ≠ some (JVal.arr l) :=
      fun l hl => harr ⟨l, hl⟩
    obtain ⟨N, x, hAfter⟩ := afterAllOf_fuel defs seen2 w1
      (fun x hx => horacG x (Or.inl ⟨hchildsz x hx,
        childVals_wfv hwf1 x hx,
        fun a ha => hat1 a (childVals_atoms hx a ha)⟩))
    refine ⟨N, x, ?_⟩
    rw [resolveAfterRef_eq _ (allOfStage_not_arr _ hne)]
    exact hAfter


theorem resolve_adequate (defs : JObj) (P : List String)
    (hwfdefs : WFv (JVal.obj defs))
    (hdefs : ∀ a ∈ strValsFields defs, a ∈ P)
    (hobjP : "object" ∈ P) (harrP : "array" ∈ P) :
    ∀ m sz v seen, (P.toFinset \ seen.toFinset).card ≤ m → jsize v ≤ sz →
      WFv v → (∀ a ∈ strVals v, a ∈ P) →
      ∃ n r, resolveSchemaObjectF n defs v seen = some r := by
  intro m
  induction m using Nat.strong_induction_on with
  | _ m ihm =>
  intro sz
  induction sz with
  | zero =>
    intro v seen _ hsz
    have := jsize_pos v
    omega
  | succ sz ihsz =>
    intro v seen hcard hsz hwf hat
    cases v with
    | null => exact ⟨1, none, rfl⟩
    | bool b => exact ⟨1, none, rfl⟩
    | num n2 => exact ⟨1, none, rfl⟩
    | str st => exact ⟨1, none, rfl⟩
    | arr xs => exact ⟨1, none, rfl⟩
    | obj fs =>
      have hatfs : ∀ a ∈ strValsFields fs, a ∈ P :=
        fun a ha => hat a (by simpa [strVals] using ha)
      have caseB : ∀ w1 : JObj,
          (∀ rec : JVal → List String → Option (Option JObj),
            refStage rec defs fs seen = some (w1, seen)) →
          WFv (JVal.obj w1) → (∀ a ∈ strValsFields w1, a ∈ P) →
          (∀ l, jget w1 "allOf" = some (JVal.arr l) →
            jget fs "allOf" = some (JVal.arr l)) →
          (∀ x ∈ childVals w1, x ∈ childVals fs) →
          ∃ n r, resolveSchemaObjectF n defs (JVal.obj fs) seen = some r := by
        intro w1 hrefeq hwf1 hat1 hall1 hcv1
        have hallsz : ∀ l, jget w1 "allOf" = some (JVal.arr l) →
            ∀ e ∈ l, jsize e ≤ sz := by
          intro l hl e he
          have h1 : jsize (JVal.arr l) < jsize (JVal.obj fs) :=
            jget_jsize fs _ _ (hall1 l hl)
          have h2 : jsize e ≤ jsizeList l := mem_jsizeList l e he
          have h3 : jsize (JVal.arr l) = 1 + jsizeList l := by simp [jsize]
          omega
        have hchildsz : ∀ x ∈ childVals w1, jsize x ≤ sz := by
          intro x hx
          have h1 := childVals_jsize (hcv1 x hx)
          omega
        obtain ⟨N, x, hAR⟩ := resolveAfterRef_fuel_fine defs P hwfdefs hdefs
          hobjP harrP seen w1 sz
          (fun x hx hwx hax => ihsz x seen hcard hx hwx hax)
          hwf1 hat1 hallsz hchildsz
        refine ⟨N + 1, x, ?_⟩
        rw [resolveF_succ, resolveBody_obj, hrefeq]
        show resolveAfterRef (fun w s2 => resolveSchemaObjectF N defs w s2)
          w1 seen = some x
        exact hAR
      have hcvdel : childVals (jdel fs "$ref") = childVals fs :=
        childVals_congr (jget_jdel_ne fs "$ref" "properties" (by decide))
          (jget_jdel_ne fs "$ref" "items" (by decide))
          (jget_jdel_ne fs "$ref" "additionalProperties" (by decide))
      have halldel : ∀ l, jget (jdel fs "$ref") "allOf" = some (JVal.arr l) →
          jget fs "allOf" = some (JVal.arr l) := by
        intro l hl
        rwa [jget_jdel_ne fs "$ref" "allOf" (by decide)] at hl
      have hMergeNil : ∀ ro : JObj, OutP P ro →
          WFv (JVal.obj (mergeSchemaObjects ro (jdel fs "$ref"))) ∧
          (∀ a ∈ strValsFields (mergeSchemaObjects ro (jdel fs "$ref")),
            a ∈ P) := by
        intro ro hout
        refine ⟨wf_mergeSchemaObjects hout.2.1 (wf_jdel hwf), ?_⟩
        intro a ha
        rcases strValsFields_mergeSchemaObjects _ _ a ha with h | h
        · exact hout.2.2 a h
        · exact hatfs a (strValsFields_jdel _ _ a h)
      have hallmerge : ∀ l,
          jget (mergeSchemaObjects [] (jdel fs "$ref")) "allOf" =
            some (JVal.arr l) → jget fs "allOf" = some (JVal.arr l) := by
        intro l hl
        have h2 := jget_merge_allOf_cases hl
        rcases jget_jmergeObj_cases [] (jdel fs "$ref") "allOf" _ h2
          with h3 | h3
        · exact Option.noConfusion h3
        · rw [← jget_jdel_ne fs "$ref" "allOf" (by decide)]
          exact mem_jget_of_nodup (wfv_obj_nodup (wf_jdel hwf)) h3
      have hcvmerge : ∀ x ∈ childVals (mergeSchemaObjects []
          (jdel fs "$ref")), x ∈ childVals fs := by
        intro x hx
        rcases childVals_merge (wfv_obj_nodup (wf_jdel hwf)) x hx with h3 | h3
        · have hz : childVals ([] : JObj) = [] := rfl
          rw [hz] at h3
          cases h3
        · exact hcvdel ▸ h3
      cases hg : jget fs "$ref" with
      | none =>
        exact caseB fs (fun rec => refStage_none rec defs hg) hwf hatfs
          (fun l hl => hl) (fun x hx => hx)
      | some rv =>
        by_cases ht : jsTruthy rv = true
        · cases rv with
          | str r =>
            by_cases hseen : seen.contains r = true
            · exact caseB (jdel fs "$ref")
                (fun rec => refStage_seen rec defs hg ht hseen)
                (wf_jdel hwf)
                (fun a ha => hatfs a (strValsFields_jdel _ _ a ha))
                halldel (fun x hx => hcvdel ▸ hx)
            · have hseen2 : seen.contains r = false := by simpa using hseen
              have hrP : r ∈ P := hat r (by
                simpa [strVals] using jget_strVals fs "$ref" _ hg r
                  (by simp [strVals]))
              have hrseen : r ∉ seen := contains_false_not_mem hseen2
              have hmem : r ∈ P.toFinset \ seen.toFinset :=
                Finset.mem_sdiff.mpr ⟨List.mem_toFinset.mpr hrP,
                  fun hc => hrseen (List.mem_toFinset.mp hc)⟩
              have hlt : (P.toFinset \ (r :: seen).toFinset).card <
                  (P.toFinset \ seen.toFinset).card := by
                rw [List.toFinset_cons, Finset.sdiff_insert]
                exact Finset.card_erase_lt_of_mem hmem
              have hm2 : (P.toFinset \ (r :: seen).toFinset).card < m :=
                lt_of_lt_of_le hlt hcard
              have horac : ∀ x, WFv x → (∀ a ∈ strVals x, a ∈ P) →
                  ∃ n rr, resolveSchemaObjectF n defs x (r :: seen) =
                    some rr :=
                fun x hwx hax => ihm _ hm2 (jsize x) x (r :: seen)
                  le_rfl le_rfl hwx hax
              cases hgs : getSchemaFromRef defs r with
              | none =>
                have hw1 := hMergeNil [] (outP_nil P)
                obtain ⟨N, x, hAR⟩ := resolveAfterRef_fuel_of_oracle defs P
                  hwfdefs hdefs hobjP harrP (r :: seen)
                  (mergeSchemaObjects [] (jdel fs "$ref")) horac
                  hw1.1 hw1.2
                refine ⟨N + 1, x, ?_⟩
                rw [resolveF_succ, resolveBody_obj,
                  refStage_miss _ defs hg ht hseen2 hgs]
                show resolveAfterRef
                  (fun w s2 => resolveSchemaObjectF N defs w s2)
                  (mergeSchemaObjects [] (jdel fs "$ref")) (r :: seen) =
                    some x
                exact hAR
              | some s0 =>
                have hwfs0 : WFv s0 := by
                  obtain ⟨name, hn⟩ := getSchemaFromRef_mem hgs
                  exact wfv_jget hwfdefs hn
                have hats0 : ∀ a ∈ strVals s0, a ∈ P := by
                  obtain ⟨name, hn⟩ := getSchemaFromRef_mem hgs
                  exact fun a ha => hdefs a (jget_strVals defs name s0 hn a ha)
                obtain ⟨n0, r0, h0⟩ := ihm _ hm2 (jsize s0) s0 (r :: seen)
                  le_rfl le_rfl hwfs0 hats0
                have hw1 : WFv (JVal.obj (mergeSchemaObjects (r0.getD [])
                      (jdel fs "$ref"))) ∧
                    (∀ a ∈ strValsFields (mergeSchemaObjects (r0.getD [])
                      (jdel fs "$ref")), a ∈ P) := by
                  cases r0 with
                  | none => exact hMergeNil [] (outP_nil P)
                  | some ro =>
                    exact hMergeNil ro (outP_resolve defs P hwfdefs hdefs
                      hobjP harrP n0 s0 (r :: seen) ro hwfs0 hats0 h0)
                obtain ⟨N1, x, hAR⟩ := resolveAfterRef_fuel_of_oracle defs P
                  hwfdefs hdefs hobjP harrP (r :: seen)
                  (mergeSchemaObjects (r0.getD []) (jdel fs "$ref")) horac
                  hw1.1 hw1.2
                refine ⟨max n0 N1 + 1, x, ?_⟩
                rw [resolveF_succ, resolveBody_obj,
                  refStage_hit _ defs hg ht hseen2 hgs]
                have hmono : resolveSchemaObjectF (max n0 N1) defs s0
                    (r :: seen) = some r0 :=
                  resolve_mono defs (Nat.le_max_left n0 N1) s0 (r :: seen)
                    r0 h0
                simp only [hmono]
                show resolveAfterRef
                  (fun w s2 => resolveSchemaObjectF (max n0 N1) defs w s2)
                  (mergeSchemaObjects (r0.getD []) (jdel fs "$ref"))
                  (r :: seen) = some x
                exact rle_resolveAfterRef
                  (resolve_mono defs (Nat.le_max_right n0 N1)) hAR
          | null =>
            exact caseB (mergeSchemaObjects [] (jdel fs "$ref"))
              (fun rec => refStage_nonstr rec defs hg ht
                (fun r2 hr2 => JVal.noConfusion hr2))
              (hMergeNil [] (outP_nil P)).1 (hMergeNil [] (outP_nil P)).2
              hallmerge hcvmerge
          | bool b =>
            exact caseB (mergeSchemaObjects [] (jdel fs "$ref"))
              (fun rec => refStage_nonstr rec defs hg ht
                (fun r2 hr2 => JVal.noConfusion hr2))
              (hMergeNil [] (outP_nil P)).1 (hMergeNil [] (outP_nil P)).2
              hallmerge hcvmerge
          | num n3 =>
            exact caseB (mergeSchemaObjects [] (jdel fs "$ref"))
              (fun rec => refStage_nonstr rec defs hg ht
                (fun r2 hr2 => JVal.noConfusion hr2))
              (hMergeNil [] (outP_nil P)).1 (hMergeNil [] (outP_nil P)).2
              hallmerge hcvmerge
          | arr xs2 =>
            exact caseB (mergeSchemaObjects [] (jdel fs "$ref"))
              (fun rec => refStage_nonstr rec defs hg ht
                (fun r2 hr2 => JVal.noConfusion hr2))
              (hMergeNil [] (outP_nil P)).1 (hMergeNil [] (outP_nil P)).2
              hallmerge hcvmerge
          | obj o2 =>
            exact caseB (mergeSchemaObjects [] (jdel fs "$ref"))
              (fun rec => refStage_nonstr rec defs hg ht
                (fun r2 hr2 => JVal.noConfusion hr2))
              (hMergeNil [] (outP_nil P)).1 (hMergeNil [] (outP_nil P)).2
              hallmerge hcvmerge
        · have ht2 : jsTruthy rv = false := by simpa using ht
          exact caseB fs (fun rec => refStage_falsy rec defs hg ht2) hwf
            hatfs (fun l hl => hl) (fun x hx => hx)

/-! ### Claims about the schema reference resolver -/

/-- C8: resolving the schema `{allOf:[{required:["a"]},{required:["b"]}]}`
yields a result whose `required` is exactly `["a", "b"]` — containing
both, because `required` arrays are unioned rather than overridden — and
the result carries no `allOf` key.  (Fuel 3 is ample for this two-level
schema; C9 shows some fuel always suffices.) -/
theorem claim8_allof_merge_union :
    resolveSchemaObjectF 3 []
        (JVal.obj [("allOf", JVal.arr
          [JVal.obj [("required", JVal.arr [JVal.str "a"])],
            JVal.obj [("required", JVal.arr [JVal.str "b"])]])]) [] =
      some (some [("required", JVal.arr [JVal.str "a", JVal.str "b"])]) ∧
    JVal.str "a" ∈ [JVal.str "a", JVal.str "b"] ∧
    JVal.str "b" ∈ [JVal.str "a", JVal.str "b"] ∧
    jget [("required", JVal.arr [JVal.str "a", JVal.str "b"])] "allOf" = none := by
  refine ⟨rfl, ?_, ?_, rfl⟩ <;> simp

/-- C3, counterexample to the claim as stated for `resolveSchemaObject`:
resolving a schema whose `$ref` names a missing component schema does NOT
yield `undefined` — it yields the defined empty schema `{}` (the local
schema with `$ref` removed, merged with the empty fallback). -/
theorem claim3_counterexample :
    resolveSchemaObjectF 2 []
        (JVal.obj [("$ref", JVal.str "#/components/schemas/Missing")]) [] =
      some (some []) ∧
    resolveSchemaObjectF 2 []
        (JVal.obj [("$ref", JVal.str "#/components/schemas/Missing")]) [] ≠
      some none := by
  refine ⟨rfl, ?_⟩
  have hne : (some (some ([] : JObj)) : Option (Option JObj)) ≠ some none := by
    simp
  exact fun h => hne h

/-- C3 (amended): an unresolvable `$ref` never throws, but the two
resolvers degrade differently.  `resolveParameter` yields `undefined` for
a parameter whose string `$ref` does not decode to a known component
parameter.  `resolveSchemaObject` instead resolves the schema to its
local form without the `$ref` key — the empty schema `{}` when the ref is
the only field — rather than `undefined`. -/
theorem claim3_unresolvable_ref (defs pdefs fs : JObj) (r rp : String) (n : Nat)
    (hr : r ≠ "")
    (hs : ∀ name, decodeSchemaRefName r = some name → mapGetJ defs name = none)
    (hpf : jget fs "$ref" = some (JVal.str rp))
    (hp : ∀ name, decodeParamRefName rp = some name → mapGetJ pdefs name = none) :
    resolveSchemaObjectF (n + 1) defs (JVal.obj [("$ref", JVal.str r)]) [] =
      some (some []) ∧
    resolveParameter pdefs (JVal.obj fs) = none := by
  constructor
  · have hget : jget [("$ref", JVal.str r)] "$ref" = some (JVal.str r) := by
      simp [jget, List.find?]
    have htruthy : jsTruthy (JVal.str r) = true := by
      simp [jsTruthy, hr]
    have hlook : getSchemaFromRef defs r = none := by
      unfold getSchemaFromRef
      cases hd : decodeSchemaRefName r with
      | none => rfl
      | some name => simpa using hs name hd
    simp only [resolveSchemaObjectF, resolveBody, refStage, hget, htruthy,
      if_true, List.contains_nil, Bool.false_eq_true, if_false, hlook]
    rfl
  · unfold resolveParameter
    simp only [hpf]
    cases hd : decodeParamRefName rp with
    | none => simp [hd]
    | some name => simp [hd, hp name hd]

/-- Witness for the amended C3 at concrete inputs: the missing-name side
conditions hold for an empty definition map, the schema resolver returns
the empty schema, and the parameter resolver returns `undefined`. -/
theorem claim3_unresolvable_ref_witness :
    ("#/components/schemas/Missing" : String) ≠ "" ∧
    resolveSchemaObjectF 2 []
        (JVal.obj [("$ref", JVal.str "#/components/schemas/Missing")]) [] =
      some (some []) ∧
    resolveParameter []
        (JVal.obj [("$ref", JVal.str "#/components/parameters/Missing"),
          ("name", JVal.str "id"), ("in", JVal.str "path")]) = none := by
  have hr : ("#/components/schemas/Missing" : String) ≠ "" := by decide
  have h := claim3_unresolvable_ref [] []
    [("$ref", JVal.str "#/components/parameters/Missing"),
      ("name", JVal.str "id"), ("in", JVal.str "path")]
    "#/components/schemas/Missing" "#/components/parameters/Missing" 1
    hr
    (fun name _ => rfl)
    (by rfl)
    (fun name _ => rfl)
  exact ⟨hr, h.1, h.2⟩


/-- C9: the embedded `resolveSchemaObject` terminates on every
well-formed input — including self-referential and mutually cyclic
`$ref` chains — because the per-call-stack `seen` set of ref pointers
can only grow within the finite universe of string atoms reachable from
the schema and the definition map: some amount of fuel always completes
the call.  Moreover a truthy string ref pointer already present in
`seen` is not expanded again: the call continues from the pre-cycle
shallow form of the schema, its `$ref` key removed, with `seen` and the
definition map unconsulted for that pointer. -/
theorem claim9_resolver_terminates (defs : JObj) (v : JVal)
    (seen : List String) (hd : WFv (JVal.obj defs)) (hv : WFv v) :
    (∃ n r, resolveSchemaObjectF n defs v seen = some r) ∧
    (∀ fs r, v = JVal.obj fs → jget fs "$ref" = some (JVal.str r) →
      jsTruthy (JVal.str r) = true → seen.contains r = true →
      ∀ n, resolveSchemaObjectF (n + 1) defs v seen =
        resolveAfterRef (fun w s2 => resolveSchemaObjectF n defs w s2)
          (jdel fs "$ref") seen) := by
  constructor
  · refine resolve_adequate defs
      (strVals v ++ strValsFields defs ++ ["object", "array"]) hd
      ?_ ?_ ?_
      ((strVals v ++ strValsFields defs ++
        ["object", "array"]).toFinset \ seen.toFinset).card
      (jsize v) v seen le_rfl le_rfl hv ?_
    · intro a ha
      simp only [List.mem_append]
      exact Or.inl (Or.inr ha)
    · simp
    · simp
    · intro a ha
      simp only [List.mem_append]
      exact Or.inl (Or.inl ha)
  · intro fs r hv2 hg ht hseen n
    subst hv2
    rw [resolveF_succ, resolveBody_obj, refStage_seen _ defs hg ht hseen]

/-- Witness for C9 at a concrete self-referential schema: the component
schema `A` is a bare `$ref` back to itself, and the resolved call from
the same cyclic ref still completes with some fuel. -/
theorem claim9_resolver_terminates_witness :
    ∃ n r, resolveSchemaObjectF n
      [("A", JVal.obj [("$ref", JVal.str "#/components/schemas/A")])]
      (JVal.obj [("$ref", JVal.str "#/components/schemas/A")]) [] =
        some r := by
  have hstr : WFv (JVal.str "#/components/schemas/A") :=
    WFv.prim _ (fun xs h => JVal.noConfusion h)
      (fun fs2 h => JVal.noConfusion h)
  have hv : WFv (JVal.obj [("$ref", JVal.str "#/components/schemas/A")]) := by
    refine WFv.obj _ (by simp) ?_
    intro k v2 hm
    have h2 := List.mem_singleton.mp hm
    injection h2 with h3 h4
    rw [h4]
    exact hstr
  have hd : WFv (JVal.obj
      [("A", JVal.obj [("$ref", JVal.str "#/components/schemas/A")])]) := by
    refine WFv.obj _ (by simp) ?_
    intro k v2 hm
    have h2 := List.mem_singleton.mp hm
    injection h2 with h3 h4
    rw [h4]
    exact hv
  exact (claim9_resolver_terminates
    [("A", JVal.obj [("$ref", JVal.str "#/components/schemas/A")])]
    (JVal.obj [("$ref", JVal.str "#/components/schemas/A")]) [] hd hv).1


/-! ### Totality and transitivity of the tag comparators -/


theorem chListLe_total : ∀ a b : List Char, chListLe a b = true ∨ chListLe b a = true := by
  intro a
  induction a with
  | nil => intro b; exact Or.inl rfl
  | cons x xs ih =>
    intro b
    cases b with
    | nil => exact Or.inr rfl
    | cons y ys =>
      by_cases h1 : x.toNat < y.toNat
      · exact Or.inl (by simp [chListLe, h1])
      · by_cases h2 : y.toNat < x.toNat
        · exact Or.inr (by simp [chListLe, h2])
        · rcases ih ys with h | h
          · exact Or.inl (by simp [chListLe, h1, h2, h])
          · exact Or.inr (by simp [chListLe, h1, h2, h])

theorem chListLe_trans : ∀ a b c : List Char, chListLe a b = true →
    chListLe b c = true → chListLe a c = true := by
  intro a
  induction a with
  | nil => intro b c _ _; rfl
  | cons x xs ih =>
    intro b c h1 h2
    cases b with
    | nil => exact absurd h1 (by simp [chListLe])
    | cons y ys =>
      cases c with
      | nil => exact absurd h2 (by simp [chListLe])
      | cons z zs =>
        simp only [chListLe] at h1 h2 ⊢
        have hxy2 : x.toNat ≤ y.toNat := by
          by_cases h : x.toNat < y.toNat
          · omega
          · by_cases h2b : y.toNat < x.toNat
            · rw [if_neg h, if_pos h2b] at h1; cases h1
            · omega
        have hyz2 : y.toNat ≤ z.toNat := by
          by_cases h : y.toNat < z.toNat
          · omega
          · by_cases h2b : z.toNat < y.toNat
            · rw [if_neg h, if_pos h2b] at h2; cases h2
            · omega
        by_cases hxz : x.toNat < z.toNat
        · rw [if_pos hxz]
        · have e1 : x.toNat = y.toNat := by omega
          have e2 : y.toNat = z.toNat := by omega
          rw [if_neg (by omega), if_neg (by omega)] at h1
          rw [if_neg (by omega), if_neg (by omega)] at h2
          rw [if_neg hxz, if_neg (by omega)]
          exact ih ys zs h1 h2

theorem tagTieB_total (a b : Tag) : tagTieB a b = true ∨ tagTieB b a = true := by
  rcases chListLe_total a.name.data b.name.data with h | h <;>
    cases ha : a.isFallback <;> cases hb : b.isFallback <;>
      simp [tagTieB, jsStrLe, ha, hb, h]

theorem tagTieB_trans (a b c : Tag) : tagTieB a b = true → tagTieB b c = true →
    tagTieB a c = true := by
  intro h1 h2
  cases ha : a.isFallback <;> cases hb : b.isFallback <;> cases hc : c.isFallback <;>
    simp [tagTieB, jsStrLe, ha, hb, hc] at h1 h2 ⊢ <;>
    exact chListLe_trans _ _ _ h1 h2

theorem tagLeCustom_total (m : List (String × Nat)) (a b : Tag) :
    tagLeCustomB m a b = true ∨ tagLeCustomB m b a = true := by
  unfold tagLeCustomB
  cases getTagOrder m a with
  | none =>
    cases getTagOrder m b with
    | none => exact (chListLe_total a.name.data b.name.data).imp (fun h => h) (fun h => h)
    | some y => exact Or.inr rfl
  | some x =>
    cases getTagOrder m b with
    | none => exact Or.inl rfl
    | some y =>
      by_cases hxy : x = y
      · subst hxy
        refine (chListLe_total a.name.data b.name.data).imp (fun h => ?_) (fun h => ?_)
        · show (if x = x then jsStrLe a.name b.name else decide (x < x)) = true
          rw [if_pos rfl]; exact h
        · show (if x = x then jsStrLe b.name a.name else decide (x < x)) = true
          rw [if_pos rfl]; exact h
      · by_cases hlt : x < y
        · refine Or.inl ?_
          show (if x = y then jsStrLe a.name b.name else decide (x < y)) = true
          rw [if_neg hxy]; exact decide_eq_true hlt
        · refine Or.inr ?_
          show (if y = x then jsStrLe b.name a.name else decide (y < x)) = true
          rw [if_neg (fun h => hxy h.symm)]
          exact decide_eq_true (by omega)

theorem tagLeCustom_trans (m : List (String × Nat)) (a b c : Tag) :
    tagLeCustomB m a b = true → tagLeCustomB m b c = true →
    tagLeCustomB m a c = true := by
  unfold tagLeCustomB
  cases getTagOrder m a with
  | none =>
    cases getTagOrder m b with
    | none =>
      cases getTagOrder m c with
      | none =>
        intro h1 h2
        exact chListLe_trans a.name.data b.name.data c.name.data h1 h2
      | some z =>
        intro _ h2
        exact Bool.noConfusion (h2 : false = true)
    | some y =>
      intro h1 _
      exact Bool.noConfusion (h1 : false = true)
  | some x =>
    cases getTagOrder m c with
    | none =>
      cases getTagOrder m b <;> exact fun _ _ => rfl
    | some z =>
      cases getTagOrder m b with
      | none =>
        intro _ h2
        exact Bool.noConfusion (h2 : false = true)
      | some y =>
        intro h1 h2
        have h1b : (if x = y then jsStrLe a.name b.name else decide (x < y)) = true := h1
        have h2b : (if y = z then jsStrLe b.name c.name else decide (y < z)) = true := h2
        show (if x = z then jsStrLe a.name c.name else decide (x < z)) = true
        by_cases hxy : x = y
        · subst hxy
          rw [if_pos rfl] at h1b
          by_cases hxz : x = z
          · subst hxz
            rw [if_pos rfl] at h2b
            rw [if_pos rfl]
            exact chListLe_trans _ _ _ h1b h2b
          · rw [if_neg hxz] at h2b
            rw [if_neg hxz]
            exact h2b
        · rw [if_neg hxy] at h1b
          have hx : x < y := of_decide_eq_true h1b
          by_cases hyz : y = z
          · subst hyz
            rw [if_neg hxy]
            exact h1b
          · rw [if_neg hyz] at h2b
            have hy : y < z := of_decide_eq_true h2b
            rw [if_neg (by omega : ¬ x = z)]
            exact decide_eq_true (by omega)

theorem tagLeNorm_total (ord : List (String × Nat)) (a b : Tag) :
    tagLeNormB ord a b = true ∨ tagLeNormB ord b a = true := by
  unfold tagLeNormB
  cases assocGet ord a.name with
  | none =>
    cases assocGet ord b.name with
    | none => exact (tagTieB_total a b).imp (fun h => h) (fun h => h)
    | some y => exact Or.inr rfl
  | some x =>
    cases assocGet ord b.name with
    | none => exact Or.inl rfl
    | some y =>
      by_cases hxy : x = y
      · subst hxy
        refine (tagTieB_total a b).imp (fun h => ?_) (fun h => ?_)
        · show (if x = x then tagTieB a b else decide (x < x)) = true
          rw [if_pos rfl]; exact h
        · show (if x = x then tagTieB b a else decide (x < x)) = true
          rw [if_pos rfl]; exact h
      · by_cases hlt : x < y
        · refine Or.inl ?_
          show (if x = y then tagTieB a b else decide (x < y)) = true
          rw [if_neg hxy]; exact decide_eq_true hlt
        · refine Or.inr ?_
          show (if y = x then tagTieB b a else decide (y < x)) = true
          rw [if_neg (fun h => hxy h.symm)]
          exact decide_eq_true (by omega)

theorem tagLeNorm_trans (ord : List (String × Nat)) (a b c : Tag) :
    tagLeNormB ord a b = true → tagLeNormB ord b c = true →
    tagLeNormB ord a c = true := by
  unfold tagLeNormB
  cases assocGet ord a.name with
  | none =>
    cases assocGet ord b.name with
    | none =>
      cases assocGet ord c.name with
      | none =>
        intro h1 h2
        exact tagTieB_trans a b c h1 h2
      | some z =>
        intro _ h2
        exact Bool.noConfusion (h2 : false = true)
    | some y =>
      intro h1 _
      exact Bool.noConfusion (h1 : false = true)
  | some x =>
    cases assocGet ord c.name with
    | none =>
      cases assocGet ord b.name <;> exact fun _ _ => rfl
    | some z =>
      cases assocGet ord b.name with
      | none =>
        intro _ h2
        exact Bool.noConfusion (h2 : false = true)
      | some y =>
        intro h1 h2
        have h1b : (if x = y then tagTieB a b else decide (x < y)) = true := h1
        have h2b : (if y = z then tagTieB b c else decide (y < z)) = true := h2
        show (if x = z then tagTieB a c else decide (x < z)) = true
        by_cases hxy : x = y
        · subst hxy
          rw [if_pos rfl] at h1b
          by_cases hxz : x = z
          · subst hxz
            rw [if_pos rfl] at h2b
            rw [if_pos rfl]
            exact tagTieB_trans _ _ _ h1b h2b
          · rw [if_neg hxz] at h2b
            rw [if_neg hxz]
            exact h2b
        · rw [if_neg hxy] at h1b
          have hx : x < y := of_decide_eq_true h1b
          by_cases hyz : y = z
          · subst hyz
            rw [if_neg hxy]
            exact h1b
          · rw [if_neg hyz] at h2b
            have hy : y < z := of_decide_eq_true h2b
            rw [if_neg (by omega : ¬ x = z)]
            exact decide_eq_true (by omega)

theorem sorted_normSortTags (ord : List (String × Nat)) (tags : List Tag) :
    List.Sorted (tagLeNorm ord) (normSortTags ord tags) := by
  haveI : IsTotal Tag (tagLeNorm ord) := ⟨fun a b => tagLeNorm_total ord a b⟩
  haveI : IsTrans Tag (tagLeNorm ord) := ⟨fun a b c => tagLeNorm_trans ord a b c⟩
  exact List.sorted_insertionSort _ _

theorem sorted_customTags (m : List (String × Nat)) (l : List Tag) :
    List.Sorted (tagLeCustom m)
      (List.map recomputeTagStats (List.insertionSort (tagLeCustom m) l)) := by
  haveI : IsTotal Tag (tagLeCustom m) := ⟨fun a b => tagLeCustom_total m a b⟩
  haveI : IsTrans Tag (tagLeCustom m) := ⟨fun a b c => tagLeCustom_trans m a b c⟩
  have key : ∀ a b : Tag, tagLeCustom m a b →
      tagLeCustom m (recomputeTagStats a) (recomputeTagStats b) := fun a b h => h
  exact List.Pairwise.map _ key (List.sorted_insertionSort (tagLeCustom m) l)


/-! ### Association-list lookup lemmas -/


theorem assocGet_cons {α : Type} (e : String × α) (rest : List (String × α))
    (k : String) :
    assocGet (e :: rest) k = if e.1 == k then some e.2 else assocGet rest k := by
  by_cases h : (e.1 == k) = true
  · rw [if_pos h]
    simp [assocGet, List.find?_cons, h]
  · rw [if_neg h]
    simp [assocGet, List.find?_cons, h]

theorem assocGet_setAssoc_self {α : Type} (m : List (String × α)) (k : String)
    (v : α) : assocGet (setAssoc m k v) k = some v := by
  induction m with
  | nil => simp [setAssoc, assocGet]
  | cons e rest ih =>
    unfold setAssoc
    by_cases h : (e.1 == k) = true
    · rw [if_pos h, assocGet_cons]
      simp
    · rw [if_neg h, assocGet_cons, if_neg h]
      exact ih

theorem assocGet_setAssoc_ne {α : Type} (m : List (String × α)) (k k2 : String)
    (v : α) (hne : k2 ≠ k) : assocGet (setAssoc m k v) k2 = assocGet m k2 := by
  have hkk2 : (k == k2) = false := by
    simp only [beq_eq_false_iff_ne]
    exact fun hh => hne hh.symm
  induction m with
  | nil =>
    rw [show setAssoc ([] : List (String × α)) k v = [(k, v)] from rfl,
      assocGet_cons]
    simp [hkk2]
  | cons e rest ih =>
    unfold setAssoc
    by_cases h : (e.1 == k) = true
    · have he : e.1 = k := by simpa using h
      have he2 : (e.1 == k2) = false := by rw [he]; exact hkk2
      rw [if_pos h, assocGet_cons, assocGet_cons]
      simp [hkk2, he2]
    · rw [if_neg h, assocGet_cons, assocGet_cons]
      by_cases h2 : (e.1 == k2) = true
      · rw [if_pos h2, if_pos h2]
      · rw [if_neg h2, if_neg h2]
        exact ih

theorem assocGet_append_single_ne {α : Type} (m : List (String × α))
    (k0 k : String) (v : α) (h : k ≠ k0) :
    assocGet (m ++ [(k0, v)]) k = assocGet m k := by
  have hk : (k0 == k) = false := by
    simp only [beq_eq_false_iff_ne]
    exact fun hh => h hh.symm
  induction m with
  | nil =>
    rw [List.nil_append, assocGet_cons]
    simp [hk]
  | cons e rest ih =>
    rw [List.cons_append, assocGet_cons, assocGet_cons]
    by_cases h2 : (e.1 == k) = true
    · rw [if_pos h2, if_pos h2]
    · rw [if_neg h2, if_neg h2]
      exact ih

theorem assocGet_append_none {α : Type} (m l : List (String × α)) (k : String)
    (h : assocGet m k = none) : assocGet (m ++ l) k = assocGet l k := by
  induction m with
  | nil => rfl
  | cons e rest ih =>
    rw [assocGet_cons] at h
    by_cases he : (e.1 == k) = true
    · rw [if_pos he] at h
      cases h
    · rw [if_neg he] at h
      rw [List.cons_append, assocGet_cons, if_neg he]
      exact ih h


/-! ### Capacity and order of the runtime chunk builder -/


theorem setAssoc_length {α : Type} (m : List (String × α)) (k : String)
    (v : α) : (setAssoc m k v).length ≤ m.length + 1 := by
  induction m with
  | nil => simp [setAssoc]
  | cons e rest ih =>
    unfold setAssoc
    by_cases h : (e.1 == k) = true
    · rw [if_pos h]
      simp
    · rw [if_neg h]
      simp only [List.length_cons]
      omega

theorem foldl_setAssoc_length :
    ∀ (slice : List StrippedOp) (m : List (String × StrippedOp)),
      (slice.foldl (fun m2 e => setAssoc m2 e.slug e) m).length ≤
        m.length + slice.length := by
  intro slice
  induction slice with
  | nil => intro m; simp
  | cons e rest ih =>
    intro m
    rw [List.foldl_cons]
    have h1 := ih (setAssoc m e.slug e)
    have h2 := setAssoc_length m e.slug e
    simp only [List.length_cons]
    omega

theorem buildOpsMap_length (slice : List StrippedOp) :
    (buildOpsMap slice).length ≤ slice.length := by
  have h := foldl_setAssoc_length slice []
  simpa [buildOpsMap] using h

theorem chunkSlices_le {α : Type} :
    ∀ (fuel : Nat) (l : List α) (s : List α), s ∈ chunkSlices fuel l →
      s.length ≤ OPERATIONS_PER_CHUNK := by
  intro fuel
  induction fuel with
  | zero =>
    intro l s hs
    cases l with
    | nil => cases hs
    | cons a as => cases hs
  | succ fuel ih =>
    intro l s hs
    cases l with
    | nil => cases hs
    | cons a as =>
      rw [show chunkSlices (fuel + 1) (a :: as) =
          (a :: as).take OPERATIONS_PER_CHUNK ::
            chunkSlices fuel ((a :: as).drop OPERATIONS_PER_CHUNK) from rfl] at hs
      rcases List.mem_cons.mp hs with h | h
      · rw [h, List.length_take]
        exact min_le_left _ _
      · exact ih _ s h

theorem chunkSlices_flatten {α : Type} :
    ∀ (fuel : Nat) (l : List α), l.length ≤ fuel →
      (chunkSlices fuel l).flatten = l := by
  intro fuel
  induction fuel with
  | zero =>
    intro l h
    rw [List.eq_nil_of_length_eq_zero (Nat.le_zero.mp h)]
    rfl
  | succ fuel ih =>
    intro l h
    cases l with
    | nil => rfl
    | cons a as =>
      rw [show chunkSlices (fuel + 1) (a :: as) =
          (a :: as).take OPERATIONS_PER_CHUNK ::
            chunkSlices fuel ((a :: as).drop OPERATIONS_PER_CHUNK) from rfl,
        List.flatten_cons,
        ih ((a :: as).drop OPERATIONS_PER_CHUNK) (by
          have h50 : 1 ≤ OPERATIONS_PER_CHUNK := by decide
          simp only [List.length_drop, List.length_cons] at *
          omega),
        List.take_append_drop]

theorem addTagChunks_fst (slug : String) :
    ∀ (slices : List (List StrippedOp)) (i : Nat) (chunks : List Chunk)
      (lookup : List (String × String)),
      (addTagChunks slug i slices (chunks, lookup)).1 =
        chunks ++ (List.enumFrom i slices).map (fun p =>
          { id := createChunkId slug p.1, tagSlug := slug,
            fileName := buildChunkFileName (createChunkId slug p.1),
            operations := buildOpsMap p.2 }) := by
  intro slices
  induction slices with
  | nil =>
    intro i chunks lookup
    simp [show addTagChunks slug i [] (chunks, lookup) = (chunks, lookup)
      from rfl, List.enumFrom]
  | cons slice rest ih =>
    intro i chunks lookup
    rw [show addTagChunks slug i (slice :: rest) (chunks, lookup) =
        addTagChunks slug (i + 1) rest
          (chunks ++
            [{ id := createChunkId slug i, tagSlug := slug,
               fileName := buildChunkFileName (createChunkId slug i),
               operations := buildOpsMap slice }],
           addLookup (createChunkId slug i) slice lookup) from rfl]
    rw [ih]
    rw [show List.enumFrom i (slice :: rest) =
        (i, slice) :: List.enumFrom (i + 1) rest from rfl]
    rw [List.map_cons]
    simp [List.append_assoc]

theorem addTagChunks_capacity (slug : String) :
    ∀ (slices : List (List StrippedOp)) (i : Nat) (chunks : List Chunk)
      (lookup : List (String × String)),
      (∀ c ∈ chunks, c.operations.length ≤ OPERATIONS_PER_CHUNK) →
      (∀ slice ∈ slices, slice.length ≤ OPERATIONS_PER_CHUNK) →
      ∀ c ∈ (addTagChunks slug i slices (chunks, lookup)).1,
        c.operations.length ≤ OPERATIONS_PER_CHUNK := by
  intro slices
  induction slices with
  | nil =>
    intro i chunks lookup hch _
    exact hch
  | cons slice rest ih =>
    intro i chunks lookup hch hsl
    rw [show addTagChunks slug i (slice :: rest) (chunks, lookup) =
        addTagChunks slug (i + 1) rest
          (chunks ++
            [{ id := createChunkId slug i, tagSlug := slug,
               fileName := buildChunkFileName (createChunkId slug i),
               operations := buildOpsMap slice }],
           addLookup (createChunkId slug i) slice lookup) from rfl]
    apply ih
    · intro c hc
      rcases List.mem_append.mp hc with h | h
      · exact hch c h
      · rw [List.mem_singleton.mp h]
        exact le_trans (buildOpsMap_length slice)
          (hsl slice (List.mem_cons_self _ _))
    · intro s2 hs2
      exact hsl s2 (List.mem_cons_of_mem _ hs2)

theorem artifactsFold_capacity :
    ∀ (tags : List Tag)
      (st : List TagDigest × List DigestIndexEntry × List Chunk ×
        List (String × String)),
      (∀ c ∈ st.2.2.1, c.operations.length ≤ OPERATIONS_PER_CHUNK) →
      ∀ c ∈ (tags.foldl (fun st2 tag => artifactsTagStep tag st2) st).2.2.1,
        c.operations.length ≤ OPERATIONS_PER_CHUNK := by
  intro tags
  induction tags with
  | nil => intro st h; exact h
  | cons tag rest ih =>
    intro st h
    rw [List.foldl_cons]
    apply ih
    rw [show (artifactsTagStep tag st).2.2.1 =
        (addTagChunks tag.slug 0
          (chunkCandidateSlices
            ((tag.operations.map stripOperationForChunk).filter
              (fun s2 => s2.slug != "")))
          (st.2.2.1, st.2.2.2)).1 from rfl]
    apply addTagChunks_capacity
    · exact h
    · intro slice hs
      exact chunkSlices_le _ _ slice hs


/-! ### The operation-to-chunk lookup of the runtime artifact builder -/


theorem addLookup_mono (cid : String) :
    ∀ (slice : List StrippedOp) (lookup : List (String × String))
      (s v : String),
      assocGet lookup s = some v →
      assocGet (addLookup cid slice lookup) s = some v := by
  intro slice
  induction slice with
  | nil => intro lookup s v h; exact h
  | cons e rest ih =>
    intro lookup s v h
    rw [show addLookup cid (e :: rest) lookup =
        addLookup cid rest (match assocGet lookup e.slug with
          | some _ => lookup
          | none => lookup ++ [(e.slug, cid)]) from rfl]
    cases hg : assocGet lookup e.slug with
    | some w => exact ih lookup s v h
    | none =>
      apply ih
      have hne : s ≠ e.slug := by
        intro heq
        rw [heq] at h
        rw [h] at hg
        cases hg
      rw [assocGet_append_single_ne _ _ _ _ hne]
      exact h

theorem addLookup_present (cid : String) :
    ∀ (slice : List StrippedOp) (lookup : List (String × String))
      (e : StrippedOp), e ∈ slice →
      ∃ v, assocGet (addLookup cid slice lookup) e.slug = some v := by
  intro slice
  induction slice with
  | nil => intro lookup e he; cases he
  | cons e2 rest ih =>
    intro lookup e he
    rw [show addLookup cid (e2 :: rest) lookup =
        addLookup cid rest (match assocGet lookup e2.slug with
          | some _ => lookup
          | none => lookup ++ [(e2.slug, cid)]) from rfl]
    rcases List.mem_cons.mp he with heq | hmem
    · subst heq
      cases hg : assocGet lookup e.slug with
      | some w => exact ⟨w, addLookup_mono cid rest lookup e.slug w hg⟩
      | none =>
        have hkey : assocGet (lookup ++ [(e.slug, cid)]) e.slug = some cid := by
          rw [assocGet_append_none _ _ _ hg, assocGet_cons]
          simp
        exact ⟨cid, addLookup_mono cid rest _ _ _ hkey⟩
    · exact ih _ e hmem

theorem addLookup_origin (cid : String) :
    ∀ (slice : List StrippedOp) (lookup : List (String × String))
      (s cid2 : String),
      assocGet (addLookup cid slice lookup) s = some cid2 →
      assocGet lookup s = some cid2 ∨
        (cid2 = cid ∧ ∃ e ∈ slice, e.slug = s) := by
  intro slice
  induction slice with
  | nil => intro lookup s cid2 h; exact Or.inl h
  | cons e rest ih =>
    intro lookup s cid2 h
    rw [show addLookup cid (e :: rest) lookup =
        addLookup cid rest (match assocGet lookup e.slug with
          | some _ => lookup
          | none => lookup ++ [(e.slug, cid)]) from rfl] at h
    rcases ih _ s cid2 h with h2 | ⟨hc, e2, he2, hs⟩
    · revert h2
      cases hg : assocGet lookup e.slug with
      | some w => exact fun h2 => Or.inl h2
      | none =>
        intro h2
        by_cases hse : s = e.slug
        · rw [hse, assocGet_append_none _ _ _ hg, assocGet_cons] at h2
          simp at h2
          exact Or.inr ⟨h2.symm, e, List.mem_cons_self _ _, hse.symm⟩
        · rw [assocGet_append_single_ne _ _ _ _ hse] at h2
          exact Or.inl h2
    · exact Or.inr ⟨hc, e2, List.mem_cons_of_mem _ he2, hs⟩

theorem foldl_setAssoc_key :
    ∀ (slice : List StrippedOp) (m : List (String × StrippedOp)) (s : String),
      ((∃ e ∈ slice, e.slug = s) ∨
        (∃ w, assocGet m s = some w ∧ w.slug = s)) →
      ∃ e2, assocGet (slice.foldl (fun m2 e => setAssoc m2 e.slug e) m) s =
        some e2 ∧ e2.slug = s := by
  intro slice
  induction slice with
  | nil =>
    intro m s h
    rcases h with ⟨e, he, _⟩ | ⟨w, hw, hws⟩
    · cases he
    · exact ⟨w, hw, hws⟩
  | cons e rest ih =>
    intro m s h
    rw [List.foldl_cons]
    by_cases hse : e.slug = s
    · apply ih
      right
      exact ⟨e, by rw [← hse]; exact assocGet_setAssoc_self _ _ _, hse⟩
    · rcases h with ⟨e3, he3, hs3⟩ | ⟨w, hw, hws⟩
      · rcases List.mem_cons.mp he3 with heq | hmem
        · rw [heq] at hs3
          exact absurd hs3 hse
        · exact ih _ _ (Or.inl ⟨e3, hmem, hs3⟩)
      · apply ih
        right
        refine ⟨w, ?_, hws⟩
        rw [assocGet_setAssoc_ne _ _ _ _ (fun hh => hse hh.symm)]
        exact hw

theorem addTagChunks_mono (slug : String) :
    ∀ (slices : List (List StrippedOp)) (i : Nat) (chunks : List Chunk)
      (lookup : List (String × String)) (s v : String),
      assocGet lookup s = some v →
      assocGet (addTagChunks slug i slices (chunks, lookup)).2 s = some v := by
  intro slices
  induction slices with
  | nil => intro i chunks lookup s v h; exact h
  | cons slice rest ih =>
    intro i chunks lookup s v h
    rw [show addTagChunks slug i (slice :: rest) (chunks, lookup) =
        addTagChunks slug (i + 1) rest
          (chunks ++
            [{ id := createChunkId slug i, tagSlug := slug,
               fileName := buildChunkFileName (createChunkId slug i),
               operations := buildOpsMap slice }],
           addLookup (createChunkId slug i) slice lookup) from rfl]
    exact ih _ _ _ s v (addLookup_mono _ slice lookup s v h)

theorem addTagChunks_inv (slug : String) :
    ∀ (slices : List (List StrippedOp)) (i : Nat) (chunks : List Chunk)
      (lookup : List (String × String)),
      (∀ s cid, assocGet lookup s = some cid →
        ∃ c, c ∈ chunks ∧ c.id = cid ∧
          ∃ e, assocGet c.operations s = some e ∧ e.slug = s) →
      (∀ s cid,
        assocGet (addTagChunks slug i slices (chunks, lookup)).2 s =
          some cid →
        ∃ c, c ∈ (addTagChunks slug i slices (chunks, lookup)).1 ∧
          c.id = cid ∧
          ∃ e, assocGet c.operations s = some e ∧ e.slug = s) := by
  intro slices
  induction slices with
  | nil => intro i chunks lookup hinv; exact hinv
  | cons slice rest ih =>
    intro i chunks lookup hinv
    rw [show addTagChunks slug i (slice :: rest) (chunks, lookup) =
        addTagChunks slug (i + 1) rest
          (chunks ++
            [{ id := createChunkId slug i, tagSlug := slug,
               fileName := buildChunkFileName (createChunkId slug i),
               operations := buildOpsMap slice }],
           addLookup (createChunkId slug i) slice lookup) from rfl]
    apply ih
    intro s cid hg
    rcases addLookup_origin _ _ _ _ _ hg with h2 | ⟨hc, e2, he2, hs⟩
    · rcases hinv s cid h2 with ⟨c, hcm, hcid, e, hce, hes⟩
      exact ⟨c, List.mem_append_left _ hcm, hcid, e, hce, hes⟩
    · refine ⟨{ id := createChunkId slug i, tagSlug := slug,
                fileName := buildChunkFileName (createChunkId slug i),
                operations := buildOpsMap slice },
        List.mem_append_right _ (List.mem_singleton_self _), hc.symm, ?_⟩
      exact foldl_setAssoc_key slice [] s (Or.inl ⟨e2, he2, hs⟩)

theorem addTagChunks_present (slug : String) :
    ∀ (slices : List (List StrippedOp)) (i : Nat) (chunks : List Chunk)
      (lookup : List (String × String)) (e : StrippedOp)
      (slice : List StrippedOp),
      slice ∈ slices → e ∈ slice →
      ∃ v, assocGet (addTagChunks slug i slices (chunks, lookup)).2 e.slug =
        some v := by
  intro slices
  induction slices with
  | nil => intro i chunks lookup e slice hsl _; cases hsl
  | cons slice2 rest ih =>
    intro i chunks lookup e slice hsl he
    rw [show addTagChunks slug i (slice2 :: rest) (chunks, lookup) =
        addTagChunks slug (i + 1) rest
          (chunks ++
            [{ id := createChunkId slug i, tagSlug := slug,
               fileName := buildChunkFileName (createChunkId slug i),
               operations := buildOpsMap slice2 }],
           addLookup (createChunkId slug i) slice2 lookup) from rfl]
    rcases List.mem_cons.mp hsl with heq | hmem
    · subst heq
      obtain ⟨v, hv⟩ := addLookup_present (createChunkId slug i) slice lookup e he
      exact ⟨v, addTagChunks_mono slug rest _ _ _ _ v hv⟩
    · exact ih _ _ _ e slice hmem he

theorem artifactsFold_mono :
    ∀ (tags : List Tag)
      (st : List TagDigest × List DigestIndexEntry × List Chunk ×
        List (String × String)) (s v : String),
      assocGet st.2.2.2 s = some v →
      assocGet (tags.foldl (fun st2 tag => artifactsTagStep tag st2)
        st).2.2.2 s = some v := by
  intro tags
  induction tags with
  | nil => intro st s v h; exact h
  | cons tag rest ih =>
    intro st s v h
    rw [List.foldl_cons]
    apply ih
    rw [show (artifactsTagStep tag st).2.2.2 =
        (addTagChunks tag.slug 0
          (chunkCandidateSlices
            ((tag.operations.map stripOperationForChunk).filter
              (fun s2 => s2.slug != "")))
          (st.2.2.1, st.2.2.2)).2 from rfl]
    exact addTagChunks_mono _ _ _ _ _ s v h

theorem artifactsFold_inv :
    ∀ (tags : List Tag)
      (st : List TagDigest × List DigestIndexEntry × List Chunk ×
        List (String × String)),
      (∀ s cid, assocGet st.2.2.2 s = some cid →
        ∃ c, c ∈ st.2.2.1 ∧ c.id = cid ∧
          ∃ e, assocGet c.operations s = some e ∧ e.slug = s) →
      (∀ s cid,
        assocGet (tags.foldl (fun st2 tag => artifactsTagStep tag st2)
          st).2.2.2 s = some cid →
        ∃ c, c ∈ (tags.foldl (fun st2 tag => artifactsTagStep tag st2)
            st).2.2.1 ∧ c.id = cid ∧
          ∃ e, assocGet c.operations s = some e ∧ e.slug = s) := by
  intro tags
  induction tags with
  | nil => intro st hinv; exact hinv
  | cons tag rest ih =>
    intro st hinv
    rw [List.foldl_cons]
    apply ih
    intro s cid hg
    have hg2 : assocGet (addTagChunks tag.slug 0
        (chunkCandidateSlices
          ((tag.operations.map stripOperationForChunk).filter
            (fun s2 => s2.slug != "")))
        (st.2.2.1, st.2.2.2)).2 s = some cid := hg
    rcases addTagChunks_inv tag.slug _ 0 st.2.2.1 st.2.2.2 hinv s cid hg2 with
      ⟨c, hcm, hcid, e, hce, hes⟩
    exact ⟨c, hcm, hcid, e, hce, hes⟩

theorem artifactsFold_present :
    ∀ (tags : List Tag)
      (st : List TagDigest × List DigestIndexEntry × List Chunk ×
        List (String × String)) (tag : Tag) (op : Operation),
      tag ∈ tags → op ∈ tag.operations → op.slug ≠ "" →
      ∃ v, assocGet (tags.foldl (fun st2 tag2 => artifactsTagStep tag2 st2)
        st).2.2.2 op.slug = some v := by
  intro tags
  induction tags with
  | nil => intro st tag op htag _ _; cases htag
  | cons tag2 rest ih =>
    intro st tag op htag hop hslug
    rw [List.foldl_cons]
    rcases List.mem_cons.mp htag with heq | hmem
    · subst heq
      have hcand : stripOperationForChunk op ∈
          (tag.operations.map stripOperationForChunk).filter
            (fun s2 => s2.slug != "") := by
        apply List.mem_filter.mpr
        refine ⟨List.mem_map_of_mem _ hop, ?_⟩
        simp [stripOperationForChunk]
        exact hslug
      have hflat := chunkSlices_flatten
        ((tag.operations.map stripOperationForChunk).filter
          (fun s2 => s2.slug != "")).length
        ((tag.operations.map stripOperationForChunk).filter
          (fun s2 => s2.slug != "")) (Nat.le_refl _)
      rw [← hflat] at hcand
      rcases List.mem_flatten.mp hcand with ⟨slice, hsl, hmem2⟩
      obtain ⟨v, hv⟩ := addTagChunks_present tag.slug _ 0 st.2.2.1 st.2.2.2
        (stripOperationForChunk op) slice hsl hmem2
      refine ⟨v, artifactsFold_mono rest _ op.slug v ?_⟩
      exact hv
    · exact ih _ tag op hmem hop hslug


/-! ### The registry step of the loader's tag assignment -/


theorem registerTagNamed_fresh (st : NormState) (k : String)
    (hga : assocGet st.tagsByName k = none) :
    ∃ t fact2, registerTagNamed st k (JVal.obj []) =
        (t, { tagsByName := st.tagsByName ++ [(k, t)], factState := fact2 }) ∧
      t.name = k ∧ t.isFallback = (k == defaultUntaggedName) ∧
      t.operations = [] := by
  unfold registerTagNamed
  rw [hga]
  exact ⟨_, _, rfl, rfl, rfl, rfl⟩

theorem registerTagNamed_existing (st : NormState) (k : String) (existing : Tag)
    (hga : assocGet st.tagsByName k = some existing) :
    ∃ t, registerTagNamed st k (JVal.obj []) =
        (t, { st with tagsByName := setAssoc st.tagsByName k t }) ∧
      t.name = existing.name ∧ t.isFallback = existing.isFallback ∧
      t.operations = existing.operations := by
  unfold registerTagNamed
  rw [hga]
  refine ⟨_, rfl, ?_, ?_, ?_⟩ <;>
    cases hdf : descFalsy existing.description <;>
      cases hed : existing.externalDocs <;>
        simp [jgetV, jget, buildExternalDocs, pickExtensions, hdf, hed] <;>
          first
            | rfl
            | (split <;> rfl)


/-! ### Claims about the customizer and runtime artifacts -/


/-- No operation that survived the customizer's nonempty-tags filter is
counted by the empty-tags filter. -/
theorem untagged_filter_len_zero (l : List Operation) :
    ((l.filter (fun op => op.tags.length != 0)).filter
      (fun op => op.tags.length == 0)).length = 0 := by
  induction l with
  | nil => rfl
  | cons op rest ih =>
    by_cases h : op.tags.length = 0
    · simp only [List.filter, h]
      simpa using ih
    · simp only [List.filter]
      rw [show (op.tags.length != 0) = true by simpa using h]
      simp only [List.filter]
      rw [show (op.tags.length == 0) = false by simpa using h]
      exact ih

/-- C2 (code bug): `customizeSpec` is not a pure transform.  The
`cloned` record shares its operation objects with the input spec and
reassigns each one's `tags` (and `codeSampleGroups`) in place, so after
customizing the fixture spec with options that exclude its only tag, the
input spec's operation has lost its tag reference — the second component
of the embedding, the input as observable after the call, differs from
the input before the call. -/
theorem claim2_customize_mutates_input :
    (customizeSpec specA optsExcludeA).2.operations.map
        (fun op => op.tags) = [[]] ∧
    specA.operations.map (fun op => op.tags) =
      [[{ name := "A", slug := "a", isFallback := false }]] ∧
    (customizeSpec specA optsExcludeA).2.operations.map
        (fun op => op.tags) ≠
      specA.operations.map (fun op => op.tags) := by
  refine ⟨rfl, rfl, ?_⟩
  decide

/-- C10: after customization `stats.untaggedOperations` is always `0` —
operations left with no surviving tag are dropped before the stats are
recomputed, and the recomputed count tallies exactly the operations with
an empty tags list, none of which remain.  The loader's homonymous stat
counts something else: operations whose every tag is the fallback tag.
The fixture spec whose only operation carries just the fallback tag has
loader stat `1`, yet its customization keeps that operation and reports
`0`. -/
theorem claim10_untagged_stat (spec : Spec) (o : COptions) :
    (customizeSpec spec o).1.stats.untaggedOperations = 0 ∧
    (normStats specUn.tags specUn.operations).untaggedOperations = 1 ∧
    (customizeSpec specUn optsNone).1.operations.length = 1 ∧
    (customizeSpec specUn optsNone).1.stats.untaggedOperations = 0 := by
  refine ⟨?_, rfl, rfl, rfl⟩
  exact untagged_filter_len_zero _

/-- C4 (amended): the normalized tag list is sorted by the loader's
comparator (document order, then fallback-last tie-break, then name) and the
customized tag list is sorted by the customizer's comparator (explicit user
order, then name) — but only the loader's relation keeps the fallback
"Untagged" tag last among order ties: among tags with the same order rank a
fallback tag is never ≤ a non-fallback one under the loader's relation,
while the customizer's comparator has no such tie-break (see the
counterexample, where customization re-sorts the fallback tag first by
name). -/
theorem claim4_tag_sort :
    (∀ ord tags, List.Sorted (tagLeNorm ord) (normSortTags ord tags)) ∧
    (∀ spec o, List.Sorted (tagLeCustom (createOrderMap o.tagsOrder))
      ((customizeSpec spec o).1.tags)) ∧
    (∀ (ord : List (String × Nat)) (a b : Tag),
      assocGet ord a.name = assocGet ord b.name →
      a.isFallback = true → b.isFallback = false → ¬ tagLeNorm ord a b) := by
  refine ⟨sorted_normSortTags, fun spec o => ?_, ?_⟩
  · exact sorted_customTags (createOrderMap o.tagsOrder) _
  · intro ord a b he hfa hfb hle
    unfold tagLeNorm tagLeNormB at hle
    rw [he] at hle
    revert hle
    cases assocGet ord b.name with
    | none =>
      intro hle
      have hle2 : tagTieB a b = true := hle
      simp [tagTieB, hfa, hfb] at hle2
    | some y =>
      intro hle
      have hle2 : (if y = y then tagTieB a b else decide (y < y)) = true := hle
      rw [if_pos rfl] at hle2
      simp [tagTieB, hfa, hfb] at hle2

/-- C4 counterexample: customizing the fixture spec holding a `Zebra` tag
and the fallback `Untagged` tag (no explicit order, so every tag is an
order tie) sorts `Untagged` FIRST, purely by name — the fallback tag is not
sorted last among ties in the customized spec.  The loader's sort on the
same tags does put the fallback tag last. -/
theorem claim4_counterexample :
    ((customizeSpec specZU optsNone).1.tags.map
        (fun t => (t.name, t.isFallback)) =
      [("Untagged", true), ("Zebra", false)]) ∧
    ((normSortTags [] [tagUn, tagZe]).map (fun t => (t.name, t.isFallback)) =
      [("Zebra", false), ("Untagged", true)]) := by
  exact ⟨by decide, by decide⟩

/-- C4 witness: the loader's relation refuses to put the concrete fallback
tag before the concrete non-fallback tag at an order tie. -/
theorem claim4_tag_sort_witness : ¬ tagLeNorm [] tagUn tagZe :=
  claim4_tag_sort.2.2 [] tagUn tagZe rfl rfl rfl

/-- C7: a normalized operation whose declared `tags` array is empty or
absent ends up in exactly one tag, the fallback tag named `"Untagged"`
with `isFallback = true`: the tag-reference list stamped on the operation
is the singleton fallback reference, the operation is appended to the
registry's `"Untagged"` entry, and every other registry entry is
untouched.  The hypothesis is the registry invariant `registerTag`
maintains: an entry keyed `"Untagged"` is the fallback tag. -/
theorem claim7_untagged_fallback (st : NormState) (rawOp : JVal)
    (op : Operation)
    (hwf : ∀ t, assocGet st.tagsByName defaultUntaggedName = some t →
      t.name = defaultUntaggedName ∧ t.isFallback = true)
    (hdecl : jgetV rawOp "tags" = none ∨
      jgetV rawOp "tags" = some (JVal.arr [])) :
    ∃ slug,
      (processOperationTags st rawOp op).1 =
        [{ name := defaultUntaggedName, slug := slug, isFallback := true }] ∧
      tagOps (processOperationTags st rawOp op).2 defaultUntaggedName =
        tagOps st defaultUntaggedName ++
          [{ op with tags := (processOperationTags st rawOp op).1 }] ∧
      (∀ k, k ≠ defaultUntaggedName →
        tagOps (processOperationTags st rawOp op).2 k = tagOps st k) := by
  have htags : operationTagsOf rawOp = [JVal.str defaultUntaggedName] := by
    rcases hdecl with h | h <;> simp [operationTagsOf, h]
  have hP : processOperationTags st rawOp op =
      ([toTagRef (registerTagNamed st defaultUntaggedName (JVal.obj [])).1],
       pushOpToTag (registerTagNamed st defaultUntaggedName (JVal.obj [])).2
         (registerTagNamed st defaultUntaggedName (JVal.obj [])).1.name
         { op with tags :=
             [toTagRef
               (registerTagNamed st defaultUntaggedName (JVal.obj [])).1] }) := by
    unfold processOperationTags
    rw [htags]
    rfl
  rw [hP]
  cases hga : assocGet st.tagsByName defaultUntaggedName with
  | none =>
    obtain ⟨t, fact2, hreg, hn, hf, ho⟩ :=
      registerTagNamed_fresh st defaultUntaggedName hga
    rw [hreg]
    dsimp only
    have hlook : assocGet (st.tagsByName ++ [(defaultUntaggedName, t)])
        defaultUntaggedName = some t := by
      rw [assocGet_append_none _ _ _ hga, assocGet_cons]
      simp
    refine ⟨t.slug, ?_, ?_, ?_⟩
    · simp [toTagRef, hn, hf]
    · rw [hn]
      unfold pushOpToTag
      rw [hlook]
      dsimp only
      unfold tagOps
      rw [assocGet_setAssoc_self, hga]
      dsimp only
      rw [ho]
    · intro k hk
      rw [hn]
      unfold pushOpToTag
      rw [hlook]
      dsimp only
      unfold tagOps
      rw [assocGet_setAssoc_ne _ _ _ _ hk,
        assocGet_append_single_ne _ _ _ _ hk]
  | some existing =>
    obtain ⟨hn0, hf0⟩ := hwf existing hga
    obtain ⟨t, hreg, hn, hf, ho⟩ :=
      registerTagNamed_existing st defaultUntaggedName existing hga
    rw [hreg]
    dsimp only
    have hlook : assocGet (setAssoc st.tagsByName defaultUntaggedName t)
        defaultUntaggedName = some t := assocGet_setAssoc_self _ _ _
    refine ⟨t.slug, ?_, ?_, ?_⟩
    · simp [toTagRef, hn, hn0, hf, hf0]
    · rw [hn, hn0]
      unfold pushOpToTag
      rw [hlook]
      dsimp only
      unfold tagOps
      rw [assocGet_setAssoc_self, hga]
      dsimp only
      rw [ho]
    · intro k hk
      rw [hn, hn0]
      unfold pushOpToTag
      rw [hlook]
      dsimp only
      unfold tagOps
      rw [assocGet_setAssoc_ne _ _ _ _ hk, assocGet_setAssoc_ne _ _ _ _ hk]

/-- C7 witness: a concrete run of the tag-assignment step on a raw
operation with no declared tags, starting from an empty registry. -/
theorem claim7_untagged_fallback_witness :
    ∃ slug,
      (processOperationTags ⟨[], []⟩ (JVal.obj []) opUn).1 =
        [{ name := defaultUntaggedName, slug := slug, isFallback := true }] ∧
      tagOps (processOperationTags ⟨[], []⟩ (JVal.obj []) opUn).2
          defaultUntaggedName =
        tagOps ⟨[], []⟩ defaultUntaggedName ++
          [{ opUn with tags :=
              (processOperationTags ⟨[], []⟩ (JVal.obj []) opUn).1 }] ∧
      (∀ k, k ≠ defaultUntaggedName →
        tagOps (processOperationTags ⟨[], []⟩ (JVal.obj []) opUn).2 k =
          tagOps ⟨[], []⟩ k) :=
  claim7_untagged_fallback ⟨[], []⟩ (JVal.obj []) opUn
    (fun t h => Option.noConfusion h) (Or.inl rfl)

/-- C6: every chunk the runtime artifact builder produces holds at most
`OPERATIONS_PER_CHUNK = 50` operations; the candidate slicing covers each
tag's operation list exactly, in original order; and a tag's slices become
that tag's chunks in order, keyed `tag:{slug}:chunk:{index}` with ascending
indices, each chunk's map built from its own slice. -/
theorem claim6_chunk_capacity :
    (∀ (spec : Spec), ∀ c ∈ (createRuntimeSpecArtifacts spec).chunks,
      c.operations.length ≤ OPERATIONS_PER_CHUNK) ∧
    (∀ (l : List StrippedOp), (chunkCandidateSlices l).flatten = l) ∧
    (∀ (slug : String) (slices : List (List StrippedOp)) (i : Nat)
        (chunks : List Chunk) (lookup : List (String × String)),
      (addTagChunks slug i slices (chunks, lookup)).1 =
        chunks ++ (List.enumFrom i slices).map (fun p =>
          { id := createChunkId slug p.1, tagSlug := slug,
            fileName := buildChunkFileName (createChunkId slug p.1),
            operations := buildOpsMap p.2 })) := by
  refine ⟨?_, ?_, ?_⟩
  · intro spec c hc
    have hc2 : c ∈ (spec.tags.foldl (fun st2 tag => artifactsTagStep tag st2)
        (([], [], [], []) : List TagDigest × List DigestIndexEntry ×
          List Chunk × List (String × String))).2.2.1 := hc
    exact artifactsFold_capacity spec.tags _
      (fun c2 hc2b => absurd hc2b (List.not_mem_nil c2)) c hc2
  · intro l
    exact chunkSlices_flatten l.length l (Nat.le_refl _)
  · intro slug slices i chunks lookup
    exact addTagChunks_fst slug slices i chunks lookup

/-- C6 witness: the capacity bound applied to the one concrete chunk the
builder produces from the one-operation fixture spec. -/
theorem claim6_chunk_capacity_witness :
    (({ id := createChunkId "a" 0, tagSlug := "a",
        fileName := buildChunkFileName (createChunkId "a" 0),
        operations := buildOpsMap [stripOperationForChunk opA] } :
      Chunk)).operations.length ≤ OPERATIONS_PER_CHUNK :=
  claim6_chunk_capacity.1 specA _ (by
    rw [show (createRuntimeSpecArtifacts specA).chunks =
        [{ id := createChunkId "a" 0, tagSlug := "a",
           fileName := buildChunkFileName (createChunkId "a" 0),
           operations := buildOpsMap [stripOperationForChunk opA] }] from rfl]
    exact List.mem_singleton_self _)

/-- C5: for every operation of a tag of the spec handed to the runtime
artifact builder whose slug is non-empty, `operationChunkLookup` contains
that slug, the chunk it points to exists among the produced chunks, and
that chunk's operation map holds a full stripped operation record (a
`StrippedOp`, not a `Digest`) keyed by that slug; and the lookup keeps the
first chunk that claimed a slug — an entry already present is never
overwritten by a later chunk's claim. -/
theorem claim5_chunk_lookup :
    (∀ (spec : Spec) (tag : Tag) (op : Operation),
      tag ∈ spec.tags → op ∈ tag.operations → op.slug ≠ "" →
      ∃ cid c,
        assocGet (createRuntimeSpecArtifacts spec).operationChunkLookup
          op.slug = some cid ∧
        c ∈ (createRuntimeSpecArtifacts spec).chunks ∧ c.id = cid ∧
        ∃ e, assocGet c.operations op.slug = some e ∧ e.slug = op.slug) ∧
    (∀ (cid : String) (slice : List StrippedOp)
        (lookup : List (String × String)) (s v : String),
      assocGet lookup s = some v →
      assocGet (addLookup cid slice lookup) s = some v) := by
  refine ⟨?_, fun cid => addLookup_mono cid⟩
  intro spec tag op htag hop hslug
  obtain ⟨v, hv⟩ :=
    artifactsFold_present spec.tags ([], [], [], []) tag op htag hop hslug
  obtain ⟨c, hcm, hcid, e, hce, hes⟩ :=
    artifactsFold_inv spec.tags ([], [], [], [])
      (fun s cid h => Option.noConfusion h) op.slug v hv
  exact ⟨v, c, hv, hcm, hcid, e, hce, hes⟩

/-- C5 witness: the lookup fact instantiated on the one-operation fixture
spec. -/
theorem claim5_chunk_lookup_witness :
    ∃ cid c,
      assocGet (createRuntimeSpecArtifacts specA).operationChunkLookup
        opA.slug = some cid ∧
      c ∈ (createRuntimeSpecArtifacts specA).chunks ∧ c.id = cid ∧
      ∃ e, assocGet c.operations opA.slug = some e ∧ e.slug = opA.slug :=
  claim5_chunk_lookup.1 specA tagA opA (List.mem_cons_self _ _)
    (List.mem_cons_self _ _) (by decide)

end SON
